import Mathlib

/-! BusTub storage core: extendible hash table, LRU-K replacer, buffer pool, B+ tree pages,
index iterator.

Shallow embedding of
* `src/container/hash/extendible_hash_table.cpp`
* `src/buffer/lru_k_replacer.cpp`
* `src/buffer/buffer_pool_manager_instance.cpp`
* `src/storage/page/b_plus_tree_leaf_page.cpp`
* `src/storage/page/b_plus_tree_internal_page.cpp`
* `src/storage/index/index_iterator.cpp`

Conventions.  A `std::shared_ptr<Bucket>` is a handle (an index) into a bucket store, so
that pointer equality `dir_[i] == target_bucket` is equality of handles.  The value of
`std::hash<K>()(key)` is an integer `hash key`.  The masks of the hash table are 32-bit
`int`s: `(1 << n) - 1` and `1 << n` have a value for `n <= 30` only, where
`h & ((1 << n) - 1)` is `h % 2 ^ n` and `h & (1 << n)` is non-zero exactly when
`(h / 2 ^ n) % 2` is non-zero (two's complement).  `Insert` has no result (`none`) when it
comes to a shift that has no value, so that no table it leaves has a global depth above 30.
For the `int` instantiations `std::hash` is the identity.
In the B+ tree pages `array_` is a list with one element per slot, an access outside the
slots and a failed `assert` end the operation, and `/` on `int` is `Int.tdiv`.  Three
identifiers that the sources misspell are read as the members they stand for:
`tatal` as `total`, `array` as `array_`, `KeyIndex(key.comparator)` as
`KeyIndex(key, comparator)`.
-/

namespace bustub

/-! ## Extendible hash table: data model -/

/-- Model of `ExtendibleHashTable::Bucket`: capacity `size_`, local depth `depth_`, item list `list_`. -/
structure Bucket (K V : Type) where
  size_ : Nat
  depth_ : Nat
  list_ : List (K × V)
deriving DecidableEq, Repr

/-- Model of `ExtendibleHashTable`: members of the class, with `store` the memory holding the buckets
that the shared pointers of `dir_` point to (`dir_[i]` is a handle into `store`). -/
structure ExtendibleHashTable (K V : Type) where
  global_depth_ : Nat
  bucket_size_ : Nat
  num_buckets_ : Int
  dir_ : List Nat
  store : List (Bucket K V)
deriving DecidableEq, Repr

/-- Whether the `int` expressions `1 << n` and `(1 << n) - 1` have a value: `int` has 32
bits, so `2 ^ n` must stay below `2 ^ 31`; `1 << 31` does not fit, and `(1 << 31) - 1`
overflows. -/
def shiftDefined (n : Nat) : Bool := decide (n ≤ 30)

/-- Test `(x & mask) != 0` with `int mask = 1 << n`, for the depths `n <= 30` at which the
mask has a value (`shiftDefined n`); the loop of `Insert` evaluates it at no other depth. -/
def bitAt (x : Int) (n : Nat) : Bool := (x / 2 ^ n) % 2 != 0

end bustub

namespace bustub
namespace Bucket
variable {K V : Type}

/-- Constructor `Bucket(array_size, depth)`. -/
def mk0 (array_size : Nat) (depth : Nat) : Bucket K V := ⟨array_size, depth, []⟩

/-- Modelled from the spec: `Bucket::IsFull` is declared in the class header, which is not
among the sources; "each bucket stores at most `bucket_size` entries", so the bucket is full
when its list holds `size_` entries. -/
def IsFull (b : Bucket K V) : Bool := b.list_.length == b.size_

/-- Model of `Bucket::Find` on the item list: the value of the first item whose key is `key`. -/
def findIn [DecidableEq K] (key : K) : List (K × V) → Option V
  | [] => none
  | item :: rest => if item.1 = key then some item.2 else findIn key rest

/-- Model of `Bucket::Find`. -/
def Find [DecidableEq K] (b : Bucket K V) (key : K) : Option V := findIn key b.list_

/-- Model of `Bucket::Remove`: `list_.remove(pair(key, value))` drops every item equal to the pair
found by `Find`. -/
def Remove [DecidableEq K] [DecidableEq V] (b : Bucket K V) (key : K) : Bool × Bucket K V :=
  match b.Find key with
  | some value => (true, { b with list_ := b.list_.filter (fun item => !decide (item = (key, value))) })
  | none => (false, b)

/-- Model of `Bucket::Insert`: `list_.emplace_back`. -/
def Insert (b : Bucket K V) (key : K) (value : V) : Bucket K V :=
  { b with list_ := b.list_ ++ [(key, value)] }

/-- The update loop at the head of `ExtendibleHashTable::Insert`: overwrite the value of the
first item whose key is `key`; `none` when no item has that key. -/
def overwrite [DecidableEq K] (key : K) (value : V) : List (K × V) → Option (List (K × V))
  | [] => none
  | item :: rest =>
    if key = item.1 then some ((item.1, value) :: rest)
    else (overwrite key value rest).map (fun r => item :: r)

end Bucket
end bustub

namespace bustub
namespace ExtendibleHashTable
variable {K V : Type}

/-- Constructor `ExtendibleHashTable(bucket_size)`. -/
def new (bucket_size : Nat) : ExtendibleHashTable K V :=
  { global_depth_ := 0, bucket_size_ := bucket_size, num_buckets_ := 1,
    dir_ := [0], store := [Bucket.mk0 bucket_size 0] }

/-- Model of `IndexOf`: `hash(key) & mask` with `int mask = (1 << global_depth_) - 1`, for the
global depths up to 30 at which the mask has a value (`shiftDefined`).  `Insert` checks the
depth before every evaluation and leaves no table that is deeper, so that `Find` and `Remove`
evaluate `IndexOf` within this range on every table that is reached. -/
def IndexOf (hash : K → Int) (t : ExtendibleHashTable K V) (key : K) : Nat :=
  (hash key % 2 ^ t.global_depth_).toNat

/-- The handle `dir_[i]`. -/
def handleAt (t : ExtendibleHashTable K V) (i : Nat) : Nat := t.dir_.getD i 0

/-- The bucket a handle points to. -/
def bucketOf (t : ExtendibleHashTable K V) (h : Nat) : Bucket K V :=
  t.store.getD h (Bucket.mk0 0 0)

/-- The bucket `*dir_[i]`. -/
def bucketAt (t : ExtendibleHashTable K V) (i : Nat) : Bucket K V := t.bucketOf (t.handleAt i)

def GetGlobalDepth (t : ExtendibleHashTable K V) : Nat := t.global_depth_

def GetLocalDepth (t : ExtendibleHashTable K V) (dir_index : Nat) : Nat :=
  (t.bucketAt dir_index).depth_

def GetNumBuckets (t : ExtendibleHashTable K V) : Int := t.num_buckets_

/-- Model of `ExtendibleHashTable::Find`. -/
def Find [DecidableEq K] (hash : K → Int) (t : ExtendibleHashTable K V) (key : K) : Option V :=
  (t.bucketAt (IndexOf hash t key)).Find key

/-- Model of `ExtendibleHashTable::Remove`: the result and the table afterwards. -/
def Remove [DecidableEq K] [DecidableEq V] (hash : K → Int) (t : ExtendibleHashTable K V)
    (key : K) : Bool × ExtendibleHashTable K V :=
  let h := t.handleAt (IndexOf hash t key)
  let r := (t.bucketOf h).Remove key
  (r.1, { t with store := t.store.set h r.2 })

/-- Directory doubling (lines 99-109): performed when the target's depth is the global depth. -/
def grow (t : ExtendibleHashTable K V) (h : Nat) : ExtendibleHashTable K V :=
  if (t.bucketOf h).depth_ = t.global_depth_ then
    { t with dir_ := t.dir_ ++ t.dir_, global_depth_ := t.global_depth_ + 1 }
  else t

/-- The slot redirection loop (lines 122-129) on a directory list, `i` the index of its head. -/
def redirect (h : Nat) (depth : Nat) (zeroH oneH : Nat) : Nat → List Nat → List Nat
  | _, [] => []
  | i, e :: rest =>
    (if e = h then (if bitAt (i : Int) depth then oneH else zeroH) else e)
      :: redirect h depth zeroH oneH (i + 1) rest

/-- One round of the `while (target_bucket->IsFull())` loop (lines 99-131), `h` being the
handle of the target bucket: double the directory if needed, count the new bucket, split the
items by bit `depth` of their hash into two fresh buckets and redirect the slots. -/
def splitBucket (hash : K → Int) (t : ExtendibleHashTable K V) (h : Nat) :
    ExtendibleHashTable K V :=
  let target := t.bucketOf h
  let t1 := grow t h
  let depth := target.depth_
  let zero_bucket : Bucket K V :=
    ⟨t.bucket_size_, depth + 1, target.list_.filter (fun item => !bitAt (hash item.1) depth)⟩
  let one_bucket : Bucket K V :=
    ⟨t.bucket_size_, depth + 1, target.list_.filter (fun item => bitAt (hash item.1) depth)⟩
  let zeroH := t.store.length
  let oneH := t.store.length + 1
  { t1 with
    num_buckets_ := t.num_buckets_ + 1
    store := t.store ++ [zero_bucket, one_bucket]
    dir_ := redirect h depth zeroH oneH 0 t1.dir_ }

/-- The `while (target_bucket->IsFull())` loop followed by the final `Bucket::Insert`
(lines 97-135), bounded by `fuel` rounds.  A round evaluates `int mask = 1 << depth` for the
split (line 113) and then `IndexOf(key)` at the new global depth (line 131); the result is
`none` when one of the two has no value, and when the fuel runs out. -/
def insertLoop (hash : K → Int) : Nat → ExtendibleHashTable K V → K → V →
    Option (ExtendibleHashTable K V)
  | 0, _, _, _ => none
  | fuel + 1, t, key, value =>
    let h := t.handleAt (IndexOf hash t key)
    if (t.bucketOf h).IsFull then
      if shiftDefined (t.bucketOf h).depth_
          && shiftDefined (splitBucket hash t h).global_depth_ then
        insertLoop hash fuel (splitBucket hash t h) key value
      else none
    else some { t with store := t.store.set h ((t.bucketOf h).Insert key value) }

/-- Model of `ExtendibleHashTable::Insert` with a bound on the rounds of its loop: `IndexOf(key)`
(line 85, no value above depth 30), the overwrite of a present key, else the loop. -/
def InsertFuel [DecidableEq K] (hash : K → Int) (fuel : Nat) (t : ExtendibleHashTable K V)
    (key : K) (value : V) : Option (ExtendibleHashTable K V) :=
  if shiftDefined t.global_depth_ then
    let h := t.handleAt (IndexOf hash t key)
    match Bucket.overwrite key value (t.bucketOf h).list_ with
    | some l => some { t with store := t.store.set h { t.bucketOf h with list_ := l } }
    | none => insertLoop hash fuel t key value
  else none

/-- A number of rounds that the loop of `Insert` cannot exceed: every round raises the local
depth of the target bucket by one, local depths are at most the global depth, and a round
needs a global depth of at most 30 at its end. -/
def insertFuel : Nat := 32

/-- Model of `ExtendibleHashTable::Insert`; `none` stands for a call that comes to a shift without a
value: a directory of depth 31 is beyond the `int` masks. -/
def Insert [DecidableEq K] (hash : K → Int) (t : ExtendibleHashTable K V) (key : K) (value : V) :
    Option (ExtendibleHashTable K V) :=
  InsertFuel hash insertFuel t key value

/-- The items of a bucket whose hash agrees with the hash of `key` on the low 30 bits: no
directory of depth 30 or less tells them apart from `key`. -/
def twins (hash : K → Int) (key : K) (l : List (K × V)) : List (K × V) :=
  l.filter (fun item => decide (hash item.1 % 2 ^ 30 = hash key % 2 ^ 30))

/-- Well-formedness of a table with respect to the hash function. -/
structure WF (hash : K → Int) (t : ExtendibleHashTable K V) : Prop where
  depth_max : t.global_depth_ ≤ 30
  len_le : ∀ i, i < t.dir_.length → (t.bucketAt i).list_.length ≤ t.bucket_size_
  size_pos : 1 ≤ t.bucket_size_
  dir_len : t.dir_.length = 2 ^ t.global_depth_
  handle_lt : ∀ i, i < t.dir_.length → t.handleAt i < t.store.length
  cap : ∀ i, i < t.dir_.length → (t.bucketAt i).size_ = t.bucket_size_
  depth_le : ∀ i, i < t.dir_.length → (t.bucketAt i).depth_ ≤ t.global_depth_
  hash_ok : ∀ i, i < t.dir_.length → ∀ item ∈ (t.bucketAt i).list_,
    hash item.1 % 2 ^ (t.bucketAt i).depth_ = (i : Int) % 2 ^ (t.bucketAt i).depth_
  nodup : ∀ i, i < t.dir_.length → ((t.bucketAt i).list_.map Prod.fst).Nodup
  share : ∀ i j, i < t.dir_.length → j < t.dir_.length →
    (t.handleAt i = t.handleAt j ↔
      (i : Int) % 2 ^ (t.bucketAt i).depth_ = (j : Int) % 2 ^ (t.bucketAt i).depth_)

/-- Replace the item list of the bucket behind handle `h`. -/
def setList (t : ExtendibleHashTable K V) (h : Nat) (l : List (K × V)) : ExtendibleHashTable K V :=
  { t with store := t.store.set h { t.bucketOf h with list_ := l } }

/-- The global depth after one round on the bucket behind handle `h`. -/
def depthAfter (t : ExtendibleHashTable K V) (h : Nat) : Nat :=
  if (t.bucketOf h).depth_ = t.global_depth_ then t.global_depth_ + 1 else t.global_depth_

/-- The bucket that replaces the split bucket `b` in a slot whose index has bit `c` at the
old depth. -/
def halfOf (hash : K → Int) (bs : Nat) (b : Bucket K V) (c : Bool) : Bucket K V :=
  ⟨bs, b.depth_ + 1, b.list_.filter (fun item => bitAt (hash item.1) b.depth_ == c)⟩

/-- The tables that `Insert` and `Remove` calls produce from a freshly constructed one. -/
inductive Reachable [DecidableEq K] [DecidableEq V] (hash : K → Int) (bucket_size : Nat) :
    ExtendibleHashTable K V → Prop
  | init : Reachable hash bucket_size (new bucket_size)
  | insert {t t2 : ExtendibleHashTable K V} (key : K) (value : V) :
      Reachable hash bucket_size t → Insert hash t key value = some t2 →
      Reachable hash bucket_size t2
  | remove {t : ExtendibleHashTable K V} (key : K) :
      Reachable hash bucket_size t → Reachable hash bucket_size (Remove hash t key).2

end ExtendibleHashTable
end bustub

namespace bustub
open ExtendibleHashTable

/-- A table with bucket size 2 whose single bucket is full (keys 4 and 2). -/
def fullTable : ExtendibleHashTable Int Int :=
  { global_depth_ := 0, bucket_size_ := 2, num_buckets_ := 1, dir_ := [0],
    store := [⟨2, 0, [(4, 40), (2, 20)]⟩] }

end bustub

namespace bustub

/-! ## LRU-K replacer: data model -/

/-- A value of `entrys_`: access count and evictable flag (the list iterator `pos_` is the
position of the frame in the list that holds it). -/
structure FrameEntry where
  hit_count_ : Nat
  evictable : Bool
deriving DecidableEq, Repr

/-- Model of `LRUKReplacer`: `entrys_` is the `unordered_map` as an association list with one pair per
key; the two lists have their front first. -/
structure LRUKReplacer where
  replacer_size_ : Nat
  k_ : Nat
  curr_size_ : Nat
  entrys_ : List (Int × FrameEntry)
  history_list_ : List Int
  cache_list_ : List Int
deriving DecidableEq, Repr

/-- What a replacer call can end in besides returning: the two exceptions of the source, and
an erase through an iterator that does not point into the list (undefined in C++). -/
inductive ReplacerError where
  | invalid_argument
  | logic_error
  | undefined_erase
deriving DecidableEq, Repr

/-- Model of `static_cast<int>` of a `size_t`: the low 32 bits, read as a signed number. -/
def toInt32 (n : Nat) : Int :=
  if n % 4294967296 < 2147483648 then ((n % 4294967296 : Nat) : Int)
  else ((n % 4294967296 : Nat) : Int) - 4294967296

/-- Model of `x++` on a `size_t`: `2^64 - 1` wraps to 0. -/
def sizeInc (n : Nat) : Nat := if n = 18446744073709551615 then 0 else n + 1

/-- Model of `x--` on a `size_t`: 0 wraps to `2^64 - 1`. -/
def sizeDec (n : Nat) : Nat := if n = 0 then 18446744073709551615 else n - 1

end bustub

namespace bustub
namespace LRUKReplacer

/-- Model of `entrys_.find(frame_id)`. -/
def lookup : List (Int × FrameEntry) → Int → Option FrameEntry
  | [], _ => none
  | (g, e) :: rest, f => if g = f then some e else lookup rest f

/-- Model of `entrys_.erase(frame_id)`. -/
def eraseKey (m : List (Int × FrameEntry)) (f : Int) : List (Int × FrameEntry) :=
  m.filter (fun p => !decide (p.1 = f))

/-- Store `e` under `frame_id`. -/
def store (m : List (Int × FrameEntry)) (f : Int) (e : FrameEntry) : List (Int × FrameEntry) :=
  (f, e) :: eraseKey m f

/-- The entry `entrys_[frame_id]` refers to: the stored one, or a default-constructed one.
The class header is not among the sources, so the initial value of the `evictable` member of
a default-constructed entry is the parameter `ev0`; `hit_count_` starts at 0. -/
def entryAt (ev0 : Bool) (m : List (Int × FrameEntry)) (f : Int) : FrameEntry :=
  (lookup m f).getD ⟨0, ev0⟩

/-- The map after `entrys_[frame_id]` was evaluated (the entry exists afterwards). -/
def touch (ev0 : Bool) (m : List (Int × FrameEntry)) (f : Int) : List (Int × FrameEntry) :=
  match lookup m f with
  | some _ => m
  | none => store m f ⟨0, ev0⟩

/-- Constructor. -/
def new (num_frames k : Nat) : LRUKReplacer :=
  { replacer_size_ := num_frames, k_ := k, curr_size_ := 0, entrys_ := [],
    history_list_ := [], cache_list_ := [] }

/-- The reverse scan of `Evict` over one list, given back to front: the first frame whose
entry is evictable, and the map after the `entrys_[*it]` look-ups made on the way. -/
def scan (ev0 : Bool) : List Int → List (Int × FrameEntry) → Option Int × List (Int × FrameEntry)
  | [], m => (none, m)
  | f :: rest, m =>
    if (entryAt ev0 m f).evictable then (some f, touch ev0 m f)
    else scan ev0 rest (touch ev0 m f)

/-- Erase the node a reverse iterator points at: the last occurrence of `f`. -/
def eraseLast (l : List Int) (f : Int) : List Int := (l.reverse.erase f).reverse

/-- Model of `LRUKReplacer::Evict`: the victim (`none` for `false`) and the replacer afterwards. -/
def Evict (ev0 : Bool) (r : LRUKReplacer) : Option Int × LRUKReplacer :=
  match scan ev0 r.history_list_.reverse r.entrys_ with
  | (some f, m) =>
    (some f, { r with history_list_ := eraseLast r.history_list_ f,
                      entrys_ := eraseKey m f, curr_size_ := sizeDec r.curr_size_ })
  | (none, m) =>
    match scan ev0 r.cache_list_.reverse m with
    | (some f, m2) =>
      (some f, { r with cache_list_ := eraseLast r.cache_list_ f,
                        entrys_ := eraseKey m2 f, curr_size_ := sizeDec r.curr_size_ })
    | (none, m2) => (none, { r with entrys_ := m2 })

/-- Model of `LRUKReplacer::RecordAccess`. -/
def RecordAccess (ev0 : Bool) (r : LRUKReplacer) (frame_id : Int) :
    Except ReplacerError LRUKReplacer :=
  if frame_id > toInt32 r.replacer_size_ then .error .invalid_argument
  else
    let e := entryAt ev0 r.entrys_ frame_id
    let new_count := e.hit_count_ + 1
    let m := store r.entrys_ frame_id { e with hit_count_ := new_count }
    if new_count = 1 then
      .ok { r with entrys_ := m, curr_size_ := sizeInc r.curr_size_,
                   history_list_ := frame_id :: r.history_list_ }
    else if new_count = r.k_ then
      if frame_id ∈ r.history_list_ then
        .ok { r with entrys_ := m, history_list_ := r.history_list_.erase frame_id,
                     cache_list_ := frame_id :: r.cache_list_ }
      else .error .undefined_erase
    else if new_count > r.k_ then
      if frame_id ∈ r.cache_list_ then
        .ok { r with entrys_ := m, cache_list_ := frame_id :: r.cache_list_.erase frame_id }
      else .error .undefined_erase
    else .ok { r with entrys_ := m }

/-- Model of `LRUKReplacer::SetEvictable`. -/
def SetEvictable (ev0 : Bool) (r : LRUKReplacer) (frame_id : Int) (set_evictable : Bool) :
    LRUKReplacer :=
  let e := entryAt ev0 r.entrys_ frame_id
  { r with
    curr_size_ :=
      if e.evictable && !set_evictable then sizeDec r.curr_size_
      else if !e.evictable && set_evictable then sizeInc r.curr_size_
      else r.curr_size_
    entrys_ := store r.entrys_ frame_id { e with evictable := set_evictable } }

/-- Model of `LRUKReplacer::Remove`. -/
def Remove (r : LRUKReplacer) (frame_id : Int) : Except ReplacerError LRUKReplacer :=
  match lookup r.entrys_ frame_id with
  | none => .ok r
  | some e =>
    if !e.evictable then .error .logic_error
    else if e.hit_count_ < r.k_ then
      if frame_id ∈ r.history_list_ then
        .ok { r with history_list_ := r.history_list_.erase frame_id,
                     curr_size_ := sizeDec r.curr_size_,
                     entrys_ := eraseKey r.entrys_ frame_id }
      else .error .undefined_erase
    else
      if frame_id ∈ r.cache_list_ then
        .ok { r with cache_list_ := r.cache_list_.erase frame_id,
                     curr_size_ := sizeDec r.curr_size_,
                     entrys_ := eraseKey r.entrys_ frame_id }
      else .error .undefined_erase

/-- Model of `LRUKReplacer::Size`. -/
def Size (r : LRUKReplacer) : Nat := r.curr_size_

/-- The frames the replacer holds in one of its two lists. -/
def listed (r : LRUKReplacer) (f : Int) : Prop := f ∈ r.history_list_ ++ r.cache_list_

/-- Consistency of the lists with the map: no frame twice in the lists, every listed frame
has an entry with a recorded access, and every entry with a recorded access is listed. -/
structure Consistent (r : LRUKReplacer) : Prop where
  nodup : (r.history_list_ ++ r.cache_list_).Nodup
  entry_of_listed : ∀ f, listed r f → ∃ e, lookup r.entrys_ f = some e ∧ 1 ≤ e.hit_count_
  listed_of_hit : ∀ f e, lookup r.entrys_ f = some e → 1 ≤ e.hit_count_ → listed r f

/-- The test `Evict` applies to a frame of a list. -/
def evictableAt (ev0 : Bool) (r : LRUKReplacer) (f : Int) : Bool :=
  (entryAt ev0 r.entrys_ f).evictable

/-- A replacer together with the times of the accesses recorded so far: `clock` counts the
returning `RecordAccess` calls, `entered f` is the time of the access that put `f` into the
history list and `last f` the time of the most recent access of `f`. -/
structure Timed where
  r : LRUKReplacer
  clock : Nat
  entered : Int → Nat
  last : Int → Nat

/-- The timed replacer after a returning `RecordAccess(f)` that left the replacer `r2`. -/
def Timed.access (ev0 : Bool) (t : Timed) (f : Int) (r2 : LRUKReplacer) : Timed :=
  { r := r2
    clock := t.clock + 1
    entered := if (entryAt ev0 t.r.entrys_ f).hit_count_ = 0
      then Function.update t.entered f t.clock else t.entered
    last := Function.update t.last f t.clock }

/-- The timed replacers that calls produce from a freshly constructed one. -/
inductive TimedReachable (ev0 : Bool) (num_frames k : Nat) : Timed → Prop
  | init : TimedReachable ev0 num_frames k ⟨new num_frames k, 0, fun _ => 0, fun _ => 0⟩
  | recordAccess {t : Timed} (f : Int) (r2 : LRUKReplacer) :
      TimedReachable ev0 num_frames k t → RecordAccess ev0 t.r f = .ok r2 →
      TimedReachable ev0 num_frames k (t.access ev0 f r2)
  | setEvictable {t : Timed} (f : Int) (b : Bool) :
      TimedReachable ev0 num_frames k t →
      TimedReachable ev0 num_frames k { t with r := SetEvictable ev0 t.r f b }
  | remove {t : Timed} (f : Int) (r2 : LRUKReplacer) :
      TimedReachable ev0 num_frames k t → Remove t.r f = .ok r2 →
      TimedReachable ev0 num_frames k { t with r := r2 }
  | evict {t : Timed} :
      TimedReachable ev0 num_frames k t →
      TimedReachable ev0 num_frames k { t with r := (Evict ev0 t.r).2 }

/-- Evictable frames with fewer than `k_` recorded accesses (and at least one, so that the
frame did enter the history list). -/
def youngCandidate (r : LRUKReplacer) (f : Int) : Prop :=
  ∃ e, lookup r.entrys_ f = some e ∧ e.evictable = true ∧ 1 ≤ e.hit_count_ ∧ e.hit_count_ < r.k_

/-- Evictable frames with at least `k_` recorded accesses. -/
def oldCandidate (r : LRUKReplacer) (f : Int) : Prop :=
  ∃ e, lookup r.entrys_ f = some e ∧ e.evictable = true ∧ r.k_ ≤ e.hit_count_

/-- The invariant behind the victim choice, for `k_ >= 2`. -/
structure TimedInv (t : Timed) : Prop where
  cons : Consistent t.r
  hist : ∀ f ∈ t.r.history_list_, ∃ e, lookup t.r.entrys_ f = some e ∧ e.hit_count_ < t.r.k_
  cache : ∀ f ∈ t.r.cache_list_, ∃ e, lookup t.r.entrys_ f = some e ∧ t.r.k_ ≤ e.hit_count_
  hist_sorted : t.r.history_list_.Pairwise (fun a b => t.entered b < t.entered a)
  cache_sorted : t.r.cache_list_.Pairwise (fun a b => t.last b < t.last a)
  before : ∀ f, listed t.r f → t.entered f < t.clock ∧ t.last f < t.clock
  k_ge : 2 ≤ t.r.k_

end LRUKReplacer
end bustub

namespace bustub

/-- A call of the public interface of the replacer. -/
inductive ReplacerCall where
  | recordAccess (frame_id : Int)
  | setEvictable (frame_id : Int) (set_evictable : Bool)
  | remove (frame_id : Int)
  | evict
deriving DecidableEq, Repr

end bustub

namespace bustub
namespace LRUKReplacer

/-- A freshly constructed replacer at time 0. -/
def Timed.init (num_frames k : Nat) : Timed := ⟨new num_frames k, 0, fun _ => 0, fun _ => 0⟩

/-- One call on a timed replacer. -/
def Timed.call (ev0 : Bool) (t : Timed) : ReplacerCall → Except ReplacerError Timed
  | .recordAccess f =>
    match RecordAccess ev0 t.r f with
    | .ok r2 => .ok (t.access ev0 f r2)
    | .error e => .error e
  | .setEvictable f b => .ok { t with r := SetEvictable ev0 t.r f b }
  | .remove f =>
    match Remove t.r f with
    | .ok r2 => .ok { t with r := r2 }
    | .error e => .error e
  | .evict => .ok { t with r := (Evict ev0 t.r).2 }

/-- A sequence of calls, stopping at the first one that does not return. -/
def Timed.run (ev0 : Bool) : Timed → List ReplacerCall → Except ReplacerError Timed
  | t, [] => .ok t
  | t, c :: rest =>
    match t.call ev0 c with
    | .ok t2 => Timed.run ev0 t2 rest
    | .error e => .error e

/-- The state `Timed.run` ends in, the start state if a call does not return. -/
def Timed.after (ev0 : Bool) (t : Timed) (calls : List ReplacerCall) : Timed :=
  match Timed.run ev0 t calls with
  | .ok t2 => t2
  | .error _ => t

/-- Scenario S3 with `K = 2`: accesses 1, 2, 3, 1, 2, then the three frames set evictable. -/
def scenarioS3 : List ReplacerCall :=
  [.recordAccess 1, .recordAccess 2, .recordAccess 3, .recordAccess 1, .recordAccess 2,
   .setEvictable 1 true, .setEvictable 2 true, .setEvictable 3 true]

end LRUKReplacer
end bustub

namespace bustub

/-! ## Buffer pool manager: data model -/

/-- Model of `INVALID_PAGE_ID`. -/
def INVALID_PAGE_ID : Int := -1

/-- Modelled from the spec: `PAGE_SIZE`, a compile-time constant declared outside the
sources ("typically 4096"). -/
def PAGE_SIZE : Nat := 4096

/-- Model of `std::hash<page_id_t>`: the identity on `int`. -/
def pageHash (page_id : Int) : Int := page_id

/-- Model of `Page`: the byte buffer and the metadata the buffer pool keeps per frame. -/
structure Page where
  data_ : List Nat
  page_id_ : Int
  pin_count_ : Int
  is_dirty_ : Bool
deriving DecidableEq, Repr

/-- Modelled from the spec: `Page::ResetMemory` is declared outside the sources; it zeroes
the byte buffer ("zero memory"). -/
def Page.ResetMemory (p : Page) : Page := { p with data_ := List.replicate PAGE_SIZE 0 }

/-- Modelled from the spec: a default-constructed `Page` (declared outside the sources):
zeroed memory, `INVALID_PAGE_ID`, pin count 0, clean. -/
def Page.init : Page :=
  { data_ := List.replicate PAGE_SIZE 0, page_id_ := INVALID_PAGE_ID, pin_count_ := 0,
    is_dirty_ := false }

/-- Model of `BufferPoolManagerInstance`, together with the disk behind `disk_manager_`: `disk` maps a
page id to the bytes stored under it and `disk_log` lists the `WritePage` calls made so far,
oldest first.  `pages_` is indexed by frame id. -/
structure BufferPoolManagerInstance where
  pool_size_ : Nat
  pages_ : Int → Page
  page_table_ : ExtendibleHashTable Int Int
  replacer_ : LRUKReplacer
  free_list_ : List Int
  next_page_id_ : Int
  disk : Int → List Nat
  disk_log : List (Int × List Nat)

/-- What a buffer pool call can end in besides returning: an exception out of the replacer,
or an `Insert` into the page table that has no result (its loop comes to a shift without an
`int` value, the directory being 30 deep). -/
inductive PoolError where
  | replacer (e : ReplacerError)
  | table_depth
deriving DecidableEq, Repr

end bustub

namespace bustub
namespace BufferPoolManagerInstance

/-- Constructor.  `bucket_size` is the constant `bucket_size_` of the class header, which is
not among the sources; `disk` is the content of the disk at start. -/
def new (pool_size : Nat) (disk : Int → List Nat) (replacer_k : Nat) (bucket_size : Nat) :
    BufferPoolManagerInstance :=
  { pool_size_ := pool_size
    pages_ := fun _ => Page.init
    page_table_ := ExtendibleHashTable.new bucket_size
    replacer_ := LRUKReplacer.new pool_size replacer_k
    free_list_ := (List.range pool_size).map Int.ofNat
    next_page_id_ := 0
    disk := disk
    disk_log := [] }

/-- Assignment to members of `pages_[frame_id]`. -/
def setPage (s : BufferPoolManagerInstance) (frame_id : Int) (p : Page) :
    BufferPoolManagerInstance :=
  { s with pages_ := Function.update s.pages_ frame_id p }

/-- Model of `disk_manager_->WritePage(page_id, data)`. -/
def WritePage (s : BufferPoolManagerInstance) (page_id : Int) (data : List Nat) :
    BufferPoolManagerInstance :=
  { s with disk := Function.update s.disk page_id data,
           disk_log := s.disk_log ++ [(page_id, data)] }

/-- Model of `GetAvailableFrame`: the frame (`none` for `false`) and the pool afterwards. -/
def GetAvailableFrame (ev0 : Bool) (s : BufferPoolManagerInstance) :
    Option Int × BufferPoolManagerInstance :=
  match s.free_list_ with
  | fid :: rest => (some fid, { s with free_list_ := rest })
  | [] =>
    match s.replacer_.Evict ev0 with
    | (some fid, r) =>
      let s1 := { s with replacer_ := r }
      let s2 :=
        if (s1.pages_ fid).is_dirty_ then
          (s1.WritePage (s1.pages_ fid).page_id_ (s1.pages_ fid).data_).setPage fid
            { s1.pages_ fid with is_dirty_ := false }
        else s1
      (some fid,
        { s2 with page_table_ :=
            (s2.page_table_.Remove pageHash (s2.pages_ fid).page_id_).2 })
    | (none, r) => (none, { s with replacer_ := r })

/-- The tail shared by `NewPgImp` and the miss path of `FetchPgImp` up to the replacer
calls: `page_table_->Insert`, then `RecordAccess` and `SetEvictable(frame_id, false)`. -/
def install (ev0 : Bool) (s : BufferPoolManagerInstance) (page_id frame_id : Int)
    (afterInsert : BufferPoolManagerInstance → BufferPoolManagerInstance) :
    Except PoolError BufferPoolManagerInstance :=
  match s.page_table_.Insert pageHash page_id frame_id with
  | none => .error .table_depth
  | some t =>
    let s1 := afterInsert { s with page_table_ := t }
    match s1.replacer_.RecordAccess ev0 frame_id with
    | .error e => .error (.replacer e)
    | .ok r => .ok { s1 with replacer_ := r.SetEvictable ev0 frame_id false }

/-- Model of `NewPgImp`: the new page id with the frame of the returned page (`none` for `nullptr`),
and the pool afterwards. -/
def NewPgImp (ev0 : Bool) (s : BufferPoolManagerInstance) :
    Except PoolError (Option (Int × Int) × BufferPoolManagerInstance) :=
  match s.GetAvailableFrame ev0 with
  | (none, s1) => .ok (none, s1)
  | (some frame_id, s1) =>
    let new_page_id := s1.next_page_id_
    let s2 := { s1 with next_page_id_ := s1.next_page_id_ + 1 }
    let s3 := s2.setPage frame_id
      ({ s2.pages_ frame_id with page_id_ := new_page_id, pin_count_ := 1 }).ResetMemory
    match install ev0 s3 new_page_id frame_id id with
    | .error e => .error e
    | .ok s4 => .ok (some (new_page_id, frame_id), s4)

/-- Model of `FetchPgImp`: the frame of the returned page (`none` for `nullptr`) and the pool
afterwards. -/
def FetchPgImp (ev0 : Bool) (s : BufferPoolManagerInstance) (page_id : Int) :
    Except PoolError (Option Int × BufferPoolManagerInstance) :=
  match s.page_table_.Find pageHash page_id with
  | some frame_id =>
    let s1 := s.setPage frame_id
      { s.pages_ frame_id with pin_count_ := (s.pages_ frame_id).pin_count_ + 1 }
    match s1.replacer_.RecordAccess ev0 frame_id with
    | .error e => .error (.replacer e)
    | .ok r => .ok (some frame_id, { s1 with replacer_ := r.SetEvictable ev0 frame_id false })
  | none =>
    match s.GetAvailableFrame ev0 with
    | (none, s1) => .ok (none, s1)
    | (some frame_id, s1) =>
      let s2 := s1.setPage frame_id
        ({ s1.pages_ frame_id with page_id_ := page_id, pin_count_ := 1 }).ResetMemory
      match install ev0 s2 page_id frame_id
          (fun s => s.setPage frame_id { s.pages_ frame_id with data_ := s.disk page_id }) with
      | .error e => .error e
      | .ok s3 => .ok (some frame_id, s3)

/-- Model of `UnpinPgImp`. -/
def UnpinPgImp (ev0 : Bool) (s : BufferPoolManagerInstance) (page_id : Int) (is_dirty : Bool) :
    Bool × BufferPoolManagerInstance :=
  match s.page_table_.Find pageHash page_id with
  | none => (false, s)
  | some frame_id =>
    if (s.pages_ frame_id).pin_count_ ≤ 0 then (false, s)
    else
      let s1 := s.setPage frame_id
        { s.pages_ frame_id with pin_count_ := (s.pages_ frame_id).pin_count_ - 1 }
      let s2 :=
        if (s1.pages_ frame_id).pin_count_ = 0 then
          { s1 with replacer_ := s1.replacer_.SetEvictable ev0 frame_id true }
        else s1
      let s3 :=
        if !(s2.pages_ frame_id).is_dirty_ then
          s2.setPage frame_id { s2.pages_ frame_id with is_dirty_ := is_dirty }
        else s2
      (true, s3)

/-- Model of `FlushPgImp`. -/
def FlushPgImp (s : BufferPoolManagerInstance) (page_id : Int) :
    Bool × BufferPoolManagerInstance :=
  match s.page_table_.Find pageHash page_id with
  | none => (false, s)
  | some frame_id =>
    let s1 := s.WritePage page_id (s.pages_ frame_id).data_
    (true, s1.setPage frame_id { s1.pages_ frame_id with is_dirty_ := false })

/-- The body of the loop of `FlushAllPgsImp` for frame `i`. -/
def flushFrame (s : BufferPoolManagerInstance) (i : Nat) : BufferPoolManagerInstance :=
  if (s.pages_ i).page_id_ ≠ INVALID_PAGE_ID then
    let s1 := s.WritePage (s.pages_ i).page_id_ (s.pages_ i).data_
    s1.setPage i { s1.pages_ i with is_dirty_ := false }
  else s

/-- Model of `FlushAllPgsImp`. -/
def FlushAllPgsImp (s : BufferPoolManagerInstance) : BufferPoolManagerInstance :=
  (List.range s.pool_size_).foldl flushFrame s

/-- Model of `DeletePgImp`.  The dirty test reads `pages_->is_dirty_`, the flag of `pages_[0]`. -/
def DeletePgImp (s : BufferPoolManagerInstance) (page_id : Int) :
    Except PoolError (Bool × BufferPoolManagerInstance) :=
  match s.page_table_.Find pageHash page_id with
  | none => .ok (true, s)
  | some frame_id =>
    if (s.pages_ frame_id).pin_count_ > 0 then .ok (false, s)
    else
      let s1 :=
        if (s.pages_ 0).is_dirty_ then
          let w := s.WritePage page_id (s.pages_ frame_id).data_
          w.setPage frame_id { w.pages_ frame_id with is_dirty_ := false }
        else s
      let s2 := s1.setPage frame_id { s1.pages_ frame_id with page_id_ := INVALID_PAGE_ID }
      let s3 := { s2 with page_table_ := (s2.page_table_.Remove pageHash page_id).2 }
      let s4 := s3.setPage frame_id (s3.pages_ frame_id).ResetMemory
      match s4.replacer_.Remove frame_id with
      | .error e => .error (.replacer e)
      | .ok r => .ok (true, { s4 with replacer_ := r, free_list_ := s4.free_list_ ++ [frame_id] })

end BufferPoolManagerInstance
end bustub

namespace bustub
namespace BufferPoolManagerInstance
open LRUKReplacer

/-- The frame ids of the pool: `[0, pool_size_)`. -/
def inRange (s : BufferPoolManagerInstance) (f : Int) : Prop := 0 ≤ f ∧ f < s.pool_size_

/-- The invariant of the pool between calls (`limbo = none`) and inside `NewPgImp` and
`FetchPgImp` after `GetAvailableFrame` handed out the frame `limbo`. -/
structure Inv (s : BufferPoolManagerInstance) (limbo : Option Int) : Prop where
  pool_lt : s.pool_size_ < 2147483648
  table_wf : ExtendibleHashTable.WF pageHash s.page_table_
  rep_cons : Consistent s.replacer_
  rep_size : s.replacer_.replacer_size_ = s.pool_size_
  free_nodup : s.free_list_.Nodup
  free_ok : ∀ f ∈ s.free_list_, inRange s f ∧ lookup s.replacer_.entrys_ f = none ∧
    (s.pages_ f).pin_count_ = 0
  held : ∀ f, inRange s f → f ∉ s.free_list_ → limbo ≠ some f →
    ∃ e, lookup s.replacer_.entrys_ f = some e ∧
      (e.evictable = true ↔ (s.pages_ f).pin_count_ = 0)
  tracked_ok : ∀ f e, lookup s.replacer_.entrys_ f = some e →
    inRange s f ∧ 1 ≤ e.hit_count_ ∧ limbo ≠ some f
  pin_nonneg : ∀ f, 0 ≤ (s.pages_ f).pin_count_
  dir_ok : ∀ p f, ExtendibleHashTable.Find pageHash s.page_table_ p = some f →
    inRange s f ∧ f ∉ s.free_list_ ∧ limbo ≠ some f ∧ (s.pages_ f).page_id_ = p
  limbo_ok : ∀ f, limbo = some f → inRange s f ∧ f ∉ s.free_list_

/-- Two pools that differ at most in page bytes, dirty flags, the disk and the page id
counter. -/
structure SameMeta (s s2 : BufferPoolManagerInstance) : Prop where
  pool : s2.pool_size_ = s.pool_size_
  table : s2.page_table_ = s.page_table_
  rep : s2.replacer_ = s.replacer_
  free : s2.free_list_ = s.free_list_
  pin : ∀ f, (s2.pages_ f).pin_count_ = (s.pages_ f).pin_count_
  pid : ∀ f, (s2.pages_ f).page_id_ = (s.pages_ f).page_id_

/-- The pool after the dirty page of frame `fid` was written back (lines 52-55). -/
def writeBack (s : BufferPoolManagerInstance) (fid : Int) : BufferPoolManagerInstance :=
  if (s.pages_ fid).is_dirty_ then
    (s.WritePage (s.pages_ fid).page_id_ (s.pages_ fid).data_).setPage fid
      { s.pages_ fid with is_dirty_ := false }
  else s

/-- The pool after `GetAvailableFrame` took `fid` from the replacer, which is left as `r`. -/
def afterEvict (s : BufferPoolManagerInstance) (fid : Int) (r : LRUKReplacer) :
    BufferPoolManagerInstance :=
  { writeBack { s with replacer_ := r } fid with
    page_table_ := ((writeBack { s with replacer_ := r } fid).page_table_.Remove pageHash
      ((writeBack { s with replacer_ := r } fid).pages_ fid).page_id_).2 }

/-- What `GetAvailableFrame` leaves when it hands out frame `f`. -/
structure GafOut (s : BufferPoolManagerInstance) (f : Int) (s1 : BufferPoolManagerInstance) :
    Prop where
  inv : Inv s1 (some f)
  pool : s1.pool_size_ = s.pool_size_
  next : s1.next_page_id_ = s.next_page_id_
  pin : ∀ g, (s1.pages_ g).pin_count_ = (s.pages_ g).pin_count_
  pid : ∀ g, (s1.pages_ g).page_id_ = (s.pages_ g).page_id_
  data : ∀ g, (s1.pages_ g).data_ = (s.pages_ g).data_
  unpinned : (s.pages_ f).pin_count_ = 0
  find_sub : ∀ q g, ExtendibleHashTable.Find pageHash s1.page_table_ q = some g →
    ExtendibleHashTable.Find pageHash s.page_table_ q = some g
  find_keep : ∀ q, q ≠ (s.pages_ f).page_id_ →
    ExtendibleHashTable.Find pageHash s1.page_table_ q
      = ExtendibleHashTable.Find pageHash s.page_table_ q

/-- Every frame of the pool is pinned. -/
def allPinned (s : BufferPoolManagerInstance) : Prop :=
  ∀ f, inRange s f → 0 < (s.pages_ f).pin_count_

/-- What `NewPgImp` and the miss path of `FetchPgImp` leave after `GetAvailableFrame` left
`s1` and handed out `f`: page `p` sits in frame `f` with pin count 1 and bytes `d`. -/
structure Installed (s1 : BufferPoolManagerInstance) (f p : Int) (d : List Nat)
    (s2 : BufferPoolManagerInstance) : Prop where
  inv : Inv s2 none
  pool : s2.pool_size_ = s1.pool_size_
  free : s2.free_list_ = s1.free_list_
  disk : s2.disk = s1.disk
  disk_log : s2.disk_log = s1.disk_log
  pin_f : (s2.pages_ f).pin_count_ = 1
  pid_f : (s2.pages_ f).page_id_ = p
  data_f : (s2.pages_ f).data_ = d
  dirty_f : (s2.pages_ f).is_dirty_ = (s1.pages_ f).is_dirty_
  pages_other : ∀ g, g ≠ f → s2.pages_ g = s1.pages_ g
  find_p : ExtendibleHashTable.Find pageHash s2.page_table_ p = some f
  find_other : ∀ q, q ≠ p → ExtendibleHashTable.Find pageHash s2.page_table_ q
    = ExtendibleHashTable.Find pageHash s1.page_table_ q
  entry_f : lookup s2.replacer_.entrys_ f = some ⟨1, false⟩
  entry_other : ∀ g, g ≠ f → lookup s2.replacer_.entrys_ g = lookup s1.replacer_.entrys_ g

/-- The pool after a hit of `FetchPgImp` on frame `f`, the replacer's `RecordAccess` having
left `r`. -/
def afterHit (ev0 : Bool) (s : BufferPoolManagerInstance) (f : Int) (r : LRUKReplacer) :
    BufferPoolManagerInstance :=
  { s.setPage f { s.pages_ f with pin_count_ := (s.pages_ f).pin_count_ + 1 } with
    replacer_ := r.SetEvictable ev0 f false }

/-- The pool after a successful `UnpinPgImp` on frame `f`. -/
def afterUnpin (ev0 : Bool) (s : BufferPoolManagerInstance) (f : Int) (is_dirty : Bool) :
    BufferPoolManagerInstance :=
  { s with
    pages_ := Function.update s.pages_ f
      { s.pages_ f with pin_count_ := (s.pages_ f).pin_count_ - 1,
                        is_dirty_ := (s.pages_ f).is_dirty_ || is_dirty }
    replacer_ := if (s.pages_ f).pin_count_ - 1 = 0
      then s.replacer_.SetEvictable ev0 f true else s.replacer_ }

/-- The pool after `DeletePgImp` wrote the page back, or did not (lines 159-162): the test
reads the dirty flag of frame 0. -/
def deleteWrite (s : BufferPoolManagerInstance) (page_id frame_id : Int) :
    BufferPoolManagerInstance :=
  if (s.pages_ 0).is_dirty_ then
    (s.WritePage page_id (s.pages_ frame_id).data_).setPage frame_id
      { (s.WritePage page_id (s.pages_ frame_id).data_).pages_ frame_id with is_dirty_ := false }
  else s

/-- The pool after a successful `DeletePgImp` of a resident page, the replacer's `Remove`
having left `r`. -/
def afterDelete (s : BufferPoolManagerInstance) (page_id frame_id : Int) (r : LRUKReplacer) :
    BufferPoolManagerInstance :=
  { deleteWrite s page_id frame_id with
    pages_ := Function.update (deleteWrite s page_id frame_id).pages_ frame_id
      ({ (deleteWrite s page_id frame_id).pages_ frame_id with
          page_id_ := INVALID_PAGE_ID }).ResetMemory
    page_table_ := ((deleteWrite s page_id frame_id).page_table_.Remove pageHash page_id).2
    replacer_ := r
    free_list_ := (deleteWrite s page_id frame_id).free_list_ ++ [frame_id] }

end BufferPoolManagerInstance
end bustub

namespace bustub

/-- A call of the public interface of the buffer pool, or a write of the holder of a pin
into the bytes of a pinned frame. -/
inductive PoolCall where
  | newPage
  | fetchPage (page_id : Int)
  | unpinPage (page_id : Int) (is_dirty : Bool)
  | flushPage (page_id : Int)
  | flushAll
  | deletePage (page_id : Int)
  | writeData (frame_id : Int) (bytes : List Nat)
deriving DecidableEq, Repr

/-- What a call hands back to its caller. -/
inductive PoolResult where
  | page (r : Option (Int × Int))
  | frame (r : Option Int)
  | flag (b : Bool)
  | done
deriving DecidableEq, Repr

end bustub

namespace bustub
namespace BufferPoolManagerInstance
open LRUKReplacer

/-- One call on the pool.  A write into the bytes of a frame that is not pinned is not
performed. -/
def call (ev0 : Bool) (s : BufferPoolManagerInstance) :
    PoolCall → Except PoolError (PoolResult × BufferPoolManagerInstance)
  | .newPage =>
    match NewPgImp ev0 s with
    | .ok (r, s2) => .ok (.page r, s2)
    | .error e => .error e
  | .fetchPage p =>
    match FetchPgImp ev0 s p with
    | .ok (r, s2) => .ok (.frame r, s2)
    | .error e => .error e
  | .unpinPage p d => .ok (.flag (UnpinPgImp ev0 s p d).1, (UnpinPgImp ev0 s p d).2)
  | .flushPage p => .ok (.flag (FlushPgImp s p).1, (FlushPgImp s p).2)
  | .flushAll => .ok (.done, FlushAllPgsImp s)
  | .deletePage p =>
    match DeletePgImp s p with
    | .ok (b, s2) => .ok (.flag b, s2)
    | .error e => .error e
  | .writeData f bytes =>
    if 0 < (s.pages_ f).pin_count_ then
      .ok (.done, s.setPage f { s.pages_ f with data_ := bytes })
    else .ok (.done, s)

/-- A sequence of calls with the results handed back, stopping at the first call that does
not return. -/
def run (ev0 : Bool) : BufferPoolManagerInstance → List PoolCall →
    Except PoolError (List PoolResult × BufferPoolManagerInstance)
  | s, [] => .ok ([], s)
  | s, c :: rest =>
    match call ev0 s c with
    | .error e => .error e
    | .ok (r, s2) =>
      match run ev0 s2 rest with
      | .error e => .error e
      | .ok (rs, s3) => .ok (r :: rs, s3)

/-- The pool `run` ends in, the start pool if a call does not return. -/
def after (ev0 : Bool) (s : BufferPoolManagerInstance) (calls : List PoolCall) :
    BufferPoolManagerInstance :=
  match run ev0 s calls with
  | .ok (_, s2) => s2
  | .error _ => s

/-- The results `run` hands back, `none` if a call does not return. -/
def results (ev0 : Bool) (s : BufferPoolManagerInstance) (calls : List PoolCall) :
    Option (List PoolResult) :=
  match run ev0 s calls with
  | .ok (rs, _) => some rs
  | .error _ => none

/-- The pools that calls produce from a freshly constructed one. -/
inductive Reachable (ev0 : Bool) (s0 : BufferPoolManagerInstance) :
    BufferPoolManagerInstance → Prop
  | init : Reachable ev0 s0 s0
  | step {s s2 : BufferPoolManagerInstance} (c : PoolCall) (r : PoolResult) :
      Reachable ev0 s0 s → call ev0 s c = .ok (r, s2) → Reachable ev0 s0 s2

end BufferPoolManagerInstance
end bustub

namespace bustub
open LRUKReplacer BufferPoolManagerInstance

/-- Scenario for `DeletePgImp`: pages 0 and 1 in frames 0 and 1 of a pool of two frames, the
holder of page 1 writes a byte, page 1 is unpinned dirty; frame 0 stays clean. -/
def dirtyFrameOne : List PoolCall :=
  [.newPage, .newPage, .writeData 1 [7], .unpinPage 1 true]

/-- The mirror scenario: page 0 is unpinned dirty, page 1 is unpinned clean. -/
def dirtyFrameZero : List PoolCall :=
  [.newPage, .newPage, .writeData 0 [7], .unpinPage 0 true, .unpinPage 1 false]

/-- The number of entries of the replacer whose evictable flag is set. -/
def LRUKReplacer.evictableCount (r : LRUKReplacer) : Nat :=
  (r.entrys_.filter (fun p => p.2.evictable)).length

end bustub

namespace bustub
namespace BufferPoolManagerInstance
open LRUKReplacer

/-- A call whose `FetchPage`, if it is one, names a page id that `NewPage` has handed out
(the ids handed out so far are those of `[0, next_page_id_)`). -/
def allocatedCall (s : BufferPoolManagerInstance) : PoolCall → Prop
  | .fetchPage q => 0 ≤ q ∧ q < s.next_page_id_
  | _ => True

end BufferPoolManagerInstance
end bustub

namespace bustub
open LRUKReplacer BufferPoolManagerInstance

end bustub

namespace bustub
namespace BufferPoolManagerInstance
open LRUKReplacer BufferPoolManagerInstance

instance allocatedCallDecidable (s : BufferPoolManagerInstance) (c : PoolCall) :
    Decidable (allocatedCall s c) :=
  match c with
  | .newPage => isTrue trivial
  | .fetchPage q => inferInstanceAs (Decidable (0 ≤ q ∧ q < s.next_page_id_))
  | .unpinPage _ _ => isTrue trivial
  | .flushPage _ => isTrue trivial
  | .flushAll => isTrue trivial
  | .deletePage _ => isTrue trivial
  | .writeData _ _ => isTrue trivial

/-- What one call adds to the pin tally of page `p`: one for a `FetchPage(p)` that handed a
frame back and for a `NewPage` that returned `p`, minus one for an `UnpinPage(p, ·)` that
returned true. -/
def pinDelta (p : Int) : PoolCall → PoolResult → Int
  | .newPage, .page (some (q, _)) => if q = p then 1 else 0
  | .fetchPage q, .frame (some _) => if q = p then 1 else 0
  | .unpinPage q _, .flag true => if q = p then -1 else 0
  | _, _ => 0

/-- The pin tally of page `p` after a call that led from `s` to `s2`, the tally before it
being `n`: the tally restarts when the directory of `s` does not hold `p` (the call is then
the one by which `p` became resident), and is zero while `p` is not resident. -/
def countStep (p : Int) (s : BufferPoolManagerInstance) (c : PoolCall) (r : PoolResult)
    (s2 : BufferPoolManagerInstance) (n : Int) : Int :=
  if (ExtendibleHashTable.Find pageHash s2.page_table_ p).isSome then
    (if (ExtendibleHashTable.Find pageHash s.page_table_ p).isSome then n else 0)
      + pinDelta p c r
  else 0

/-- The pin tally of page `p` along a sequence of calls, with the pool the calls end in. -/
def pinTally (ev0 : Bool) (p : Int) :
    BufferPoolManagerInstance → List PoolCall → Int →
      Except PoolError (Int × BufferPoolManagerInstance)
  | s, [], n => .ok (n, s)
  | s, c :: rest, n =>
    match call ev0 s c with
    | .error e => .error e
    | .ok (r, s2) => pinTally ev0 p s2 rest (countStep p s c r s2 n)

end BufferPoolManagerInstance
end bustub

namespace bustub
namespace ExtendibleHashTable
variable {K V : Type}

/-- The number of physically distinct buckets the directory refers to: the number of
distinct handles in `dir_`. -/
def distinctBuckets (t : ExtendibleHashTable K V) : Nat := t.dir_.dedup.length

/-- The count kept in `num_buckets_` is the number of distinct buckets of the directory. -/
def CountOK (t : ExtendibleHashTable K V) : Prop := t.num_buckets_ = (distinctBuckets t : Int)

end ExtendibleHashTable
end bustub

namespace bustub
open ExtendibleHashTable

/-- The table of scenario S4 after its third insert: bucket size 2, keys 4, 2 and 1. -/
def splitTable : ExtendibleHashTable Int Int :=
  { global_depth_ := 1, bucket_size_ := 2, num_buckets_ := 2, dir_ := [1, 2],
    store := [⟨2, 0, [(4, 40), (2, 20)]⟩, ⟨2, 1, [(4, 40), (2, 20)]⟩, ⟨2, 1, [(1, 10)]⟩] }

end bustub

namespace bustub

/-! ## B+ tree pages: data model -/

/-- What an operation on a B+ tree page or on an index iterator can end in besides
returning: a failed `assert`, an access to `array_` outside its slots, a `nullptr` handed back
by `FetchPage` and dereferenced, an error out of the buffer pool, or (in the model only) a
loop that does not end within the rounds it is given. -/
inductive PageError where
  | assertion_failed
  | out_of_bounds (index : Int)
  | null_page
  | pool (e : PoolError)
  | unfinished
deriving DecidableEq, Repr

/-- Read of `array_[i]`; the list has one element per slot of the array. -/
def readSlot {α : Type} (array : List α) (i : Int) : Except PageError α :=
  if 0 ≤ i then
    match array.get? i.toNat with
    | some x => .ok x
    | none => .error (.out_of_bounds i)
  else .error (.out_of_bounds i)

/-- Assignment to `array_[i]` (both members of the pair). -/
def writeSlot {α : Type} (array : List α) (i : Int) (x : α) : Except PageError (List α) :=
  if 0 ≤ i ∧ i < array.length then .ok (array.set i.toNat x) else .error (.out_of_bounds i)

/-- A leaf page: the header members (those of `BPlusTreePage` and `next_page_id_`) and the
array of pairs, one list element per slot, also beyond `size_`.  `GetSize`, `SetSize`,
`IncreaseSize`, `GetMaxSize`, `GetPageId` and the other accessors of the header are defined in
`b_plus_tree_page.cpp`, which is not among the sources; they are taken as the reads and
writes of these members that their names say. -/
structure BPlusTreeLeafPage (K V : Type) where
  page_id_ : Int
  parent_page_id_ : Int
  size_ : Int
  max_size_ : Int
  next_page_id_ : Int
  array_ : List (K × V)
deriving DecidableEq, Repr

/-- An internal page: the header members and the array of pairs of a separator key and a
child, one list element per slot. -/
structure BPlusTreeInternalPage (K V : Type) where
  page_id_ : Int
  parent_page_id_ : Int
  size_ : Int
  max_size_ : Int
  array_ : List (K × V)
deriving DecidableEq, Repr

end bustub

namespace bustub
namespace BPlusTreeLeafPage
variable {K V : Type}

/-- Model of `Init`; `LEAF_PAGE_SIZE` is a macro of the class header, which is not among the
sources.  The parameter `max_size` is not used by the source. -/
def Init (p : BPlusTreeLeafPage K V) (page_id parent_id : Int) (_max_size : Int)
    (LEAF_PAGE_SIZE : Int) : BPlusTreeLeafPage K V :=
  { p with size_ := 0, page_id_ := page_id, parent_page_id_ := parent_id,
           next_page_id_ := INVALID_PAGE_ID, max_size_ := LEAF_PAGE_SIZE - 1 }

def GetNextPageId (p : BPlusTreeLeafPage K V) : Int := p.next_page_id_

def SetNextPageId (p : BPlusTreeLeafPage K V) (next_page_id : Int) : BPlusTreeLeafPage K V :=
  { p with next_page_id_ := next_page_id }

/-- The `while (st < ed)` loop of `KeyIndex` (lines 57-63), at most `fuel` rounds. -/
def keyIndexLoop (comparator : K → K → Int) (array : List (K × V)) (key : K) :
    Nat → Int → Int → Except PageError Int
  | 0, st, ed => if st < ed then .error .unfinished else .ok ed
  | fuel + 1, st, ed =>
    if st < ed then
      match readSlot array (Int.tdiv (ed - st) 2 + st) with
      | .error e => .error e
      | .ok item =>
        if comparator item.1 key ≥ 0 then
          keyIndexLoop comparator array key fuel st (Int.tdiv (ed - st) 2 + st)
        else keyIndexLoop comparator array key fuel (Int.tdiv (ed - st) 2 + st + 1) ed
    else .ok ed

/-- Model of `KeyIndex`.  Every round of the loop brings `st` and `ed` closer, so `size_`
rounds are enough. -/
def KeyIndex (comparator : K → K → Int) (p : BPlusTreeLeafPage K V) (key : K) :
    Except PageError Int :=
  if p.size_ ≥ 0 then keyIndexLoop comparator p.array_ key p.size_.toNat 0 (p.size_ - 1)
  else .error .assertion_failed

/-- Model of `KeyAt`. -/
def KeyAt (p : BPlusTreeLeafPage K V) (index : Int) : Except PageError K :=
  if index ≥ 0 ∧ index < p.size_ then (readSlot p.array_ index).map Prod.fst
  else .error .assertion_failed

/-- Model of `GetItem`. -/
def GetItem (p : BPlusTreeLeafPage K V) (index : Int) : Except PageError (K × V) :=
  if index ≥ 0 ∧ index < p.size_ then readSlot p.array_ index
  else .error .assertion_failed

/-- The shifting loop `for (int i = curSize - 1; i > idx; --i)` of `Insert` (lines 101-104),
from `i` on, at most `fuel` rounds. -/
def shiftLoop (idx : Int) : Nat → Int → List (K × V) → Except PageError (List (K × V))
  | 0, i, array => if i > idx then .error .unfinished else .ok array
  | fuel + 1, i, array =>
    if i > idx then
      match readSlot array (i - 1) with
      | .error e => .error e
      | .ok item =>
        match writeSlot array i item with
        | .error e => .error e
        | .ok array2 => shiftLoop idx fuel (i - 1) array2
    else .ok array

/-- Model of `Insert`: the size it returns and the page afterwards.  The shifting loop makes
`curSize - 1 - idx` rounds. -/
def Insert (comparator : K → K → Int) (p : BPlusTreeLeafPage K V) (key : K) (value : V) :
    Except PageError (Int × BPlusTreeLeafPage K V) :=
  match KeyIndex comparator p key with
  | .error e => .error e
  | .ok idx =>
    if idx ≥ 0 then
      match shiftLoop idx (p.size_ + 1 - 1 - idx).toNat (p.size_ + 1 - 1) p.array_ with
      | .error e => .error e
      | .ok array =>
        match writeSlot array idx (key, value) with
        | .error e => .error e
        | .ok array2 => .ok (p.size_ + 1, { p with size_ := p.size_ + 1, array_ := array2 })
    else .error .assertion_failed

/-- The copy loop `for (int i = idx; i < total; ++i)` of `MoveHalfTo` (lines 122-125), from
`i` on, at most `fuel` rounds: every round reads `array_[idx]`. -/
def copyLoop (array : List (K × V)) (idx total : Int) :
    Nat → Int → List (K × V) → Except PageError (List (K × V))
  | 0, i, target => if i < total then .error .unfinished else .ok target
  | fuel + 1, i, target =>
    if i < total then
      match readSlot array idx with
      | .error e => .error e
      | .ok item =>
        match writeSlot target (i - idx) item with
        | .error e => .error e
        | .ok target2 => copyLoop array idx total fuel (i + 1) target2
    else .ok target

/-- Model of `MoveHalfTo`: the donor and the recipient afterwards.  The buffer pool argument
is not used by the source; `assert(GetSize() == tatal)` is read as `total`. -/
def MoveHalfTo (p recipient : BPlusTreeLeafPage K V) :
    Except PageError (BPlusTreeLeafPage K V × BPlusTreeLeafPage K V) :=
  if p.size_ = p.max_size_ + 1 then
    match copyLoop p.array_ (Int.tdiv (p.max_size_ + 1) 2) (p.max_size_ + 1)
        (p.max_size_ + 1 - Int.tdiv (p.max_size_ + 1) 2).toNat
        (Int.tdiv (p.max_size_ + 1) 2) recipient.array_ with
    | .error e => .error e
    | .ok target =>
      .ok ({ p with next_page_id_ := recipient.page_id_,
                    size_ := Int.tdiv (p.max_size_ + 1) 2 },
           { recipient with array_ := target, next_page_id_ := p.next_page_id_,
                            size_ := p.max_size_ + 1 - Int.tdiv (p.max_size_ + 1) 2 })
  else .error .assertion_failed

/-- Model of `LookUp`: the value stored through the reference (`none` for `false`).  The call
`KeyIndex(key.comparator)` of the source is read as `KeyIndex(key, comparator)`. -/
def LookUp (comparator : K → K → Int) (p : BPlusTreeLeafPage K V) (key : K) :
    Except PageError (Option V) :=
  match KeyIndex comparator p key with
  | .error e => .error e
  | .ok idx =>
    if idx < p.size_ then
      match readSlot p.array_ idx with
      | .error e => .error e
      | .ok item => if comparator item.1 key = 0 then .ok (some item.2) else .ok none
    else .ok none

end BPlusTreeLeafPage
end bustub

namespace bustub

/-- A three-way comparison of integers, as a `KeyComparator`. -/
def intComparator (a b : Int) : Int := if a < b then -1 else if a = b then 0 else 1

end bustub

namespace bustub
namespace BPlusTreeInternalPage
open BufferPoolManagerInstance
variable {K V : Type}

/-- Model of `Init`. -/
def Init (p : BPlusTreeInternalPage K V) (page_id parent_id max_size : Int) :
    BPlusTreeInternalPage K V :=
  { p with size_ := 0, page_id_ := page_id, parent_page_id_ := parent_id,
           max_size_ := max_size }

/-- The `while (st <= ed)` loop of `Lookup` (lines 75-81), at most `fuel` rounds: the value of
`st` it ends with.  The source writes `array[mid]` for `array_[mid]`. -/
def lookupLoop (comparator : K → K → Int) (array : List (K × V)) (key : K) :
    Nat → Int → Int → Except PageError Int
  | 0, st, ed => if st ≤ ed then .error .unfinished else .ok st
  | fuel + 1, st, ed =>
    if st ≤ ed then
      match readSlot array (Int.tdiv (ed - st) 2 + st) with
      | .error e => .error e
      | .ok item =>
        if comparator item.1 key ≤ 0 then
          lookupLoop comparator array key fuel (Int.tdiv (ed - st) 2 + st + 1) ed
        else lookupLoop comparator array key fuel st (Int.tdiv (ed - st) 2 + st - 1)
    else .ok st

/-- Model of `Lookup`.  Every round of the loop brings `st` and `ed` closer, so `size_` rounds
are enough. -/
def Lookup (comparator : K → K → Int) (p : BPlusTreeInternalPage K V) (key : K) :
    Except PageError V :=
  if p.size_ > 1 then
    match lookupLoop comparator p.array_ key p.size_.toNat 1 (p.size_ - 1) with
    | .error e => .error e
    | .ok st => (readSlot p.array_ (st - 1)).map Prod.snd
  else .error .assertion_failed

/-- The loop `for (int i = idx; i < total; i++)` of `MoveHalfTo` (lines 118-127), from `i`
on, at most `fuel` rounds.  Every round reads `array_[idx]`, copies it to slot `i - idx` of
the recipient, fetches the page of the child `array_[idx].second`, writes the recipient's
page id into it and unpins it dirty.  `SetParentPageId` is the write of the parent page id
into the bytes of a page; the layout of the header is not among the sources. -/
def moveLoop {K : Type} (ev0 : Bool) (SetParentPageId : Int → List Nat → List Nat)
    (array : List (K × Int)) (idx total recipient_page_id : Int) :
    Nat → Int → List (K × Int) → BufferPoolManagerInstance →
      Except PageError (List (K × Int) × BufferPoolManagerInstance)
  | 0, i, target, s => if i < total then .error .unfinished else .ok (target, s)
  | fuel + 1, i, target, s =>
    if i < total then
      match readSlot array idx with
      | .error e => .error e
      | .ok item =>
        match writeSlot target (i - idx) item with
        | .error e => .error e
        | .ok target2 =>
          match FetchPgImp ev0 s item.2 with
          | .error e => .error (.pool e)
          | .ok (none, _) => .error .null_page
          | .ok (some f, s1) =>
            moveLoop ev0 SetParentPageId array idx total recipient_page_id fuel (i + 1) target2
              (UnpinPgImp ev0
                (s1.setPage f
                  { s1.pages_ f with
                    data_ := SetParentPageId recipient_page_id (s1.pages_ f).data_ })
                item.2 true).2
    else .ok (target, s)

/-- Model of `MoveHalfTo`: the donor, the recipient and the buffer pool afterwards. -/
def MoveHalfTo {K : Type} (ev0 : Bool) (SetParentPageId : Int → List Nat → List Nat)
    (p recipient : BPlusTreeInternalPage K Int) (s : BufferPoolManagerInstance) :
    Except PageError
      (BPlusTreeInternalPage K Int × BPlusTreeInternalPage K Int × BufferPoolManagerInstance) :=
  if p.size_ = p.max_size_ + 1 then
    match moveLoop ev0 SetParentPageId p.array_ (Int.tdiv (p.max_size_ + 1) 2)
        (p.max_size_ + 1) recipient.page_id_
        (p.max_size_ + 1 - Int.tdiv (p.max_size_ + 1) 2).toNat
        (Int.tdiv (p.max_size_ + 1) 2) recipient.array_ s with
    | .error e => .error e
    | .ok (target, s2) =>
      .ok ({ p with size_ := Int.tdiv (p.max_size_ + 1) 2 },
           { recipient with array_ := target,
                            size_ := p.max_size_ + 1 - Int.tdiv (p.max_size_ + 1) 2 },
           s2)
  else .error .assertion_failed

end BPlusTreeInternalPage
end bustub

namespace bustub
open BufferPoolManagerInstance

/-- An index iterator: `index_` and `leaf_`, a pointer into the bytes of a frame of the
buffer pool (the frame id; `none` for `nullptr`).  The pool behind `bufferPoolManager_` is
passed to the operations. -/
structure IndexIterator where
  index_ : Int
  leaf_ : Option Int
deriving DecidableEq, Repr

end bustub

namespace bustub
namespace IndexIterator
open BufferPoolManagerInstance
variable {K V : Type}

/-- Model of the destructor: the pool afterwards.  `asLeaf` is the
`reinterpret_cast<B_PLUS_TREE_LEAF_PAGE_TYPE *>` of the bytes of a page; the layout of a leaf
page is not among the sources. -/
def destroy (ev0 : Bool) (asLeaf : List Nat → BPlusTreeLeafPage K V) (it : IndexIterator)
    (s : BufferPoolManagerInstance) : BufferPoolManagerInstance :=
  match it.leaf_ with
  | some f => (UnpinPgImp ev0 s (asLeaf (s.pages_ f).data_).page_id_ false).2
  | none => s

/-- Model of `IsEnd`. -/
def IsEnd (asLeaf : List Nat → BPlusTreeLeafPage K V) (it : IndexIterator)
    (s : BufferPoolManagerInstance) : Bool :=
  match it.leaf_ with
  | none => true
  | some f => decide (it.index_ ≥ (asLeaf (s.pages_ f).data_).size_)

/-- Model of `operator++`: the iterator and the pool afterwards. -/
def next (ev0 : Bool) (asLeaf : List Nat → BPlusTreeLeafPage K V) (it : IndexIterator)
    (s : BufferPoolManagerInstance) :
    Except PageError (IndexIterator × BufferPoolManagerInstance) :=
  match it.leaf_ with
  | none => .error .null_page
  | some f =>
    if it.index_ + 1 ≥ (asLeaf (s.pages_ f).data_).size_ then
      if (asLeaf (s.pages_ f).data_).next_page_id_ = INVALID_PAGE_ID then
        .ok ({ index_ := it.index_ + 1, leaf_ := none }, s)
      else
        match FetchPgImp ev0 (UnpinPgImp ev0 s (asLeaf (s.pages_ f).data_).page_id_ false).2
            (asLeaf (s.pages_ f).data_).next_page_id_ with
        | .error e => .error (.pool e)
        | .ok (none, _) => .error .null_page
        | .ok (some g, s2) => .ok ({ index_ := 0, leaf_ := some g }, s2)
    else .ok ({ it with index_ := it.index_ + 1 }, s)

end IndexIterator
end bustub

namespace bustub
open BufferPoolManagerInstance

/-- Modelled from the spec: the layout of a leaf page inside the bytes of a page is declared
outside the sources ("B+ tree page layouts place the header first, then the typed array").
Here cell 0 holds the page id, cell 1 the size and cell 2 the next page id plus one, so that
0 stands for `INVALID_PAGE_ID`; the array is left out. -/
def leafOfCells (data : List Nat) : BPlusTreeLeafPage Int Int :=
  { page_id_ := (data.getD 0 0 : Nat), parent_page_id_ := INVALID_PAGE_ID,
    size_ := (data.getD 1 0 : Nat), max_size_ := 0,
    next_page_id_ := (data.getD 2 0 : Nat) - 1, array_ := [] }

/-- Modelled from the spec: `BPlusTreePage::SetParentPageId` on the bytes of a page; the
layout of the header is declared outside the sources.  Here the parent page id is kept in
cell 0. -/
def parentIntoCells (parent_page_id : Int) (data : List Nat) : List Nat :=
  parent_page_id.toNat :: data.drop 1

/-- A leaf page of five slots right after `Init` (page id 3, no parent). -/
def emptyLeaf : BPlusTreeLeafPage Int Int :=
  BPlusTreeLeafPage.Init ⟨0, 0, 0, 0, 0, List.replicate 5 (0, 0)⟩ 3 INVALID_PAGE_ID 4 5

/-- A leaf page of five slots that holds the key 10. -/
def oneKeyLeaf : BPlusTreeLeafPage Int Int :=
  { page_id_ := 3, parent_page_id_ := -1, size_ := 1, max_size_ := 4, next_page_id_ := -1,
    array_ := [(10, 100), (0, 0), (0, 0), (0, 0), (0, 0)] }

/-- The leaf page of scenario S5 before the split: maximal size 4 and the five entries
10, 20, 25, 30, 40; its successor in the chain is page 9. -/
def overfullLeaf : BPlusTreeLeafPage Int Int :=
  { page_id_ := 3, parent_page_id_ := -1, size_ := 5, max_size_ := 4, next_page_id_ := 9,
    array_ := [(10, 100), (20, 200), (25, 250), (30, 300), (40, 400)] }

/-- An empty leaf page of five slots with page id 8, the recipient of the split. -/
def recipientLeaf : BPlusTreeLeafPage Int Int :=
  BPlusTreeLeafPage.Init ⟨0, 0, 0, 0, 0, List.replicate 5 (0, 0)⟩ 8 INVALID_PAGE_ID 4 5

/-- An internal page (page id 5) of maximal size 4 with five entries, children 100 to 104. -/
def overfullInternal : BPlusTreeInternalPage Int Int :=
  { page_id_ := 5, parent_page_id_ := -1, size_ := 5, max_size_ := 4,
    array_ := [(0, 100), (10, 101), (20, 102), (30, 103), (40, 104)] }

/-- An empty internal page of five slots with page id 7, the recipient of the split. -/
def recipientInternal : BPlusTreeInternalPage Int Int :=
  BPlusTreeInternalPage.Init ⟨0, 0, 0, 0, List.replicate 5 (0, 0)⟩ 7 INVALID_PAGE_ID 4

/-- Calls that leave page 0 in frame 0 as an unpinned leaf with one entry and no successor,
and then pin it once for an iterator. -/
def oneLeafPinned : List PoolCall :=
  [.newPage, .writeData 0 [0, 1, 0], .unpinPage 0 true, .fetchPage 0]

/-- Calls that leave a chain of two unpinned leaves with one entry each (page 0 in frame 0,
followed by page 1 in frame 1), and then pin the first once for an iterator. -/
def twoLeavesPinned : List PoolCall :=
  [.newPage, .writeData 0 [0, 1, 2], .unpinPage 0 true,
   .newPage, .writeData 1 [1, 1, 0], .unpinPage 1 true, .fetchPage 0]

end bustub

namespace bustub
namespace BPlusTreeInternalPage
variable {K V : Type}

/-- The keys of the slots `1` to `size_ - 1` of an internal page, in order. -/
def separators (p : BPlusTreeInternalPage K V) : List K :=
  ((p.array_.take p.size_.toNat).drop 1).map Prod.fst

end BPlusTreeInternalPage
end bustub

/-! ## Lemmas and theorems -/

namespace bustub

theorem pow2_pos (n : Nat) : (0 : Int) < 2 ^ n := by positivity

theorem emod_pow_succ (a : Int) (n : Nat) :
    a % 2 ^ (n + 1) = a % 2 ^ n + 2 ^ n * ((a / 2 ^ n) % 2) := by
  have hm := pow2_pos n
  have h1 := Int.emod_add_ediv a (2 ^ n)
  have h2 := Int.emod_add_ediv (a / 2 ^ n) 2
  have h3 := Int.emod_nonneg a (ne_of_gt hm)
  have h4 := Int.emod_lt_of_pos a hm
  have h5 := Int.emod_two_eq (a / 2 ^ n)
  have key : a = (a % 2 ^ n + 2 ^ n * ((a / 2 ^ n) % 2)) + (a / 2 ^ n / 2) * (2 ^ n * 2) := by
    nlinarith
  have hp : (2 : Int) ^ (n + 1) = 2 ^ n * 2 := pow_succ 2 n
  rw [hp]
  conv_lhs => rw [key]
  rw [Int.add_mul_emod_self]
  apply Int.emod_eq_of_lt
  · rcases h5 with h | h <;> rw [h] <;> omega
  · rcases h5 with h | h <;> rw [h] <;> omega

theorem bitAt_eq (a : Int) (n : Nat) : bitAt a n = decide ((a / 2 ^ n) % 2 = 1) := by
  unfold bitAt
  rcases Int.emod_two_eq (a / 2 ^ n) with h | h <;> simp [h]

/-- Agreement on the low `n + 1` bits is agreement on the low `n` bits and on bit `n`. -/
theorem emod_pow_succ_eq_iff (a b : Int) (n : Nat) :
    a % 2 ^ (n + 1) = b % 2 ^ (n + 1) ↔ (a % 2 ^ n = b % 2 ^ n ∧ bitAt a n = bitAt b n) := by
  have hm := pow2_pos n
  rw [emod_pow_succ, emod_pow_succ, bitAt_eq, bitAt_eq]
  have a3 := Int.emod_nonneg a (ne_of_gt hm)
  have a4 := Int.emod_lt_of_pos a hm
  have b3 := Int.emod_nonneg b (ne_of_gt hm)
  have b4 := Int.emod_lt_of_pos b hm
  rcases Int.emod_two_eq (a / 2 ^ n) with ha | ha <;>
  rcases Int.emod_two_eq (b / 2 ^ n) with hb | hb <;>
  simp only [ha, hb] <;> constructor <;> intro h <;> simp at h ⊢ <;> omega

theorem emod_pow_of_le {a b : Int} {m n : Nat} (hmn : m ≤ n) (h : a % 2 ^ n = b % 2 ^ n) :
    a % 2 ^ m = b % 2 ^ m := by
  have hd : (2 : Int) ^ m ∣ 2 ^ n := pow_dvd_pow 2 hmn
  rw [← Int.emod_emod_of_dvd a hd, ← Int.emod_emod_of_dvd b hd, h]

theorem natmod_cast_emod (i : Nat) {m n : Nat} (hmn : m ≤ n) :
    (((i % 2 ^ n : Nat) : Int)) % 2 ^ m = (i : Int) % 2 ^ m := by
  have hd : (2 : Int) ^ m ∣ 2 ^ n := pow_dvd_pow 2 hmn
  have : ((i % 2 ^ n : Nat) : Int) = (i : Int) % 2 ^ n := by push_cast; rfl
  rw [this, Int.emod_emod_of_dvd _ hd]

end bustub

namespace bustub
namespace ExtendibleHashTable
variable {K V : Type}

theorem redirect_length (h d z o : Nat) : ∀ (l : List Nat) (s : Nat),
    (redirect h d z o s l).length = l.length
  | [], _ => rfl
  | _ :: rest, s => by simp [redirect, redirect_length h d z o rest (s + 1)]

theorem redirect_getD (h d z o : Nat) : ∀ (l : List Nat) (s i : Nat), i < l.length →
    (redirect h d z o s l).getD i 0 =
      if l.getD i 0 = h then (if bitAt ((s + i : Nat) : Int) d then o else z) else l.getD i 0
  | [], _, i, hi => by simp at hi
  | e :: rest, s, 0, _ => by simp [redirect]
  | e :: rest, s, i + 1, hi => by
    have hi2 : i < rest.length := by simpa using hi
    have := redirect_getD h d z o rest (s + 1) i hi2
    simp only [redirect, List.getD_cons_succ, this]
    have e1 : s + 1 + i = s + (i + 1) := by omega
    rw [e1]

theorem indexOf_cast (hash : K → Int) (t : ExtendibleHashTable K V) (key : K) :
    ((IndexOf hash t key : Nat) : Int) = hash key % 2 ^ t.global_depth_ := by
  unfold IndexOf
  exact Int.toNat_of_nonneg (Int.emod_nonneg _ (ne_of_gt (pow2_pos _)))

theorem indexOf_lt_pow (hash : K → Int) (t : ExtendibleHashTable K V) (key : K) :
    IndexOf hash t key < 2 ^ t.global_depth_ := by
  have h1 := indexOf_cast hash t key
  have h2 := Int.emod_lt_of_pos (hash key) (pow2_pos t.global_depth_)
  have : ((IndexOf hash t key : Nat) : Int) < ((2 ^ t.global_depth_ : Nat) : Int) := by
    rw [h1]; push_cast; exact h2
  exact_mod_cast this

theorem indexOf_lt {hash : K → Int} {t : ExtendibleHashTable K V} (wf : WF hash t) (key : K) :
    IndexOf hash t key < t.dir_.length := by
  rw [wf.dir_len]; exact indexOf_lt_pow hash t key

theorem wf_new (hash : K → Int) (bucket_size : Nat) (hb : 1 ≤ bucket_size) :
    WF hash (new bucket_size : ExtendibleHashTable K V) := by
  constructor
  · exact Nat.zero_le 30
  · intro i hi
    have : i = 0 := by simpa [new] using hi
    subst this; simp [new, bucketAt, bucketOf, handleAt, Bucket.mk0]
  · exact hb
  · rfl
  · intro i hi
    have : i = 0 := by simpa [new] using hi
    subst this; simp [new, handleAt]
  · intro i hi
    have : i = 0 := by simpa [new] using hi
    subst this; rfl
  · intro i hi
    have : i = 0 := by simpa [new] using hi
    subst this; simp [new, bucketAt, bucketOf, handleAt, Bucket.mk0]
  · intro i hi item hitem
    have : i = 0 := by simpa [new] using hi
    subst this; simp [new, bucketAt, bucketOf, handleAt, Bucket.mk0] at hitem
  · intro i hi
    have : i = 0 := by simpa [new] using hi
    subst this; simp [new, bucketAt, bucketOf, handleAt, Bucket.mk0]
  · intro i j hi hj
    have h1 : i = 0 := by simpa [new] using hi
    have h2 : j = 0 := by simpa [new] using hj
    subst h1; subst h2; simp

theorem bucketOf_setList (t : ExtendibleHashTable K V) (h : Nat) (l : List (K × V)) (g : Nat)
    (hh : h < t.store.length) :
    (setList t h l).bucketOf g = if g = h then { t.bucketOf h with list_ := l } else t.bucketOf g := by
  unfold setList bucketOf
  simp only [List.getD_eq_getElem?_getD, List.getElem?_set]
  by_cases hg : g = h
  · subst hg; simp [hh]
  · have : ¬ h = g := fun e => hg e.symm
    simp [hg, this]

theorem handleAt_setList (t : ExtendibleHashTable K V) (h : Nat) (l : List (K × V)) (i : Nat) :
    (setList t h l).handleAt i = t.handleAt i := rfl

theorem bucketAt_setList (t : ExtendibleHashTable K V) (h : Nat) (l : List (K × V)) (i : Nat)
    (hh : h < t.store.length) :
    (setList t h l).bucketAt i =
      if t.handleAt i = h then { t.bucketAt i with list_ := l } else t.bucketAt i := by
  unfold bucketAt
  rw [handleAt_setList, bucketOf_setList t h l _ hh]
  by_cases hg : t.handleAt i = h
  · simp [hg]
  · simp [hg]

theorem setList_self (t : ExtendibleHashTable K V) (h : Nat) (hh : h < t.store.length) :
    setList t h (t.bucketOf h).list_ = t := by
  unfold setList bucketOf
  have : t.store.set h (t.store.getD h (Bucket.mk0 0 0)) = t.store := by
    apply List.ext_getElem?
    intro n
    simp only [List.getElem?_set, List.getD_eq_getElem?_getD]
    by_cases e : h = n
    · subst e; simp [hh]
    · simp [e]
  cases t
  simp only at this ⊢
  rw [this]

theorem wf_setList {hash : K → Int} {t : ExtendibleHashTable K V} (wf : WF hash t)
    (idx : Nat) (hidx : idx < t.dir_.length) (l : List (K × V))
    (hl : ∀ item ∈ l, hash item.1 % 2 ^ (t.bucketAt idx).depth_
        = (idx : Int) % 2 ^ (t.bucketAt idx).depth_)
    (hnd : (l.map Prod.fst).Nodup) (hcap : l.length ≤ t.bucket_size_) :
    WF hash (setList t (t.handleAt idx) l) := by
  have hh := wf.handle_lt idx hidx
  have hlen : (setList t (t.handleAt idx) l).dir_.length = t.dir_.length := rfl
  have hB := fun i => bucketAt_setList t (t.handleAt idx) l i hh
  constructor
  · exact wf.depth_max
  · intro i hi
    rw [hB]; split
    · exact hcap
    · exact wf.len_le i hi
  · exact wf.size_pos
  · exact wf.dir_len
  · intro i hi
    have := wf.handle_lt i hi
    simpa [setList, handleAt] using this
  · intro i hi
    rw [hB]; split <;> exact wf.cap i hi
  · intro i hi
    rw [hB]; split <;> exact wf.depth_le i hi
  · intro i hi item hitem
    rw [hB] at hitem ⊢
    by_cases e : t.handleAt i = t.handleAt idx
    · simp only [e, if_true] at hitem ⊢
      have hs := (wf.share i idx hi hidx).mp e
      have hb : t.bucketAt i = t.bucketAt idx := by unfold bucketAt; rw [e]
      rw [hb] at hs ⊢
      rw [hs]; exact hl item hitem
    · simp only [e, if_false] at hitem ⊢
      exact wf.hash_ok i hi item hitem
  · intro i hi
    rw [hB]; split
    · exact hnd
    · exact wf.nodup i hi
  · intro i j hi hj
    rw [hB, handleAt_setList, handleAt_setList]
    have := wf.share i j hi hj
    split <;> exact this

theorem find_setList (hash : K → Int) [DecidableEq K] (t : ExtendibleHashTable K V) (h : Nat)
    (l : List (K × V)) (hh : h < t.store.length) (k : K) :
    Find hash (setList t h l) k =
      if t.handleAt (IndexOf hash t k) = h then Bucket.findIn k l else Find hash t k := by
  unfold Find
  have : IndexOf hash (setList t h l) k = IndexOf hash t k := rfl
  rw [this, bucketAt_setList t h l _ hh]
  split <;> rfl

end ExtendibleHashTable
end bustub

namespace bustub
namespace Bucket
variable {K V : Type} [DecidableEq K]

theorem findIn_eq_none_iff (key : K) (l : List (K × V)) :
    findIn key l = none ↔ key ∉ l.map Prod.fst := by
  induction l with
  | nil => simp [findIn]
  | cons item rest ih =>
    simp only [findIn, List.map_cons, List.mem_cons, not_or]
    by_cases e : item.1 = key
    · simp [e]
    · simp only [e, if_false, ih]
      constructor
      · intro h; exact ⟨fun e2 => e e2.symm, h⟩
      · intro h; exact h.2

theorem findIn_mem {key : K} {l : List (K × V)} {v : V} (h : findIn key l = some v) :
    (key, v) ∈ l := by
  induction l with
  | nil => simp [findIn] at h
  | cons item rest ih =>
    simp only [findIn] at h
    by_cases e : item.1 = key
    · simp only [e, if_true, Option.some.injEq] at h
      have : item = (key, v) := by rw [← e, ← h]
      simp [this]
    · simp only [e, if_false] at h
      exact List.mem_cons_of_mem _ (ih h)

theorem findIn_cons (key : K) (item : K × V) (rest : List (K × V)) :
    findIn key (item :: rest) = if item.1 = key then some item.2 else findIn key rest := rfl

theorem findIn_append_ne (key k : K) (v : V) (l : List (K × V)) (hne : k ≠ key) :
    findIn k (l ++ [(key, v)]) = findIn k l := by
  induction l with
  | nil =>
    have : ¬ key = k := fun e => hne e.symm
    simp [findIn, this]
  | cons item rest ih =>
    rw [List.cons_append, findIn_cons, findIn_cons, ih]

theorem findIn_append_self (key : K) (v : V) (l : List (K × V)) (h : findIn key l = none) :
    findIn key (l ++ [(key, v)]) = some v := by
  induction l with
  | nil => simp [findIn]
  | cons item rest ih =>
    rw [findIn_cons] at h
    by_cases e : item.1 = key
    · simp [e] at h
    · simp only [e, if_false] at h
      rw [List.cons_append, findIn_cons, if_neg e, ih h]

/-- Filtering by a predicate on the key keeps what `findIn` sees of the keys that pass. -/
theorem findIn_filter_key (q : K → Bool) (k : K) (l : List (K × V)) :
    findIn k (l.filter (fun item => q item.1)) = if q k then findIn k l else none := by
  induction l with
  | nil => simp [findIn]
  | cons item rest ih =>
    by_cases hq : q item.1 = true
    · rw [List.filter_cons_of_pos (by simpa using hq), findIn_cons, findIn_cons, ih]
      by_cases e : item.1 = k
      · rw [if_pos e, if_pos e]
        rw [e] at hq
        rw [if_pos hq]
      · rw [if_neg e, if_neg e]
    · rw [List.filter_cons_of_neg (by simpa using hq), findIn_cons, ih]
      by_cases e : item.1 = k
      · rw [e] at hq
        rw [if_neg hq, if_neg hq]
      · rw [if_neg e]

theorem overwrite_eq_none_iff (key : K) (value : V) (l : List (K × V)) :
    overwrite key value l = none ↔ findIn key l = none := by
  induction l with
  | nil => simp [overwrite, findIn]
  | cons item rest ih =>
    simp only [overwrite, findIn]
    by_cases e : key = item.1
    · simp [e]
    · have e2 : ¬ item.1 = key := fun x => e x.symm
      simp [e, e2, ih]

theorem overwrite_spec {key : K} {value : V} {l l2 : List (K × V)}
    (h : overwrite key value l = some l2) :
    l2.map Prod.fst = l.map Prod.fst ∧ findIn key l2 = some value ∧
      ∀ k, k ≠ key → findIn k l2 = findIn k l := by
  induction l generalizing l2 with
  | nil => simp [overwrite] at h
  | cons item rest ih =>
    simp only [overwrite] at h
    by_cases e : key = item.1
    · simp only [e, if_true, Option.some.injEq] at h
      subst h
      refine ⟨by simp, by rw [findIn_cons, if_pos e.symm], ?_⟩
      intro k hk
      have : ¬ item.1 = k := fun x => hk (by rw [e, x])
      rw [findIn_cons, findIn_cons, if_neg this, if_neg this]
    · simp only [e, if_false, Option.map_eq_some'] at h
      obtain ⟨r, hr, rfl⟩ := h
      obtain ⟨h1, h2, h3⟩ := ih hr
      have e2 : ¬ item.1 = key := fun x => e x.symm
      refine ⟨by simp [h1], by rw [findIn_cons, if_neg e2, h2], ?_⟩
      intro k hk
      rw [findIn_cons, findIn_cons, h3 k hk]

end Bucket
end bustub

namespace bustub
namespace ExtendibleHashTable
variable {K V : Type}

theorem nat_mod_cast (i G : Nat) : (((i % 2 ^ G : Nat)) : Int) = (i : Int) % 2 ^ G := by
  push_cast; rfl

theorem grow_global_depth (t : ExtendibleHashTable K V) (h : Nat) :
    (grow t h).global_depth_ = depthAfter t h := by
  unfold grow depthAfter; split <;> rfl

theorem grow_store (t : ExtendibleHashTable K V) (h : Nat) : (grow t h).store = t.store := by
  unfold grow; split <;> rfl

theorem grow_dir_length (t : ExtendibleHashTable K V) (h : Nat)
    (hlen : t.dir_.length = 2 ^ t.global_depth_) :
    (grow t h).dir_.length = 2 ^ depthAfter t h := by
  unfold grow depthAfter; split
  · simp [hlen, pow_succ]; ring
  · exact hlen

theorem grow_getD (t : ExtendibleHashTable K V) (h : Nat)
    (hlen : t.dir_.length = 2 ^ t.global_depth_) (i : Nat) (hi : i < 2 ^ depthAfter t h) :
    (grow t h).dir_.getD i 0 = t.dir_.getD (i % 2 ^ t.global_depth_) 0 := by
  unfold grow
  unfold depthAfter at hi
  split
  · rename_i e
    rw [if_pos e] at hi
    simp only
    by_cases hlt : i < 2 ^ t.global_depth_
    · rw [Nat.mod_eq_of_lt hlt, List.getD_append _ _ _ _ (by rw [hlen]; exact hlt)]
    · have hge : 2 ^ t.global_depth_ ≤ i := Nat.le_of_not_lt hlt
      have h2 : i - 2 ^ t.global_depth_ < 2 ^ t.global_depth_ := by
        rw [pow_succ] at hi; omega
      have hm : i % 2 ^ t.global_depth_ = i - 2 ^ t.global_depth_ := by
        rw [Nat.mod_eq_sub_mod hge, Nat.mod_eq_of_lt h2]
      rw [hm, List.getD_append_right _ _ _ _ (by rw [hlen]; exact hge), hlen]
  · rename_i e
    rw [if_neg e] at hi
    rw [Nat.mod_eq_of_lt hi]

theorem split_depth_lt {hash : K → Int} {t : ExtendibleHashTable K V} (wf : WF hash t)
    (idx : Nat) (hidx : idx < t.dir_.length) :
    (t.bucketAt idx).depth_ < depthAfter t (t.handleAt idx) := by
  have := wf.depth_le idx hidx
  unfold depthAfter
  change (t.bucketAt idx).depth_ < if (t.bucketAt idx).depth_ = _ then _ else _
  split <;> omega

theorem split_depth_ge (t : ExtendibleHashTable K V) (h : Nat) :
    t.global_depth_ ≤ depthAfter t h := by
  unfold depthAfter; split <;> omega

theorem split_global_depth (hash : K → Int) (t : ExtendibleHashTable K V) (h : Nat) :
    (splitBucket hash t h).global_depth_ = depthAfter t h :=
  grow_global_depth t _

theorem split_dir_length (hash : K → Int) (t : ExtendibleHashTable K V) (h : Nat)
    (hlen : t.dir_.length = 2 ^ t.global_depth_) :
    (splitBucket hash t h).dir_.length = 2 ^ depthAfter t h := by
  unfold splitBucket
  simp only [redirect_length]
  exact grow_dir_length t _ hlen

theorem mod_lt_len {hash : K → Int} {t : ExtendibleHashTable K V} (wf : WF hash t) (i : Nat) :
    i % 2 ^ t.global_depth_ < t.dir_.length := by
  rw [wf.dir_len]; exact Nat.mod_lt _ (by positivity)

theorem split_handleAt (hash : K → Int) (t : ExtendibleHashTable K V) (h : Nat)
    (hlen : t.dir_.length = 2 ^ t.global_depth_) (i : Nat) (hi : i < 2 ^ depthAfter t h) :
    (splitBucket hash t h).handleAt i =
      if t.handleAt (i % 2 ^ t.global_depth_) = h then
        (if bitAt (i : Int) (t.bucketOf h).depth_ then t.store.length + 1 else t.store.length)
      else t.handleAt (i % 2 ^ t.global_depth_) := by
  show (splitBucket hash t h).dir_.getD i 0 = _
  unfold splitBucket
  simp only
  rw [redirect_getD _ _ _ _ _ _ _ (by rw [grow_dir_length t _ hlen]; exact hi)]
  rw [grow_getD t _ hlen i hi]
  simp only [Nat.zero_add]
  rfl

theorem split_bucketOf_old (hash : K → Int) (t : ExtendibleHashTable K V) (h : Nat)
    (g : Nat) (hg : g < t.store.length) :
    (splitBucket hash t h).bucketOf g = t.bucketOf g := by
  unfold bucketOf splitBucket
  simp only
  rw [List.getD_append _ _ _ _ hg]

theorem halfOf_true (hash : K → Int) (bs : Nat) (b : Bucket K V) :
    halfOf hash bs b true
      = ⟨bs, b.depth_ + 1, b.list_.filter (fun item => bitAt (hash item.1) b.depth_)⟩ := by
  unfold halfOf
  congr 2
  funext item
  simp

theorem halfOf_false (hash : K → Int) (bs : Nat) (b : Bucket K V) :
    halfOf hash bs b false
      = ⟨bs, b.depth_ + 1, b.list_.filter (fun item => !bitAt (hash item.1) b.depth_)⟩ := by
  unfold halfOf
  congr 2
  funext item
  simp

theorem split_bucketOf_zero (hash : K → Int) (t : ExtendibleHashTable K V) (h : Nat) :
    (splitBucket hash t h).bucketOf t.store.length
      = halfOf hash t.bucket_size_ (t.bucketOf h) false := by
  rw [halfOf_false]
  unfold bucketOf splitBucket
  simp only
  rw [List.getD_append_right _ _ _ _ (le_refl _), Nat.sub_self]
  rfl

theorem split_bucketOf_one (hash : K → Int) (t : ExtendibleHashTable K V) (h : Nat) :
    (splitBucket hash t h).bucketOf (t.store.length + 1)
      = halfOf hash t.bucket_size_ (t.bucketOf h) true := by
  rw [halfOf_true]
  unfold bucketOf splitBucket
  simp only
  rw [List.getD_append_right _ _ _ _ (by omega), Nat.add_sub_cancel_left]
  rfl

theorem split_bucketAt {hash : K → Int} {t : ExtendibleHashTable K V} (wf : WF hash t)
    (h : Nat) (i : Nat) (hi : i < 2 ^ depthAfter t h) :
    (splitBucket hash t h).bucketAt i =
      if t.handleAt (i % 2 ^ t.global_depth_) = h then
        halfOf hash t.bucket_size_ (t.bucketOf h) (bitAt (i : Int) (t.bucketOf h).depth_)
      else t.bucketAt (i % 2 ^ t.global_depth_) := by
  have hH := split_handleAt hash t h wf.dir_len i hi
  unfold bucketAt
  rw [hH]
  by_cases e : t.handleAt (i % 2 ^ t.global_depth_) = h
  · simp only [e, if_true]
    cases hb : bitAt (i : Int) (t.bucketOf h).depth_
    · simp only [Bool.false_eq_true, if_false]
      exact split_bucketOf_zero hash t h
    · simp only [if_true]
      exact split_bucketOf_one hash t h
  · simp only [e, if_false]
    exact split_bucketOf_old hash t h _ (wf.handle_lt _ (mod_lt_len wf i))

theorem cast_mod_emod (i : Nat) {m G : Nat} (h : m ≤ G) :
    (((i % 2 ^ G : Nat)) : Int) % 2 ^ m = (i : Int) % 2 ^ m :=
  natmod_cast_emod i h

theorem bitAt_congr {a b : Int} {n : Nat} (h : a % 2 ^ (n + 1) = b % 2 ^ (n + 1)) :
    bitAt a n = bitAt b n :=
  ((emod_pow_succ_eq_iff a b n).mp h).2

theorem mem_halfOf {hash : K → Int} {bs : Nat} {b : Bucket K V} {c : Bool} {item : K × V}
    (h : item ∈ (halfOf hash bs b c).list_) :
    item ∈ b.list_ ∧ bitAt (hash item.1) b.depth_ = c := by
  unfold halfOf at h
  simpa using h

theorem nodup_halfOf {hash : K → Int} {bs : Nat} {b : Bucket K V} {c : Bool}
    (h : (b.list_.map Prod.fst).Nodup) : ((halfOf hash bs b c).list_.map Prod.fst).Nodup := by
  unfold halfOf
  exact List.Nodup.sublist (List.Sublist.map _ (List.filter_sublist _)) h

theorem halfOf_depth (hash : K → Int) (bs : Nat) (b : Bucket K V) (c : Bool) :
    (halfOf hash bs b c).depth_ = b.depth_ + 1 := rfl

theorem halfOf_size (hash : K → Int) (bs : Nat) (b : Bucket K V) (c : Bool) :
    (halfOf hash bs b c).size_ = bs := rfl

theorem split_bucket_size (hash : K → Int) (t : ExtendibleHashTable K V) (h : Nat) :
    (splitBucket hash t h).bucket_size_ = t.bucket_size_ := by
  unfold splitBucket grow
  simp only
  split <;> rfl

/-- One round of the loop of `Insert` keeps the table well formed. -/
theorem wf_splitBucket {hash : K → Int} {t : ExtendibleHashTable K V} (wf : WF hash t)
    (idx : Nat) (hidx : idx < t.dir_.length) (hmax : depthAfter t (t.handleAt idx) ≤ 30) :
    WF hash (splitBucket hash t (t.handleAt idx)) := by
  have hlenT := split_dir_length hash t (t.handleAt idx) wf.dir_len
  have hG := split_global_depth hash t (t.handleAt idx)
  have hLt := split_depth_lt wf idx hidx
  have hGe := split_depth_ge t (t.handleAt idx)
  have hB := fun i hi => @split_bucketAt _ _ hash _ wf (t.handleAt idx) i hi
  have hH := fun i hi => split_handleAt hash t (t.handleAt idx) wf.dir_len i hi
  have hbidx : t.bucketOf (t.handleAt idx) = t.bucketAt idx := rfl
  -- the old bucket seen from a slot that shares it
  have hsame : ∀ i, t.handleAt (i % 2 ^ t.global_depth_) = t.handleAt idx →
      t.bucketAt (i % 2 ^ t.global_depth_) = t.bucketAt idx := by
    intro i e; unfold bucketAt; rw [e]
  have hbs := split_bucket_size hash t (t.handleAt idx)
  constructor
  · rw [hG]; exact hmax
  · intro i hi
    rw [hlenT] at hi
    rw [hB i hi, hbs]
    split
    · exact (List.length_filter_le _ _).trans (wf.len_le idx hidx)
    · exact wf.len_le _ (mod_lt_len wf i)
  · rw [hbs]; exact wf.size_pos
  · rw [hlenT, hG]
  · intro i hi
    rw [hlenT] at hi
    rw [hH i hi]
    have : (splitBucket hash t (t.handleAt idx)).store.length = t.store.length + 2 := by
      unfold splitBucket; simp
    rw [this]
    have := wf.handle_lt _ (mod_lt_len wf i)
    split
    · split <;> omega
    · omega
  · intro i hi
    rw [hlenT] at hi
    rw [hB i hi, hbs]
    split
    · rfl
    · exact wf.cap _ (mod_lt_len wf i)
  · intro i hi
    rw [hlenT] at hi
    rw [hB i hi, hG]
    split
    · show (t.bucketOf (t.handleAt idx)).depth_ + 1 ≤ _
      rw [hbidx]; omega
    · have := wf.depth_le _ (mod_lt_len wf i)
      omega
  · intro i hi item hitem
    rw [hlenT] at hi
    rw [hB i hi] at hitem ⊢
    by_cases e : t.handleAt (i % 2 ^ t.global_depth_) = t.handleAt idx
    · simp only [e, if_true] at hitem ⊢
      obtain ⟨hmem, hbit⟩ := mem_halfOf hitem
      rw [halfOf_depth, emod_pow_succ_eq_iff]
      refine ⟨?_, hbit⟩
      have hold := wf.hash_ok _ (mod_lt_len wf i) item (by rw [hsame i e]; exact hmem)
      rw [hsame i e] at hold
      rw [hbidx, hold]
      exact cast_mod_emod i (wf.depth_le idx hidx)
    · simp only [e, if_false] at hitem ⊢
      have hold := wf.hash_ok _ (mod_lt_len wf i) item hitem
      rw [hold]
      exact cast_mod_emod i (wf.depth_le _ (mod_lt_len wf i))
  · intro i hi
    rw [hlenT] at hi
    rw [hB i hi]
    split
    · exact nodup_halfOf (wf.nodup idx hidx)
    · exact wf.nodup _ (mod_lt_len wf i)
  · intro i j hi hj
    rw [hlenT] at hi hj
    rw [hB i hi, hH i hi, hH j hj]
    have hi0 := mod_lt_len wf i
    have hj0 := mod_lt_len wf j
    have hsh := wf.share _ _ hi0 hj0
    have hli := wf.handle_lt _ hi0
    have hlj := wf.handle_lt _ hj0
    by_cases ei : t.handleAt (i % 2 ^ t.global_depth_) = t.handleAt idx
    · have hdi : (t.bucketAt (i % 2 ^ t.global_depth_)).depth_ = (t.bucketAt idx).depth_ := by
        rw [hsame i ei]
      rw [hdi, cast_mod_emod i (wf.depth_le idx hidx),
        cast_mod_emod j (wf.depth_le idx hidx)] at hsh
      simp only [ei, if_true]
      rw [halfOf_depth, emod_pow_succ_eq_iff, hbidx]
      by_cases ej : t.handleAt (j % 2 ^ t.global_depth_) = t.handleAt idx
      · simp only [ej, if_true]
        have hlow := hsh.mp (ei.trans ej.symm)
        constructor
        · intro hEq
          refine ⟨hlow, ?_⟩
          cases hbi : bitAt (i : Int) (t.bucketAt idx).depth_ <;>
          cases hbj : bitAt (j : Int) (t.bucketAt idx).depth_ <;>
          simp [hbi, hbj] at hEq ⊢
        · intro h2
          rw [h2.2]
      · simp only [ej, if_false]
        constructor
        · intro hEq
          exfalso
          split at hEq <;> omega
        · intro h2
          exfalso
          exact ej ((hsh.mpr h2.1).symm.trans ei)
    · simp only [ei, if_false]
      have hdle := wf.depth_le _ hi0
      rw [cast_mod_emod i hdle, cast_mod_emod j hdle] at hsh
      by_cases ej : t.handleAt (j % 2 ^ t.global_depth_) = t.handleAt idx
      · simp only [ej, if_true]
        constructor
        · intro hEq
          exfalso
          split at hEq <;> omega
        · intro h2
          exfalso
          exact ei ((hsh.mpr h2).trans ej)
      · simp only [ej, if_false]
        exact hsh

theorem indexOf_split_mod (hash : K → Int) (t : ExtendibleHashTable K V) (h : Nat) (k : K) :
    IndexOf hash (splitBucket hash t h) k % 2 ^ t.global_depth_ = IndexOf hash t k := by
  have h1 := indexOf_cast hash (splitBucket hash t h) k
  have h2 := indexOf_cast hash t k
  rw [split_global_depth] at h1
  have hd : (2 : Int) ^ t.global_depth_ ∣ 2 ^ depthAfter t h := pow_dvd_pow 2 (split_depth_ge t h)
  have : (((IndexOf hash (splitBucket hash t h) k % 2 ^ t.global_depth_ : Nat)) : Int)
      = ((IndexOf hash t k : Nat) : Int) := by
    rw [nat_mod_cast, h1, h2, Int.emod_emod_of_dvd _ hd]
  exact_mod_cast this

/-- One round of the loop of `Insert` changes the result of no `Find`. -/
theorem find_splitBucket [DecidableEq K] {hash : K → Int} {t : ExtendibleHashTable K V}
    (wf : WF hash t) (idx : Nat) (hidx : idx < t.dir_.length) (k : K) :
    Find hash (splitBucket hash t (t.handleAt idx)) k = Find hash t k := by
  have hi := indexOf_lt_pow hash (splitBucket hash t (t.handleAt idx)) k
  rw [split_global_depth] at hi
  unfold Find
  rw [split_bucketAt wf _ _ hi, indexOf_split_mod]
  by_cases e : t.handleAt (IndexOf hash t k) = t.handleAt idx
  · simp only [e, if_true]
    have hb : t.bucketAt (IndexOf hash t k) = t.bucketOf (t.handleAt idx) := by
      unfold bucketAt; rw [e]
    rw [hb]
    unfold Bucket.Find halfOf
    simp only
    rw [Bucket.findIn_filter_key
      (fun key => bitAt (hash key) (t.bucketOf (t.handleAt idx)).depth_ ==
        bitAt (↑(IndexOf hash (splitBucket hash t (t.handleAt idx)) k))
          (t.bucketOf (t.handleAt idx)).depth_)]
    have hc := indexOf_cast hash (splitBucket hash t (t.handleAt idx)) k
    rw [split_global_depth] at hc
    have hlt := split_depth_lt wf idx hidx
    have : bitAt (hash k) (t.bucketOf (t.handleAt idx)).depth_ =
        bitAt (↑(IndexOf hash (splitBucket hash t (t.handleAt idx)) k))
          (t.bucketOf (t.handleAt idx)).depth_ := by
      apply bitAt_congr
      rw [hc]
      have hd : (2 : Int) ^ ((t.bucketOf (t.handleAt idx)).depth_ + 1)
          ∣ 2 ^ depthAfter t (t.handleAt idx) := pow_dvd_pow 2 hlt
      rw [Int.emod_emod_of_dvd _ hd]
    simp [this]
  · simp only [e, if_false]

theorem index_emod {hash : K → Int} {t : ExtendibleHashTable K V} (wf : WF hash t) (key : K) :
    ((IndexOf hash t key : Nat) : Int) % 2 ^ (t.bucketAt (IndexOf hash t key)).depth_
      = hash key % 2 ^ (t.bucketAt (IndexOf hash t key)).depth_ := by
  rw [indexOf_cast]
  have hd : (2 : Int) ^ (t.bucketAt (IndexOf hash t key)).depth_ ∣ 2 ^ t.global_depth_ :=
    pow_dvd_pow 2 (wf.depth_le _ (indexOf_lt wf key))
  rw [Int.emod_emod_of_dvd _ hd]

/-- The final `Bucket::Insert` of a key that the table does not hold. -/
theorem append_ok [DecidableEq K] {hash : K → Int} {t : ExtendibleHashTable K V}
    (wf : WF hash t) (key : K) (value : V) (hnone : Find hash t key = none)
    (hnf : ¬ (t.bucketAt (IndexOf hash t key)).IsFull = true) :
    WF hash (setList t (t.handleAt (IndexOf hash t key))
        ((t.bucketAt (IndexOf hash t key)).list_ ++ [(key, value)])) ∧
    Find hash (setList t (t.handleAt (IndexOf hash t key))
        ((t.bucketAt (IndexOf hash t key)).list_ ++ [(key, value)])) key = some value ∧
    ∀ k, k ≠ key → Find hash (setList t (t.handleAt (IndexOf hash t key))
        ((t.bucketAt (IndexOf hash t key)).list_ ++ [(key, value)])) k = Find hash t k := by
  have hidx := indexOf_lt wf key
  have hh := wf.handle_lt _ hidx
  refine ⟨?_, ?_, ?_⟩
  · apply wf_setList wf _ hidx
    · intro item hitem
      rcases List.mem_append.mp hitem with h | h
      · exact wf.hash_ok _ hidx item h
      · have : item = (key, value) := by simpa using h
        subst this
        exact (index_emod wf key).symm
    · rw [List.map_append]
      apply List.Nodup.append (wf.nodup _ hidx) (by simp)
      intro a ha hb
      have : a = key := by simpa using hb
      subst this
      exact (Bucket.findIn_eq_none_iff _ _).mp hnone ha
    · have h1 := wf.len_le _ hidx
      have h2 := wf.cap _ hidx
      have h3 : (t.bucketAt (IndexOf hash t key)).list_.length
          ≠ (t.bucketAt (IndexOf hash t key)).size_ := by
        intro e; apply hnf; unfold Bucket.IsFull; simp [e]
      rw [List.length_append, List.length_singleton]
      omega
  · rw [find_setList hash t _ _ hh, if_pos rfl]
    exact Bucket.findIn_append_self key value _ hnone
  · intro k hk
    rw [find_setList hash t _ _ hh]
    split
    · rename_i e
      rw [Bucket.findIn_append_ne key k value _ hk]
      unfold Find Bucket.Find bucketAt
      rw [e]
    · rfl

theorem insertLoop_succ (hash : K → Int) (fuel : Nat) (t : ExtendibleHashTable K V)
    (key : K) (value : V) :
    insertLoop hash (fuel + 1) t key value =
      if (t.bucketAt (IndexOf hash t key)).IsFull then
        if shiftDefined (t.bucketAt (IndexOf hash t key)).depth_
            && shiftDefined (splitBucket hash t (t.handleAt (IndexOf hash t key))).global_depth_
        then insertLoop hash fuel (splitBucket hash t (t.handleAt (IndexOf hash t key))) key value
        else none
      else some (setList t (t.handleAt (IndexOf hash t key))
        ((t.bucketAt (IndexOf hash t key)).list_ ++ [(key, value)])) := rfl

theorem shiftDefined_iff (n : Nat) : shiftDefined n = true ↔ n ≤ 30 := by
  unfold shiftDefined; simp

/-- In a well-formed table the shifts of a round have a value exactly when the global depth
after the round is at most 30: the split mask `1 << depth` is below the directory mask. -/
theorem round_defined {hash : K → Int} {t : ExtendibleHashTable K V} (wf : WF hash t)
    (idx : Nat) (hidx : idx < t.dir_.length) :
    (shiftDefined (t.bucketAt idx).depth_
        && shiftDefined (splitBucket hash t (t.handleAt idx)).global_depth_) = true ↔
      depthAfter t (t.handleAt idx) ≤ 30 := by
  rw [split_global_depth, Bool.and_eq_true, shiftDefined_iff, shiftDefined_iff]
  have := split_depth_lt wf idx hidx
  constructor
  · intro h; exact h.2
  · intro h; exact ⟨by omega, h⟩

/-- One round of the loop of `Insert` on a well-formed table. -/
theorem insertLoop_step {hash : K → Int} {t : ExtendibleHashTable K V} (wf : WF hash t)
    (fuel : Nat) (key : K) (value : V) :
    insertLoop hash (fuel + 1) t key value =
      if (t.bucketAt (IndexOf hash t key)).IsFull then
        if depthAfter t (t.handleAt (IndexOf hash t key)) ≤ 30
        then insertLoop hash fuel (splitBucket hash t (t.handleAt (IndexOf hash t key))) key value
        else none
      else some (setList t (t.handleAt (IndexOf hash t key))
        ((t.bucketAt (IndexOf hash t key)).list_ ++ [(key, value)])) := by
  rw [insertLoop_succ]
  have hrd := round_defined wf _ (indexOf_lt wf key)
  by_cases hd : depthAfter t (t.handleAt (IndexOf hash t key)) ≤ 30
  · rw [if_pos (hrd.mpr hd), if_pos hd]
  · rw [if_neg (fun x => hd (hrd.mp x)), if_neg hd]

/-- Whatever the loop of `Insert` returns is well formed, maps the key to the value and
agrees with the table before on every other key. -/
theorem insertLoop_spec [DecidableEq K] {hash : K → Int} (key : K) (value : V) :
    ∀ (fuel : Nat) (t t2 : ExtendibleHashTable K V), WF hash t → Find hash t key = none →
      insertLoop hash fuel t key value = some t2 →
      WF hash t2 ∧ Find hash t2 key = some value ∧ ∀ k, k ≠ key → Find hash t2 k = Find hash t k
  | 0, t, t2, _, _, h => by simp [insertLoop] at h
  | fuel + 1, t, t2, wf, hnone, h => by
    rw [insertLoop_step wf] at h
    have hidx := indexOf_lt wf key
    by_cases hf : (t.bucketAt (IndexOf hash t key)).IsFull = true
    · rw [if_pos hf] at h
      by_cases hd : depthAfter t (t.handleAt (IndexOf hash t key)) ≤ 30
      · rw [if_pos hd] at h
        have wf2 := wf_splitBucket wf _ hidx hd
        have hF := fun k => find_splitBucket wf _ hidx k
        obtain ⟨a, b, c⟩ := insertLoop_spec key value fuel _ t2 wf2 (by rw [hF]; exact hnone) h
        exact ⟨a, b, fun k hk => by rw [c k hk, hF]⟩
      · rw [if_neg hd] at h
        cases h
    · rw [if_neg hf] at h
      cases h
      exact append_ok wf key value hnone hf

/-- The target bucket of the key after one round is the half of the old target bucket on
the side of the key. -/
theorem target_split {hash : K → Int} {t : ExtendibleHashTable K V} (wf : WF hash t) (key : K) :
    (splitBucket hash t (t.handleAt (IndexOf hash t key))).bucketAt
        (IndexOf hash (splitBucket hash t (t.handleAt (IndexOf hash t key))) key)
      = halfOf hash t.bucket_size_ (t.bucketAt (IndexOf hash t key))
          (bitAt (hash key) (t.bucketAt (IndexOf hash t key)).depth_) := by
  have hidx := indexOf_lt wf key
  have hi := indexOf_lt_pow hash (splitBucket hash t (t.handleAt (IndexOf hash t key))) key
  rw [split_global_depth] at hi
  have hB := split_bucketAt wf (t.handleAt (IndexOf hash t key)) _ hi
  rw [indexOf_split_mod, if_pos rfl] at hB
  rw [hB]
  have hc := indexOf_cast hash (splitBucket hash t (t.handleAt (IndexOf hash t key))) key
  rw [split_global_depth] at hc
  have hlt := split_depth_lt wf _ hidx
  have hbit : bitAt (↑(IndexOf hash (splitBucket hash t (t.handleAt (IndexOf hash t key))) key))
        (t.bucketOf (t.handleAt (IndexOf hash t key))).depth_
      = bitAt (hash key) (t.bucketOf (t.handleAt (IndexOf hash t key))).depth_ := by
    apply bitAt_congr
    rw [hc]
    have hd : (2 : Int) ^ ((t.bucketOf (t.handleAt (IndexOf hash t key))).depth_ + 1)
        ∣ 2 ^ depthAfter t (t.handleAt (IndexOf hash t key)) := pow_dvd_pow 2 hlt
    rw [Int.emod_emod_of_dvd _ hd]
  rw [hbit]
  rfl

/-- A split at a depth below 30 keeps the twins of the key on the side of the key. -/
theorem twins_halfOf (hash : K → Int) (bs : Nat) (b : Bucket K V) (key : K)
    (hL : b.depth_ < 30) :
    twins hash key (halfOf hash bs b (bitAt (hash key) b.depth_)).list_
      = twins hash key b.list_ := by
  unfold twins halfOf
  simp only
  rw [List.filter_filter]
  apply List.filter_congr
  intro item _
  by_cases h : hash item.1 % 2 ^ 30 = hash key % 2 ^ 30
  · have h2 : bitAt (hash item.1) b.depth_ = bitAt (hash key) b.depth_ :=
      bitAt_congr (emod_pow_of_le (by omega) h)
    rw [decide_eq_true h, h2]
    simp
  · rw [decide_eq_false h]
    simp

/-- A full target bucket that holds fewer twins of the key than its capacity is less than 30
deep: it holds an item that a directory of depth 30 tells apart from the key. -/
theorem depth_lt_of_twins {hash : K → Int} {t : ExtendibleHashTable K V} (wf : WF hash t)
    (key : K) (hf : (t.bucketAt (IndexOf hash t key)).IsFull = true)
    (htw : (twins hash key (t.bucketAt (IndexOf hash t key)).list_).length < t.bucket_size_) :
    (t.bucketAt (IndexOf hash t key)).depth_ < 30 := by
  have hidx := indexOf_lt wf key
  have hcap := wf.cap _ hidx
  have hlen : (t.bucketAt (IndexOf hash t key)).list_.length = t.bucket_size_ := by
    unfold Bucket.IsFull at hf
    rw [← hcap]; simpa using hf
  by_contra hge
  have hall : ∀ item ∈ (t.bucketAt (IndexOf hash t key)).list_,
      decide (hash item.1 % 2 ^ 30 = hash key % 2 ^ 30) = true := by
    intro item hitem
    have hmod := wf.hash_ok _ hidx item hitem
    rw [index_emod wf key] at hmod
    exact decide_eq_true (emod_pow_of_le (by omega) hmod)
  have : twins hash key (t.bucketAt (IndexOf hash t key)).list_
      = (t.bucketAt (IndexOf hash t key)).list_ := by
    unfold twins
    exact List.filter_eq_self.mpr hall
  rw [this, hlen] at htw
  exact Nat.lt_irrefl _ htw

/-- The loop of `Insert` returns a table when the target bucket holds fewer twins of the key
than its capacity: every round raises the depth of the target bucket, which stays below 30
as long as the bucket is full. -/
theorem insertLoop_returns {hash : K → Int} (key : K) (value : V) :
    ∀ (fuel : Nat) (t : ExtendibleHashTable K V), WF hash t →
      (twins hash key (t.bucketAt (IndexOf hash t key)).list_).length < t.bucket_size_ →
      30 < fuel + (t.bucketAt (IndexOf hash t key)).depth_ →
      ∃ t2, insertLoop hash fuel t key value = some t2
  | 0, t, wf, _, hm => by
    have h1 := wf.depth_le _ (indexOf_lt wf key)
    have h2 := wf.depth_max
    omega
  | fuel + 1, t, wf, htw, hm => by
    rw [insertLoop_step wf]
    have hidx := indexOf_lt wf key
    by_cases hf : (t.bucketAt (IndexOf hash t key)).IsFull = true
    · rw [if_pos hf]
      have hL := depth_lt_of_twins wf key hf htw
      have hd : depthAfter t (t.handleAt (IndexOf hash t key)) ≤ 30 := by
        have h2 := wf.depth_max
        unfold depthAfter
        change (if (t.bucketAt (IndexOf hash t key)).depth_ = _ then _ else _) ≤ 30
        split <;> omega
      rw [if_pos hd]
      have wf2 := wf_splitBucket wf _ hidx hd
      apply insertLoop_returns key value fuel _ wf2
      · rw [target_split wf key, twins_halfOf hash _ _ key hL, split_bucket_size]
        exact htw
      · rw [target_split wf key, halfOf_depth]
        omega
    · rw [if_neg hf]
      exact ⟨_, rfl⟩

end ExtendibleHashTable
end bustub

namespace bustub
namespace Bucket
variable {K V : Type}

theorem value_unique {l : List (K × V)} (hnd : (l.map Prod.fst).Nodup) {k : K} {v w : V}
    (hv : (k, v) ∈ l) (hw : (k, w) ∈ l) : v = w := by
  induction l with
  | nil => simp at hv
  | cons item rest ih =>
    rw [List.map_cons, List.nodup_cons] at hnd
    rcases List.mem_cons.mp hv with h1 | h1 <;> rcases List.mem_cons.mp hw with h2 | h2
    · have := h1.trans h2.symm
      exact (Prod.mk.inj this).2
    · exfalso; apply hnd.1
      have := List.mem_map_of_mem Prod.fst h2
      rw [← h1]; exact this
    · exfalso; apply hnd.1
      have := List.mem_map_of_mem Prod.fst h1
      rw [← h2]; exact this
    · exact ih hnd.2 h1 h2

theorem findIn_remove_self [DecidableEq K] [DecidableEq V] {l : List (K × V)} (hnd : (l.map Prod.fst).Nodup)
    {key : K} {value : V} (hf : findIn key l = some value) :
    findIn key (l.filter (fun item => !decide (item = (key, value)))) = none := by
  rw [findIn_eq_none_iff]
  intro hmem
  obtain ⟨item, hitem, hk⟩ := List.mem_map.mp hmem
  rw [List.mem_filter] at hitem
  have h1 : (key, item.2) ∈ l := by rw [← hk]; exact hitem.1
  have h2 := value_unique hnd h1 (findIn_mem hf)
  have : item = (key, value) := by rw [← hk, ← h2]
  simp [this] at hitem

theorem findIn_remove_ne [DecidableEq K] [DecidableEq V] (l : List (K × V)) (key k : K) (value : V)
    (hne : k ≠ key) :
    findIn k (l.filter (fun item => !decide (item = (key, value)))) = findIn k l := by
  induction l with
  | nil => rfl
  | cons item rest ih =>
    by_cases e : item = (key, value)
    · rw [List.filter_cons_of_neg (by simp [e]), ih, findIn_cons]
      have : ¬ item.1 = k := by rw [e]; exact fun x => hne x.symm
      rw [if_neg this]
    · rw [List.filter_cons_of_pos (by simp [e]), findIn_cons, findIn_cons, ih]

end Bucket
end bustub

namespace bustub
namespace ExtendibleHashTable
variable {K V : Type}

theorem mem_keys_hash_ok {hash : K → Int} {t : ExtendibleHashTable K V} (wf : WF hash t)
    (idx : Nat) (hidx : idx < t.dir_.length) (l : List (K × V))
    (hsub : ∀ k ∈ l.map Prod.fst, k ∈ (t.bucketAt idx).list_.map Prod.fst) :
    ∀ item ∈ l, hash item.1 % 2 ^ (t.bucketAt idx).depth_
        = (idx : Int) % 2 ^ (t.bucketAt idx).depth_ := by
  intro item hitem
  obtain ⟨old, hold, hk⟩ := List.mem_map.mp (hsub item.1 (List.mem_map_of_mem Prod.fst hitem))
  rw [← hk]
  exact wf.hash_ok idx hidx old hold

/-- Function `Insert` on a well-formed table: whatever it returns is well formed, maps the key to the
value and agrees with the table before on every other key. -/
theorem insert_spec [DecidableEq K] {hash : K → Int} {t t2 : ExtendibleHashTable K V}
    (wf : WF hash t) (key : K) (value : V) (h : Insert hash t key value = some t2) :
    WF hash t2 ∧ Find hash t2 key = some value ∧ ∀ k, k ≠ key → Find hash t2 k = Find hash t k := by
  unfold Insert InsertFuel at h
  rw [if_pos ((shiftDefined_iff _).mpr wf.depth_max)] at h
  have hidx := indexOf_lt wf key
  have hh := wf.handle_lt _ hidx
  simp only at h
  cases ho : Bucket.overwrite key value (t.bucketOf (t.handleAt (IndexOf hash t key))).list_ with
  | none =>
    rw [ho] at h
    exact insertLoop_spec key value _ t t2 wf ((Bucket.overwrite_eq_none_iff _ _ _).mp ho) h
  | some l =>
    rw [ho] at h
    have e : t2 = setList t (t.handleAt (IndexOf hash t key)) l := by
      simp only [Option.some.injEq] at h
      exact h.symm
    subst e
    obtain ⟨h1, h2, h3⟩ := Bucket.overwrite_spec ho
    refine ⟨?_, ?_, ?_⟩
    · apply wf_setList wf _ hidx
      · apply mem_keys_hash_ok wf _ hidx
        intro k hk
        rw [h1] at hk; exact hk
      · rw [h1]; exact wf.nodup _ hidx
      · have hlen := congrArg List.length h1
        rw [List.length_map, List.length_map] at hlen
        rw [hlen]; exact wf.len_le _ hidx
    · rw [find_setList hash t _ _ hh, if_pos rfl]; exact h2
    · intro k hk
      rw [find_setList hash t _ _ hh]
      split
      · rename_i e
        rw [h3 k hk]
        unfold Find Bucket.Find bucketAt
        rw [e]
      · rfl

/-- Function `Insert` on a well-formed table returns when the key is present or its bucket holds
fewer twins of the key than the capacity of a bucket. -/
theorem insert_returns [DecidableEq K] {hash : K → Int} {t : ExtendibleHashTable K V}
    (wf : WF hash t) (key : K) (value : V)
    (h : (Find hash t key).isSome = true ∨
      (twins hash key (t.bucketAt (IndexOf hash t key)).list_).length < t.bucket_size_) :
    ∃ t2, Insert hash t key value = some t2 := by
  unfold Insert InsertFuel
  rw [if_pos ((shiftDefined_iff _).mpr wf.depth_max)]
  simp only
  cases ho : Bucket.overwrite key value (t.bucketOf (t.handleAt (IndexOf hash t key))).list_ with
  | none =>
    have hnone : Find hash t key = none := (Bucket.overwrite_eq_none_iff _ _ _).mp ho
    rcases h with h | h
    · rw [hnone] at h; cases h
    · exact insertLoop_returns key value _ t wf h (by unfold insertFuel; omega)
  | some l => exact ⟨_, rfl⟩

theorem remove_eq [DecidableEq K] [DecidableEq V] (hash : K → Int)
    (t : ExtendibleHashTable K V) (key : K) :
    Remove hash t key =
      match Find hash t key with
      | some value => (true, setList t (t.handleAt (IndexOf hash t key))
          ((t.bucketAt (IndexOf hash t key)).list_.filter
            (fun item => !decide (item = (key, value)))))
      | none => (false, setList t (t.handleAt (IndexOf hash t key))
          (t.bucketAt (IndexOf hash t key)).list_) := by
  unfold Remove Bucket.Remove Find bucketAt
  simp only
  cases (t.bucketOf (t.handleAt (IndexOf hash t key))).Find key <;> rfl

/-- Function `Remove` on a well-formed table. -/
theorem remove_spec [DecidableEq K] [DecidableEq V] {hash : K → Int}
    {t : ExtendibleHashTable K V} (wf : WF hash t) (key : K) :
    WF hash (Remove hash t key).2 ∧
    (Remove hash t key).1 = (Find hash t key).isSome ∧
    Find hash (Remove hash t key).2 key = none ∧
    (∀ k, k ≠ key → Find hash (Remove hash t key).2 k = Find hash t k) ∧
    (Find hash t key = none → (Remove hash t key).2 = t) := by
  have hidx := indexOf_lt wf key
  have hh := wf.handle_lt _ hidx
  rw [remove_eq]
  cases hf : Find hash t key with
  | none =>
    simp only
    have : setList t (t.handleAt (IndexOf hash t key)) (t.bucketAt (IndexOf hash t key)).list_ = t :=
      setList_self t _ hh
    rw [this]
    exact ⟨wf, rfl, hf, fun _ _ => rfl, fun _ => rfl⟩
  | some value =>
    simp only
    have hf2 : Bucket.findIn key (t.bucketAt (IndexOf hash t key)).list_ = some value := hf
    refine ⟨?_, rfl, ?_, ?_, ?_⟩
    · apply wf_setList wf _ hidx
      · intro item hitem
        exact wf.hash_ok _ hidx item (List.mem_filter.mp hitem).1
      · exact List.Nodup.sublist (List.Sublist.map _ (List.filter_sublist _)) (wf.nodup _ hidx)
      · exact (List.length_filter_le _ _).trans (wf.len_le _ hidx)
    · rw [find_setList hash t _ _ hh, if_pos rfl]
      exact Bucket.findIn_remove_self (wf.nodup _ hidx) hf2
    · intro k hk
      rw [find_setList hash t _ _ hh]
      split
      · rename_i e
        rw [Bucket.findIn_remove_ne _ key k value hk]
        unfold Find Bucket.Find bucketAt
        rw [e]
      · rfl
    · intro h; cases h

/-- In a well-formed table a pair stored in the bucket of any directory slot is the pair
that `Find` yields for its key. -/
theorem stored_is_found [DecidableEq K] {hash : K → Int} {t : ExtendibleHashTable K V}
    (wf : WF hash t) (i : Nat) (hi : i < t.dir_.length) (item : K × V)
    (hitem : item ∈ (t.bucketAt i).list_) : Find hash t item.1 = some item.2 := by
  have hj := indexOf_lt wf item.1
  have hL := wf.depth_le i hi
  have hsame : t.handleAt i = t.handleAt (IndexOf hash t item.1) := by
    apply (wf.share i _ hi hj).mpr
    rw [indexOf_cast, Int.emod_emod_of_dvd _ (pow_dvd_pow 2 hL)]
    exact (wf.hash_ok i hi item hitem).symm
  have hb : t.bucketAt (IndexOf hash t item.1) = t.bucketAt i := by
    unfold bucketAt; rw [hsame]
  unfold Find Bucket.Find
  rw [hb]
  cases hf : Bucket.findIn item.1 (t.bucketAt i).list_ with
  | none =>
    exact absurd (List.mem_map_of_mem Prod.fst hitem) ((Bucket.findIn_eq_none_iff _ _).mp hf)
  | some w =>
    have := Bucket.value_unique (wf.nodup i hi) (Bucket.findIn_mem hf)
      (show (item.1, item.2) ∈ (t.bucketAt i).list_ from hitem)
    rw [this]

theorem Reachable.wf [DecidableEq K] [DecidableEq V] {hash : K → Int} {bucket_size : Nat}
    (hb : 1 ≤ bucket_size) {t : ExtendibleHashTable K V} (hr : Reachable hash bucket_size t) :
    WF hash t := by
  induction hr with
  | init => exact wf_new hash bucket_size hb
  | insert key value _ h ih => exact (insert_spec ih key value h).1
  | remove key _ ih => exact (remove_spec ih key).1

/-- No table that is reached is deeper than 30: `Find`, `Remove` and `Insert` evaluate `IndexOf`,
and the loop of `Insert` its split mask, only at depths at which the `int` shift has a
value. -/
theorem Reachable.shifts_defined [DecidableEq K] [DecidableEq V] {hash : K → Int}
    {bucket_size : Nat} (hb : 1 ≤ bucket_size) {t : ExtendibleHashTable K V}
    (hr : Reachable hash bucket_size t) :
    shiftDefined t.global_depth_ = true ∧
    ∀ i, i < t.dir_.length → shiftDefined (t.bucketAt i).depth_ = true := by
  have wf := hr.wf hb
  refine ⟨(shiftDefined_iff _).mpr wf.depth_max, fun i hi => (shiftDefined_iff _).mpr ?_⟩
  exact (wf.depth_le i hi).trans wf.depth_max

end ExtendibleHashTable
end bustub

namespace bustub
open ExtendibleHashTable

/-- C2: in every reachable table, `Remove(k)` returns true exactly when `Find(k)` succeeds just
before; after it `Find(k)` reports the key absent; and when `k` is absent it returns false and
leaves the table as it was. -/
theorem remove_contract {K V : Type} [DecidableEq K] [DecidableEq V] (hash : K → Int)
    (bucket_size : Nat) (hb : 1 ≤ bucket_size)
    (t : ExtendibleHashTable K V) (hr : Reachable hash bucket_size t) (k : K) :
    ((Remove hash t k).1 = true ↔ (Find hash t k).isSome = true) ∧
    Find hash (Remove hash t k).2 k = none ∧
    (Find hash t k = none → (Remove hash t k).1 = false ∧ (Remove hash t k).2 = t) := by
  obtain ⟨_, h1, h2, _, h4⟩ := remove_spec (hr.wf hb) k
  refine ⟨by rw [h1], h2, fun hn => ⟨?_, h4 hn⟩⟩
  rw [h1, hn]; rfl

theorem remove_contract_witness :
    ((Remove (fun k : Int => k) fullTable 2).1 = true ↔
        (Find (fun k : Int => k) fullTable 2).isSome = true) ∧
      Find (fun k : Int => k) (Remove (fun k : Int => k) fullTable 2).2 2 = none ∧
      (Find (fun k : Int => k) fullTable 2 = none →
        (Remove (fun k : Int => k) fullTable 2).1 = false ∧
        (Remove (fun k : Int => k) fullTable 2).2 = fullTable) :=
  remove_contract (fun k : Int => k) 2 (by decide) fullTable
    (Reachable.insert (t := ⟨0, 2, 1, [0], [⟨2, 0, [(4, 40)]⟩]⟩) 2 20
      (Reachable.insert (t := new 2) 4 40 Reachable.init rfl) rfl) 2

end bustub

namespace bustub
namespace LRUKReplacer

theorem lookup_cons (g : Int) (e : FrameEntry) (rest : List (Int × FrameEntry)) (f : Int) :
    lookup ((g, e) :: rest) f = if g = f then some e else lookup rest f := rfl

theorem lookup_eraseKey_same (m : List (Int × FrameEntry)) (f : Int) :
    lookup (eraseKey m f) f = none := by
  induction m with
  | nil => rfl
  | cons p rest ih =>
    obtain ⟨g, e⟩ := p
    unfold eraseKey at ih ⊢
    by_cases h : g = f
    · rw [List.filter_cons_of_neg (by simp [h])]; exact ih
    · rw [List.filter_cons_of_pos (by simp [h]), lookup_cons, if_neg h]; exact ih

theorem lookup_eraseKey_ne (m : List (Int × FrameEntry)) (f g : Int) (hne : g ≠ f) :
    lookup (eraseKey m f) g = lookup m g := by
  induction m with
  | nil => rfl
  | cons p rest ih =>
    obtain ⟨a, e⟩ := p
    unfold eraseKey at ih ⊢
    by_cases h : a = f
    · rw [List.filter_cons_of_neg (by simp [h]), ih, lookup_cons]
      have : ¬ a = g := by rw [h]; exact fun x => hne x.symm
      rw [if_neg this]
    · rw [List.filter_cons_of_pos (by simp [h]), lookup_cons, lookup_cons, ih]

theorem lookup_store_same (m : List (Int × FrameEntry)) (f : Int) (e : FrameEntry) :
    lookup (store m f e) f = some e := by
  unfold store; rw [lookup_cons, if_pos rfl]

theorem lookup_store_ne (m : List (Int × FrameEntry)) (f g : Int) (e : FrameEntry)
    (hne : g ≠ f) : lookup (store m f e) g = lookup m g := by
  unfold store
  rw [lookup_cons, if_neg (fun x => hne x.symm), lookup_eraseKey_ne m f g hne]

theorem touch_of_some {ev0 : Bool} {m : List (Int × FrameEntry)} {f : Int} {e : FrameEntry}
    (h : lookup m f = some e) : touch ev0 m f = m := by
  unfold touch; rw [h]

theorem entryAt_of_some {ev0 : Bool} {m : List (Int × FrameEntry)} {f : Int} {e : FrameEntry}
    (h : lookup m f = some e) : entryAt ev0 m f = e := by
  unfold entryAt; rw [h]; rfl

/-- On a list whose frames all have entries the scan of `Evict` is a search for the first
evictable frame and leaves the map as it is. -/
theorem scan_eq (ev0 : Bool) (m : List (Int × FrameEntry)) :
    ∀ (l : List Int), (∀ f ∈ l, ∃ e, lookup m f = some e) →
      scan ev0 l m = (l.find? (fun f => (entryAt ev0 m f).evictable), m)
  | [], _ => rfl
  | f :: rest, h => by
    obtain ⟨e, he⟩ := h f (List.mem_cons_self _ _)
    have ih := scan_eq ev0 m rest (fun g hg => h g (List.mem_cons_of_mem _ hg))
    unfold scan
    rw [touch_of_some he, List.find?_cons]
    cases hc : (entryAt ev0 m f).evictable
    · simp only [Bool.false_eq_true, if_false]; exact ih
    · simp only [if_true]

theorem consistent_new (num_frames k : Nat) : Consistent (new num_frames k) := by
  constructor
  · simp [new]
  · intro f h; simp [listed, new] at h
  · intro f e h; simp [new, lookup] at h

theorem mem_eraseLast {l : List Int} (hnd : l.Nodup) (f g : Int) :
    g ∈ eraseLast l f ↔ g ∈ l ∧ g ≠ f := by
  unfold eraseLast
  rw [List.mem_reverse, (List.nodup_reverse.mpr hnd).mem_erase_iff, List.mem_reverse]
  tauto

theorem nodup_eraseLast {l : List Int} (hnd : l.Nodup) (f : Int) : (eraseLast l f).Nodup := by
  unfold eraseLast
  exact List.nodup_reverse.mpr ((List.nodup_reverse.mpr hnd).erase f)

theorem eraseLast_eq_erase {l : List Int} (hnd : l.Nodup) (f : Int) :
    eraseLast l f = l.erase f := by
  unfold eraseLast
  rw [List.Nodup.erase_eq_filter (List.nodup_reverse.mpr hnd), List.Nodup.erase_eq_filter hnd,
    ← List.filter_reverse, List.reverse_reverse]

theorem evict_eq (ev0 : Bool) {r : LRUKReplacer} (hc : Consistent r) :
    Evict ev0 r =
      match r.history_list_.reverse.find? (evictableAt ev0 r) with
      | some f => (some f, { r with history_list_ := r.history_list_.erase f,
                                    entrys_ := eraseKey r.entrys_ f,
                                    curr_size_ := sizeDec r.curr_size_ })
      | none =>
        match r.cache_list_.reverse.find? (evictableAt ev0 r) with
        | some f => (some f, { r with cache_list_ := r.cache_list_.erase f,
                                      entrys_ := eraseKey r.entrys_ f,
                                      curr_size_ := sizeDec r.curr_size_ })
        | none => (none, r) := by
  have hh : ∀ f ∈ r.history_list_.reverse, ∃ e, lookup r.entrys_ f = some e := by
    intro f hf
    obtain ⟨e, he, _⟩ := hc.entry_of_listed f (List.mem_append_left _ (List.mem_reverse.mp hf))
    exact ⟨e, he⟩
  have hcache : ∀ f ∈ r.cache_list_.reverse, ∃ e, lookup r.entrys_ f = some e := by
    intro f hf
    obtain ⟨e, he, _⟩ := hc.entry_of_listed f (List.mem_append_right _ (List.mem_reverse.mp hf))
    exact ⟨e, he⟩
  have nh : r.history_list_.Nodup := (List.nodup_append.mp hc.nodup).1
  have nc : r.cache_list_.Nodup := (List.nodup_append.mp hc.nodup).2.1
  unfold Evict
  rw [scan_eq ev0 _ _ hh]
  change (match (r.history_list_.reverse.find? (evictableAt ev0 r), r.entrys_) with
    | (some f, m) => _ | (none, m) => _) = _
  cases h1 : r.history_list_.reverse.find? (evictableAt ev0 r) with
  | some f => simp only; rw [eraseLast_eq_erase nh]
  | none =>
    simp only
    rw [scan_eq ev0 _ _ hcache]
    change (match (r.cache_list_.reverse.find? (evictableAt ev0 r), r.entrys_) with
      | (some f, m) => _ | (none, m) => _) = _
    cases h2 : r.cache_list_.reverse.find? (evictableAt ev0 r) with
    | some f => simp only; rw [eraseLast_eq_erase nc]
    | none => rfl

theorem listed_iff (r : LRUKReplacer) (f : Int) :
    listed r f ↔ f ∈ r.history_list_ ∨ f ∈ r.cache_list_ := List.mem_append

/-- Removing a listed frame from its list and from the map keeps the lists and the map
consistent. -/
theorem consistent_drop {r : LRUKReplacer} (hc : Consistent r) (f : Int) (h c : List Int)
    (n : Nat) (hmem : ∀ g, g ∈ h ++ c ↔ (g ∈ r.history_list_ ++ r.cache_list_ ∧ g ≠ f))
    (hnd : (h ++ c).Nodup) :
    Consistent { r with history_list_ := h, cache_list_ := c,
                        entrys_ := eraseKey r.entrys_ f, curr_size_ := n } := by
  constructor
  · exact hnd
  · intro g hg
    have := (hmem g).mp hg
    simp only
    rw [lookup_eraseKey_ne _ _ _ this.2]
    exact hc.entry_of_listed g this.1
  · intro g e hl he
    simp only at hl
    by_cases hgf : g = f
    · rw [hgf, lookup_eraseKey_same] at hl; cases hl
    · rw [lookup_eraseKey_ne _ _ _ hgf] at hl
      exact (hmem g).mpr ⟨hc.listed_of_hit g e hl he, hgf⟩

theorem mem_erase_append_left {h c : List Int} (hnd : (h ++ c).Nodup) (f : Int) (hf : f ∈ h) :
    (∀ g, g ∈ h.erase f ++ c ↔ (g ∈ h ++ c ∧ g ≠ f)) ∧ (h.erase f ++ c).Nodup := by
  obtain ⟨nh, nc, dj⟩ := List.nodup_append.mp hnd
  constructor
  · intro g
    rw [List.mem_append, List.mem_append, nh.mem_erase_iff]
    constructor
    · rintro (h1 | h1)
      · exact ⟨Or.inl h1.2, h1.1⟩
      · refine ⟨Or.inr h1, ?_⟩
        intro e; subst e; exact dj hf h1
    · rintro ⟨h1 | h1, h2⟩
      · exact Or.inl ⟨h2, h1⟩
      · exact Or.inr h1
  · apply List.nodup_append.mpr
    refine ⟨nh.erase f, nc, ?_⟩
    intro a ha hb
    exact dj (List.mem_of_mem_erase ha) hb

theorem mem_erase_append_right {h c : List Int} (hnd : (h ++ c).Nodup) (f : Int) (hf : f ∈ c) :
    (∀ g, g ∈ h ++ c.erase f ↔ (g ∈ h ++ c ∧ g ≠ f)) ∧ (h ++ c.erase f).Nodup := by
  obtain ⟨nh, nc, dj⟩ := List.nodup_append.mp hnd
  constructor
  · intro g
    rw [List.mem_append, List.mem_append, nc.mem_erase_iff]
    constructor
    · rintro (h1 | h1)
      · refine ⟨Or.inl h1, ?_⟩
        intro e; subst e; exact dj h1 hf
      · exact ⟨Or.inr h1.2, h1.1⟩
    · rintro ⟨h1 | h1, h2⟩
      · exact Or.inl h1
      · exact Or.inr ⟨h2, h1⟩
  · apply List.nodup_append.mpr
    refine ⟨nh, nc.erase f, ?_⟩
    intro a ha hb
    exact dj ha (List.mem_of_mem_erase hb)

/-- What a successful `Evict` does. -/
theorem evict_some {ev0 : Bool} {r r2 : LRUKReplacer} (hc : Consistent r) {f : Int}
    (h : Evict ev0 r = (some f, r2)) :
    listed r f ∧ (∃ e, lookup r.entrys_ f = some e ∧ e.evictable = true) ∧ Consistent r2 ∧
      (∀ g, listed r2 g ↔ (listed r g ∧ g ≠ f)) ∧ lookup r2.entrys_ f = none ∧
      (∀ g, g ≠ f → lookup r2.entrys_ g = lookup r.entrys_ g) ∧
      r2.replacer_size_ = r.replacer_size_ ∧ r2.k_ = r.k_ ∧
      r2.curr_size_ = sizeDec r.curr_size_ := by
  rw [evict_eq ev0 hc] at h
  have entry : ∀ g, listed r g → evictableAt ev0 r g = true →
      ∃ e, lookup r.entrys_ g = some e ∧ e.evictable = true := by
    intro g hg hev
    obtain ⟨e, he, _⟩ := hc.entry_of_listed g hg
    refine ⟨e, he, ?_⟩
    unfold evictableAt at hev
    rw [entryAt_of_some he] at hev
    exact hev
  cases h1 : r.history_list_.reverse.find? (evictableAt ev0 r) with
  | some v =>
    rw [h1] at h
    simp only [Prod.mk.injEq, Option.some.injEq] at h
    obtain ⟨hv, hr⟩ := h
    subst hv
    have hmem : v ∈ r.history_list_ := List.mem_reverse.mp (List.mem_of_find?_eq_some h1)
    have hev := List.find?_some h1
    have hl : listed r v := List.mem_append_left _ hmem
    obtain ⟨hm, hn⟩ := mem_erase_append_left hc.nodup v hmem
    subst hr
    exact ⟨hl, entry v hl hev, consistent_drop hc v _ _ _ hm hn, hm,
      lookup_eraseKey_same _ _, fun g hg => lookup_eraseKey_ne _ _ _ hg, rfl, rfl, rfl⟩
  | none =>
    rw [h1] at h
    simp only at h
    cases h2 : r.cache_list_.reverse.find? (evictableAt ev0 r) with
    | some v =>
      rw [h2] at h
      simp only [Prod.mk.injEq, Option.some.injEq] at h
      obtain ⟨hv, hr⟩ := h
      subst hv
      have hmem : v ∈ r.cache_list_ := List.mem_reverse.mp (List.mem_of_find?_eq_some h2)
      have hev := List.find?_some h2
      have hl : listed r v := List.mem_append_right _ hmem
      obtain ⟨hm, hn⟩ := mem_erase_append_right hc.nodup v hmem
      subst hr
      exact ⟨hl, entry v hl hev, consistent_drop hc v _ _ _ hm hn, hm,
        lookup_eraseKey_same _ _, fun g hg => lookup_eraseKey_ne _ _ _ hg, rfl, rfl, rfl⟩
    | none =>
      rw [h2] at h
      simp at h

/-- What a failing `Evict` means: the replacer is unchanged and no listed frame is
evictable. -/
theorem evict_none {ev0 : Bool} {r r2 : LRUKReplacer} (hc : Consistent r)
    (h : Evict ev0 r = (none, r2)) :
    r2 = r ∧ ∀ g e, listed r g → lookup r.entrys_ g = some e → e.evictable = false := by
  rw [evict_eq ev0 hc] at h
  cases h1 : r.history_list_.reverse.find? (evictableAt ev0 r) with
  | some v => rw [h1] at h; simp at h
  | none =>
    rw [h1] at h
    simp only at h
    cases h2 : r.cache_list_.reverse.find? (evictableAt ev0 r) with
    | some v => rw [h2] at h; simp at h
    | none =>
      rw [h2] at h
      simp only [Prod.mk.injEq, true_and] at h
      refine ⟨h.symm, ?_⟩
      intro g e hg he
      have a1 := List.find?_eq_none.mp h1
      have a2 := List.find?_eq_none.mp h2
      have : evictableAt ev0 r g = e.evictable := by
        unfold evictableAt; rw [entryAt_of_some he]
      rcases (listed_iff r g).mp hg with hm | hm
      · have := a1 g (List.mem_reverse.mpr hm); simp_all
      · have := a2 g (List.mem_reverse.mpr hm); simp_all

theorem entryAt_hit_pos {ev0 : Bool} {m : List (Int × FrameEntry)} {f : Int}
    (h : 1 ≤ (entryAt ev0 m f).hit_count_) : lookup m f = some (entryAt ev0 m f) := by
  unfold entryAt at h ⊢
  cases hl : lookup m f with
  | none => rw [hl] at h; simp at h
  | some e => rfl

/-- Storing an entry for `f` whose access count is positive, with lists that hold the frames
listed before and `f`. -/
theorem consistent_store {r : LRUKReplacer} (hc : Consistent r) (f : Int) (e : FrameEntry)
    (he : 1 ≤ e.hit_count_) (h c : List Int) (n : Nat)
    (hmem : ∀ g, g ∈ h ++ c ↔ (g ∈ r.history_list_ ++ r.cache_list_ ∨ g = f))
    (hnd : (h ++ c).Nodup) :
    Consistent { r with history_list_ := h, cache_list_ := c,
                        entrys_ := store r.entrys_ f e, curr_size_ := n } := by
  constructor
  · exact hnd
  · intro g hg
    simp only
    by_cases hgf : g = f
    · subst hgf; exact ⟨e, lookup_store_same _ _ _, he⟩
    · rw [lookup_store_ne _ _ _ _ hgf]
      rcases (hmem g).mp hg with h1 | h1
      · exact hc.entry_of_listed g h1
      · exact absurd h1 hgf
  · intro g e2 hl he2
    simp only at hl
    by_cases hgf : g = f
    · exact (hmem g).mpr (Or.inr hgf)
    · rw [lookup_store_ne _ _ _ _ hgf] at hl
      exact (hmem g).mpr (Or.inl (hc.listed_of_hit g e2 hl he2))

/-- What a returning `RecordAccess` does. -/
theorem recordAccess_ok {ev0 : Bool} {r r2 : LRUKReplacer} (hc : Consistent r) {f : Int}
    (h : RecordAccess ev0 r f = .ok r2) :
    Consistent r2 ∧ (∀ g, listed r2 g ↔ (listed r g ∨ g = f)) ∧
      lookup r2.entrys_ f = some { entryAt ev0 r.entrys_ f with
        hit_count_ := (entryAt ev0 r.entrys_ f).hit_count_ + 1 } ∧
      (∀ g, g ≠ f → lookup r2.entrys_ g = lookup r.entrys_ g) ∧
      r2.replacer_size_ = r.replacer_size_ ∧ r2.k_ = r.k_ ∧
      r2.curr_size_ = (if (entryAt ev0 r.entrys_ f).hit_count_ = 0 then sizeInc r.curr_size_
        else r.curr_size_) := by
  unfold RecordAccess at h
  by_cases h0 : f > toInt32 r.replacer_size_
  · rw [if_pos h0] at h; cases h
  rw [if_neg h0] at h
  simp only at h
  by_cases h1 : (entryAt ev0 r.entrys_ f).hit_count_ + 1 = 1
  · rw [if_pos h1] at h
    have hz : (entryAt ev0 r.entrys_ f).hit_count_ = 0 := by omega
    have hnl : ¬ listed r f := by
      intro hl
      obtain ⟨e, he, hpos⟩ := hc.entry_of_listed f hl
      rw [entryAt_of_some he] at hz
      omega
    cases h
    have hm : ∀ g, g ∈ (f :: r.history_list_) ++ r.cache_list_ ↔
        (g ∈ r.history_list_ ++ r.cache_list_ ∨ g = f) := by
      intro g; simp only [List.cons_append, List.mem_cons]; tauto
    have hn : ((f :: r.history_list_) ++ r.cache_list_).Nodup := by
      rw [List.cons_append]; exact List.nodup_cons.mpr ⟨hnl, hc.nodup⟩
    refine ⟨consistent_store hc f _ (by simp) _ _ _ hm hn, hm, lookup_store_same _ _ _,
      fun g hg => lookup_store_ne _ _ _ _ hg, rfl, rfl, ?_⟩
    rw [if_pos hz]
  rw [if_neg h1] at h
  have hpos : 1 ≤ (entryAt ev0 r.entrys_ f).hit_count_ := by omega
  have hnz : ¬ (entryAt ev0 r.entrys_ f).hit_count_ = 0 := by omega
  have hl : listed r f := hc.listed_of_hit f _ (entryAt_hit_pos hpos) hpos
  by_cases h2 : (entryAt ev0 r.entrys_ f).hit_count_ + 1 = r.k_
  · rw [if_pos h2] at h
    by_cases h3 : f ∈ r.history_list_
    · rw [if_pos h3] at h
      cases h
      obtain ⟨hm0, hn0⟩ := mem_erase_append_left hc.nodup f h3
      have hm : ∀ g, g ∈ r.history_list_.erase f ++ (f :: r.cache_list_) ↔
          (g ∈ r.history_list_ ++ r.cache_list_ ∨ g = f) := by
        intro g
        have := hm0 g
        simp only [List.mem_append, List.mem_cons] at this ⊢
        by_cases e : g = f
        · subst e; simp
        · simp only [e, false_or, or_false]; rw [this]; simp [e]
      have hn : (r.history_list_.erase f ++ (f :: r.cache_list_)).Nodup := by
        have hp : (r.history_list_.erase f ++ (f :: r.cache_list_)).Perm
            (f :: (r.history_list_.erase f ++ r.cache_list_)) := List.perm_middle
        rw [hp.nodup_iff, List.nodup_cons]
        exact ⟨fun x => ((hm0 f).mp x).2 rfl, hn0⟩
      refine ⟨consistent_store hc f _ (by simp) _ _ _ hm hn, hm, lookup_store_same _ _ _,
        fun g hg => lookup_store_ne _ _ _ _ hg, rfl, rfl, ?_⟩
      rw [if_neg hnz]
    · rw [if_neg h3] at h; cases h
  rw [if_neg h2] at h
  by_cases h4 : (entryAt ev0 r.entrys_ f).hit_count_ + 1 > r.k_
  · rw [if_pos h4] at h
    by_cases h3 : f ∈ r.cache_list_
    · rw [if_pos h3] at h
      cases h
      obtain ⟨hm0, hn0⟩ := mem_erase_append_right hc.nodup f h3
      have hm : ∀ g, g ∈ r.history_list_ ++ (f :: r.cache_list_.erase f) ↔
          (g ∈ r.history_list_ ++ r.cache_list_ ∨ g = f) := by
        intro g
        have := hm0 g
        simp only [List.mem_append, List.mem_cons] at this ⊢
        by_cases e : g = f
        · subst e; simp
        · simp only [e, false_or, or_false]; rw [this]; simp [e]
      have hn : (r.history_list_ ++ (f :: r.cache_list_.erase f)).Nodup := by
        have hp : (r.history_list_ ++ (f :: r.cache_list_.erase f)).Perm
            (f :: (r.history_list_ ++ r.cache_list_.erase f)) := List.perm_middle
        rw [hp.nodup_iff, List.nodup_cons]
        exact ⟨fun x => ((hm0 f).mp x).2 rfl, hn0⟩
      refine ⟨consistent_store hc f _ (by simp) _ _ _ hm hn, hm, lookup_store_same _ _ _,
        fun g hg => lookup_store_ne _ _ _ _ hg, rfl, rfl, ?_⟩
      rw [if_neg hnz]
    · rw [if_neg h3] at h; cases h
  rw [if_neg h4] at h
  cases h
  have hm : ∀ g, g ∈ r.history_list_ ++ r.cache_list_ ↔
      (g ∈ r.history_list_ ++ r.cache_list_ ∨ g = f) := by
    intro g
    constructor
    · exact Or.inl
    · rintro (x | x)
      · exact x
      · rw [x]; exact hl
  refine ⟨consistent_store hc f _ (by simp) _ _ _ hm hc.nodup, hm, lookup_store_same _ _ _,
    fun g hg => lookup_store_ne _ _ _ _ hg, rfl, rfl, ?_⟩
  rw [if_neg hnz]

/-- The first access of a frame in range returns. -/
theorem recordAccess_fresh (ev0 : Bool) (r : LRUKReplacer) (f : Int)
    (hr : f ≤ toInt32 r.replacer_size_) (hn : lookup r.entrys_ f = none) :
    ∃ r2, RecordAccess ev0 r f = .ok r2 := by
  unfold RecordAccess
  rw [if_neg (by omega)]
  have : (entryAt ev0 r.entrys_ f).hit_count_ = 0 := by unfold entryAt; rw [hn]; rfl
  simp only [this]
  exact ⟨_, rfl⟩

/-- What `SetEvictable` does. -/
theorem setEvictable_spec (ev0 : Bool) {r : LRUKReplacer} (hc : Consistent r) (f : Int)
    (b : Bool) :
    Consistent (SetEvictable ev0 r f b) ∧
      (∀ g, listed (SetEvictable ev0 r f b) g ↔ listed r g) ∧
      lookup (SetEvictable ev0 r f b).entrys_ f
        = some { entryAt ev0 r.entrys_ f with evictable := b } ∧
      (∀ g, g ≠ f → lookup (SetEvictable ev0 r f b).entrys_ g = lookup r.entrys_ g) ∧
      (SetEvictable ev0 r f b).replacer_size_ = r.replacer_size_ ∧
      (SetEvictable ev0 r f b).k_ = r.k_ := by
  refine ⟨?_, fun g => Iff.rfl, lookup_store_same _ _ _,
    fun g hg => lookup_store_ne _ _ _ _ hg, rfl, rfl⟩
  constructor
  · exact hc.nodup
  · intro g hg
    have hg2 : listed r g := hg
    show ∃ e, lookup (store r.entrys_ f _) g = some e ∧ _
    by_cases hgf : g = f
    · subst hgf
      obtain ⟨e, he, hp⟩ := hc.entry_of_listed g hg2
      refine ⟨_, lookup_store_same _ _ _, ?_⟩
      rw [entryAt_of_some he]; exact hp
    · rw [lookup_store_ne _ _ _ _ hgf]
      exact hc.entry_of_listed g hg2
  · intro g e hl he
    change lookup (store r.entrys_ f _) g = some e at hl
    show listed r g
    by_cases hgf : g = f
    · subst hgf
      rw [lookup_store_same] at hl
      have : e.hit_count_ = (entryAt ev0 r.entrys_ g).hit_count_ := by
        cases hl; rfl
      rw [this] at he
      exact hc.listed_of_hit g _ (entryAt_hit_pos he) he
    · rw [lookup_store_ne _ _ _ _ hgf] at hl
      exact hc.listed_of_hit g e hl he

/-- What a returning `Remove` does. -/
theorem remove_ok {r r2 : LRUKReplacer} (hc : Consistent r) {f : Int}
    (h : Remove r f = .ok r2) :
    Consistent r2 ∧ lookup r2.entrys_ f = none ∧
      (∀ g, g ≠ f → lookup r2.entrys_ g = lookup r.entrys_ g) ∧
      (∀ g, listed r2 g ↔ (listed r g ∧ g ≠ f)) ∧
      r2.replacer_size_ = r.replacer_size_ ∧ r2.k_ = r.k_ := by
  unfold Remove at h
  cases hl : lookup r.entrys_ f with
  | none =>
    rw [hl] at h
    cases h
    refine ⟨hc, hl, fun _ _ => rfl, ?_, rfl, rfl⟩
    intro g
    constructor
    · intro hg
      refine ⟨hg, ?_⟩
      intro e; subst e
      obtain ⟨e, he, _⟩ := hc.entry_of_listed g hg
      rw [hl] at he; cases he
    · exact fun x => x.1
  | some e =>
    rw [hl] at h
    simp only at h
    by_cases h1 : (!e.evictable) = true
    · rw [if_pos h1] at h; cases h
    rw [if_neg h1] at h
    by_cases h2 : e.hit_count_ < r.k_
    · rw [if_pos h2] at h
      by_cases h3 : f ∈ r.history_list_
      · rw [if_pos h3] at h
        cases h
        obtain ⟨hm, hn⟩ := mem_erase_append_left hc.nodup f h3
        exact ⟨consistent_drop hc f _ _ _ hm hn, lookup_eraseKey_same _ _,
          fun g hg => lookup_eraseKey_ne _ _ _ hg, hm, rfl, rfl⟩
      · rw [if_neg h3] at h; cases h
    · rw [if_neg h2] at h
      by_cases h3 : f ∈ r.cache_list_
      · rw [if_pos h3] at h
        cases h
        obtain ⟨hm, hn⟩ := mem_erase_append_right hc.nodup f h3
        exact ⟨consistent_drop hc f _ _ _ hm hn, lookup_eraseKey_same _ _,
          fun g hg => lookup_eraseKey_ne _ _ _ hg, hm, rfl, rfl⟩
      · rw [if_neg h3] at h; cases h

theorem find_pairwise {α : Type} {R : α → α → Prop} {p : α → Bool} :
    ∀ {l : List α} {v : α}, l.Pairwise R → l.find? p = some v →
      ∀ x ∈ l, p x = true → x = v ∨ R v x
  | [], _, _, h, _, _, _ => by simp at h
  | a :: rest, v, hp, h, x, hx, hpx => by
    rw [List.find?_cons] at h
    rw [List.pairwise_cons] at hp
    cases hpa : p a
    · rw [hpa] at h
      rcases List.mem_cons.mp hx with e | e
      · rw [e, hpa] at hpx; cases hpx
      · exact find_pairwise hp.2 h x e hpx
    · rw [hpa] at h
      simp only [Option.some.injEq] at h
      subst h
      rcases List.mem_cons.mp hx with e | e
      · exact Or.inl e
      · exact Or.inr (hp.1 x e)

theorem young_iff {t : Timed} (inv : TimedInv t) (f : Int) :
    youngCandidate t.r f ↔ (f ∈ t.r.history_list_ ∧
      ∃ e, lookup t.r.entrys_ f = some e ∧ e.evictable = true) := by
  constructor
  · rintro ⟨e, he, hev, h1, h2⟩
    refine ⟨?_, e, he, hev⟩
    rcases (listed_iff _ _).mp (inv.cons.listed_of_hit f e he h1) with h | h
    · exact h
    · obtain ⟨e2, he2, hk⟩ := inv.cache f h
      rw [he] at he2; cases he2; omega
  · rintro ⟨hm, e, he, hev⟩
    obtain ⟨e2, he2, hk⟩ := inv.hist f hm
    obtain ⟨e3, he3, hp⟩ := inv.cons.entry_of_listed f (List.mem_append_left _ hm)
    rw [he] at he2 he3; cases he2; cases he3
    exact ⟨e, he, hev, hp, hk⟩

theorem old_iff {t : Timed} (inv : TimedInv t) (f : Int) :
    oldCandidate t.r f ↔ (f ∈ t.r.cache_list_ ∧
      ∃ e, lookup t.r.entrys_ f = some e ∧ e.evictable = true) := by
  constructor
  · rintro ⟨e, he, hev, h1⟩
    refine ⟨?_, e, he, hev⟩
    have := inv.k_ge
    rcases (listed_iff _ _).mp (inv.cons.listed_of_hit f e he (by omega)) with h | h
    · obtain ⟨e2, he2, hk⟩ := inv.hist f h
      rw [he] at he2; cases he2; omega
    · exact h
  · rintro ⟨hm, e, he, hev⟩
    obtain ⟨e2, he2, hk⟩ := inv.cache f hm
    rw [he] at he2; cases he2
    exact ⟨e, he, hev, hk⟩

theorem evictableAt_iff (ev0 : Bool) {r : LRUKReplacer} {f : Int} {e : FrameEntry}
    (he : lookup r.entrys_ f = some e) : evictableAt ev0 r f = e.evictable := by
  unfold evictableAt; rw [entryAt_of_some he]

/-- The victim choice of `Evict` under the invariant. -/
theorem evict_choice (ev0 : Bool) {t : Timed} (inv : TimedInv t) :
    ((∃ f, youngCandidate t.r f) → ∃ v, (Evict ev0 t.r).1 = some v ∧ youngCandidate t.r v ∧
        ∀ f, youngCandidate t.r f → t.entered v ≤ t.entered f) ∧
    ((¬ ∃ f, youngCandidate t.r f) → (∃ f, oldCandidate t.r f) →
        ∃ v, (Evict ev0 t.r).1 = some v ∧ oldCandidate t.r v ∧
          ∀ f, oldCandidate t.r f → t.last v ≤ t.last f) ∧
    ((¬ ∃ f, youngCandidate t.r f) → (¬ ∃ f, oldCandidate t.r f) →
        (Evict ev0 t.r).1 = none) := by
  have hrev : t.r.history_list_.reverse.Pairwise (fun a b => t.entered a < t.entered b) :=
    List.pairwise_reverse.mpr inv.hist_sorted
  have crev : t.r.cache_list_.reverse.Pairwise (fun a b => t.last a < t.last b) :=
    List.pairwise_reverse.mpr inv.cache_sorted
  have hnone : t.r.history_list_.reverse.find? (evictableAt ev0 t.r) = none →
      ¬ ∃ f, youngCandidate t.r f := by
    intro h1
    rintro ⟨f, hf⟩
    obtain ⟨hm, e, he, hev⟩ := (young_iff inv f).mp hf
    have := List.find?_eq_none.mp h1 f (List.mem_reverse.mpr hm)
    rw [evictableAt_iff ev0 he, hev] at this
    exact this rfl
  have cnone : t.r.cache_list_.reverse.find? (evictableAt ev0 t.r) = none →
      ¬ ∃ f, oldCandidate t.r f := by
    intro h1
    rintro ⟨f, hf⟩
    obtain ⟨hm, e, he, hev⟩ := (old_iff inv f).mp hf
    have := List.find?_eq_none.mp h1 f (List.mem_reverse.mpr hm)
    rw [evictableAt_iff ev0 he, hev] at this
    exact this rfl
  have hsome : ∀ v, t.r.history_list_.reverse.find? (evictableAt ev0 t.r) = some v →
      youngCandidate t.r v ∧ ∀ f, youngCandidate t.r f → t.entered v ≤ t.entered f := by
    intro v h1
    have hm : v ∈ t.r.history_list_ := List.mem_reverse.mp (List.mem_of_find?_eq_some h1)
    have hev := List.find?_some h1
    obtain ⟨e, he, _⟩ := inv.cons.entry_of_listed v (List.mem_append_left _ hm)
    rw [evictableAt_iff ev0 he] at hev
    refine ⟨(young_iff inv v).mpr ⟨hm, e, he, hev⟩, ?_⟩
    intro f hf
    obtain ⟨hfm, e2, he2, hev2⟩ := (young_iff inv f).mp hf
    rcases find_pairwise hrev h1 f (List.mem_reverse.mpr hfm)
      (by rw [evictableAt_iff ev0 he2]; exact hev2) with h | h
    · rw [h]
    · exact Nat.le_of_lt h
  have csome : ∀ v, t.r.cache_list_.reverse.find? (evictableAt ev0 t.r) = some v →
      oldCandidate t.r v ∧ ∀ f, oldCandidate t.r f → t.last v ≤ t.last f := by
    intro v h1
    have hm : v ∈ t.r.cache_list_ := List.mem_reverse.mp (List.mem_of_find?_eq_some h1)
    have hev := List.find?_some h1
    obtain ⟨e, he, _⟩ := inv.cons.entry_of_listed v (List.mem_append_right _ hm)
    rw [evictableAt_iff ev0 he] at hev
    refine ⟨(old_iff inv v).mpr ⟨hm, e, he, hev⟩, ?_⟩
    intro f hf
    obtain ⟨hfm, e2, he2, hev2⟩ := (old_iff inv f).mp hf
    rcases find_pairwise crev h1 f (List.mem_reverse.mpr hfm)
      (by rw [evictableAt_iff ev0 he2]; exact hev2) with h | h
    · rw [h]
    · exact Nat.le_of_lt h
  rw [evict_eq ev0 inv.cons]
  cases h1 : t.r.history_list_.reverse.find? (evictableAt ev0 t.r) with
  | some v =>
    obtain ⟨a, b⟩ := hsome v h1
    refine ⟨fun _ => ⟨v, rfl, a, b⟩, fun hn => absurd ⟨v, a⟩ hn, fun hn => absurd ⟨v, a⟩ hn⟩
  | none =>
    have hn := hnone h1
    simp only
    cases h2 : t.r.cache_list_.reverse.find? (evictableAt ev0 t.r) with
    | some v =>
      obtain ⟨a, b⟩ := csome v h2
      exact ⟨fun h => absurd h hn, fun _ _ => ⟨v, rfl, a, b⟩, fun _ hc => absurd ⟨v, a⟩ hc⟩
    | none =>
      have cn := cnone h2
      exact ⟨fun h => absurd h hn, fun _ h => absurd h cn, fun _ _ => rfl⟩

/-- The lists after a returning `RecordAccess`, by the new access count `n`. -/
theorem recordAccess_lists {ev0 : Bool} {r r2 : LRUKReplacer} {f : Int}
    (h : RecordAccess ev0 r f = .ok r2) :
    ((entryAt ev0 r.entrys_ f).hit_count_ = 0 ∧ r2.history_list_ = f :: r.history_list_ ∧
        r2.cache_list_ = r.cache_list_) ∨
    ((entryAt ev0 r.entrys_ f).hit_count_ ≠ 0 ∧ (entryAt ev0 r.entrys_ f).hit_count_ + 1 = r.k_ ∧
        f ∈ r.history_list_ ∧ r2.history_list_ = r.history_list_.erase f ∧
        r2.cache_list_ = f :: r.cache_list_) ∨
    ((entryAt ev0 r.entrys_ f).hit_count_ ≠ 0 ∧ r.k_ < (entryAt ev0 r.entrys_ f).hit_count_ + 1 ∧
        f ∈ r.cache_list_ ∧ r2.history_list_ = r.history_list_ ∧
        r2.cache_list_ = f :: r.cache_list_.erase f) ∨
    ((entryAt ev0 r.entrys_ f).hit_count_ ≠ 0 ∧ (entryAt ev0 r.entrys_ f).hit_count_ + 1 < r.k_ ∧
        r2.history_list_ = r.history_list_ ∧ r2.cache_list_ = r.cache_list_) := by
  unfold RecordAccess at h
  by_cases h0 : f > toInt32 r.replacer_size_
  · rw [if_pos h0] at h; cases h
  rw [if_neg h0] at h
  simp only at h
  by_cases h1 : (entryAt ev0 r.entrys_ f).hit_count_ + 1 = 1
  · rw [if_pos h1] at h
    cases h
    exact Or.inl ⟨by omega, rfl, rfl⟩
  rw [if_neg h1] at h
  have hnz : (entryAt ev0 r.entrys_ f).hit_count_ ≠ 0 := by omega
  by_cases h2 : (entryAt ev0 r.entrys_ f).hit_count_ + 1 = r.k_
  · rw [if_pos h2] at h
    by_cases h3 : f ∈ r.history_list_
    · rw [if_pos h3] at h
      cases h
      exact Or.inr (Or.inl ⟨hnz, h2, h3, rfl, rfl⟩)
    · rw [if_neg h3] at h; cases h
  rw [if_neg h2] at h
  by_cases h4 : (entryAt ev0 r.entrys_ f).hit_count_ + 1 > r.k_
  · rw [if_pos h4] at h
    by_cases h3 : f ∈ r.cache_list_
    · rw [if_pos h3] at h
      cases h
      exact Or.inr (Or.inr (Or.inl ⟨hnz, h4, h3, rfl, rfl⟩))
    · rw [if_neg h3] at h; cases h
  rw [if_neg h4] at h
  cases h
  exact Or.inr (Or.inr (Or.inr ⟨hnz, by omega, rfl, rfl⟩))

theorem disjoint_lists {r : LRUKReplacer} (hc : Consistent r) {f : Int}
    (h1 : f ∈ r.history_list_) (h2 : f ∈ r.cache_list_) : False :=
  (List.nodup_append.mp hc.nodup).2.2 h1 h2

theorem timedInv_init (num_frames k : Nat) (hk : 2 ≤ k) :
    TimedInv ⟨new num_frames k, 0, fun _ => 0, fun _ => 0⟩ := by
  constructor
  · exact consistent_new num_frames k
  · intro f hf; simp [new] at hf
  · intro f hf; simp [new] at hf
  · simp [new]
  · simp [new]
  · intro f hf; simp [listed, new] at hf
  · exact hk

theorem pairwise_update_of_not_mem {tm : Int → Nat} {l : List Int} {f : Int} {c : Nat}
    (hp : l.Pairwise (fun a b => tm b < tm a)) (hf : f ∉ l) :
    l.Pairwise (fun a b => Function.update tm f c b < Function.update tm f c a) := by
  apply List.Pairwise.imp_of_mem _ hp
  intro a b ha hb hab
  have ea : a ≠ f := fun e => hf (e ▸ ha)
  have eb : b ≠ f := fun e => hf (e ▸ hb)
  rw [Function.update_noteq ea, Function.update_noteq eb]
  exact hab

theorem pairwise_cons_update {tm : Int → Nat} {l : List Int} {f : Int} {c : Nat}
    (hp : l.Pairwise (fun a b => tm b < tm a)) (hf : f ∉ l) (hlt : ∀ g ∈ l, tm g < c) :
    (f :: l).Pairwise (fun a b => Function.update tm f c b < Function.update tm f c a) := by
  rw [List.pairwise_cons]
  refine ⟨?_, pairwise_update_of_not_mem hp hf⟩
  intro g hg
  have eg : g ≠ f := fun e => hf (e ▸ hg)
  rw [Function.update_noteq eg, Function.update_same]
  exact hlt g hg

/-- A returning `RecordAccess` keeps the invariant. -/
theorem timedInv_access {ev0 : Bool} {t : Timed} (inv : TimedInv t) {f : Int}
    {r2 : LRUKReplacer} (h : RecordAccess ev0 t.r f = .ok r2) :
    TimedInv (t.access ev0 f r2) := by
  obtain ⟨c2, hlist, hf, hother, _, hk, _⟩ := recordAccess_ok inv.cons h
  have hcases := recordAccess_lists h
  have nh : t.r.history_list_.Nodup := (List.nodup_append.mp inv.cons.nodup).1
  have nc : t.r.cache_list_.Nodup := (List.nodup_append.mp inv.cons.nodup).2.1
  have kge := inv.k_ge
  -- an entry of the frame exists as soon as it has a recorded access
  have hold : (entryAt ev0 t.r.entrys_ f).hit_count_ ≠ 0 →
      lookup t.r.entrys_ f = some (entryAt ev0 t.r.entrys_ f) ∧ listed t.r f := by
    intro hnz
    have hp : 1 ≤ (entryAt ev0 t.r.entrys_ f).hit_count_ := by omega
    exact ⟨entryAt_hit_pos hp, inv.cons.listed_of_hit f _ (entryAt_hit_pos hp) hp⟩
  have hnew : (entryAt ev0 t.r.entrys_ f).hit_count_ = 0 → ¬ listed t.r f := by
    intro hz hl
    obtain ⟨e, he, hp⟩ := inv.cons.entry_of_listed f hl
    rw [entryAt_of_some he] at hz; omega
  have hist_old : ∀ g ∈ t.r.history_list_, g ≠ f →
      ∃ e, lookup r2.entrys_ g = some e ∧ e.hit_count_ < r2.k_ := by
    intro g hg hne
    rw [hother g hne, hk]; exact inv.hist g hg
  have cache_old : ∀ g ∈ t.r.cache_list_, g ≠ f →
      ∃ e, lookup r2.entrys_ g = some e ∧ r2.k_ ≤ e.hit_count_ := by
    intro g hg hne
    rw [hother g hne, hk]; exact inv.cache g hg
  have hbefore : ∀ g, listed r2 g →
      (t.access ev0 f r2).entered g < t.clock + 1 ∧ (t.access ev0 f r2).last g < t.clock + 1 := by
    intro g hg
    unfold Timed.access
    simp only
    by_cases e : g = f
    · subst e
      rw [Function.update_same]
      refine ⟨?_, by omega⟩
      by_cases hz : (entryAt ev0 t.r.entrys_ g).hit_count_ = 0
      · rw [if_pos hz, Function.update_same]; omega
      · rw [if_neg hz]
        have := (inv.before g (hold hz).2).1
        omega
    · rw [Function.update_noteq e]
      have hl : listed t.r g := by
        rcases (hlist g).mp hg with x | x
        · exact x
        · exact absurd x e
      have := inv.before g hl
      refine ⟨?_, by omega⟩
      split
      · rw [Function.update_noteq e]; omega
      · omega
  rcases hcases with ⟨hz, eh, ec⟩ | ⟨hnz, hn, hmem, eh, ec⟩ | ⟨hnz, hn, hmem, eh, ec⟩ |
      ⟨hnz, hn, eh, ec⟩
  · -- first access
    have hnl := hnew hz
    have hfh : f ∉ t.r.history_list_ := fun x => hnl (List.mem_append_left _ x)
    have hfc : f ∉ t.r.cache_list_ := fun x => hnl (List.mem_append_right _ x)
    constructor
    · exact c2
    · intro g hg
      change g ∈ r2.history_list_ at hg
      rw [eh] at hg
      rcases List.mem_cons.mp hg with e | e
      · subst e
        refine ⟨_, hf, ?_⟩
        change (entryAt ev0 t.r.entrys_ g).hit_count_ + 1 < r2.k_
        rw [hk, hz]; omega
      · exact hist_old g e (fun x => hfh (x ▸ e))
    · intro g hg
      change g ∈ r2.cache_list_ at hg
      rw [ec] at hg
      exact cache_old g hg (fun x => hfc (x ▸ hg))
    · change r2.history_list_.Pairwise _
      unfold Timed.access
      simp only [hz, if_true]
      rw [eh]
      exact pairwise_cons_update inv.hist_sorted hfh
        (fun g hg => (inv.before g (List.mem_append_left _ hg)).1)
    · change r2.cache_list_.Pairwise _
      rw [ec]
      exact pairwise_update_of_not_mem inv.cache_sorted hfc
    · exact hbefore
    · change 2 ≤ r2.k_; omega
  · -- the access that moves the frame from the history list to the cache list
    have hfc : f ∉ t.r.cache_list_ := fun x => disjoint_lists inv.cons hmem x
    constructor
    · exact c2
    · intro g hg
      change g ∈ r2.history_list_ at hg
      rw [eh] at hg
      have := (nh.mem_erase_iff).mp hg
      exact hist_old g this.2 this.1
    · intro g hg
      change g ∈ r2.cache_list_ at hg
      rw [ec] at hg
      rcases List.mem_cons.mp hg with e | e
      · subst e
        refine ⟨_, hf, ?_⟩
        change r2.k_ ≤ (entryAt ev0 t.r.entrys_ g).hit_count_ + 1
        omega
      · exact cache_old g e (fun x => hfc (x ▸ e))
    · change r2.history_list_.Pairwise _
      unfold Timed.access
      simp only [hnz, if_false]
      rw [eh]
      exact inv.hist_sorted.sublist (List.erase_sublist _ _)
    · change r2.cache_list_.Pairwise _
      rw [ec]
      exact pairwise_cons_update inv.cache_sorted hfc
        (fun g hg => (inv.before g (List.mem_append_right _ hg)).2)
    · exact hbefore
    · change 2 ≤ r2.k_; omega
  · -- a further access of a frame of the cache list
    constructor
    · exact c2
    · intro g hg
      change g ∈ r2.history_list_ at hg
      rw [eh] at hg
      exact hist_old g hg (fun x => disjoint_lists inv.cons hg (x ▸ hmem))
    · intro g hg
      change g ∈ r2.cache_list_ at hg
      rw [ec] at hg
      rcases List.mem_cons.mp hg with e | e
      · subst e
        refine ⟨_, hf, ?_⟩
        change r2.k_ ≤ (entryAt ev0 t.r.entrys_ g).hit_count_ + 1
        omega
      · have := (nc.mem_erase_iff).mp e
        exact cache_old g this.2 this.1
    · change r2.history_list_.Pairwise _
      unfold Timed.access
      simp only [hnz, if_false]
      rw [eh]
      exact inv.hist_sorted
    · change r2.cache_list_.Pairwise _
      rw [ec]
      apply pairwise_cons_update (inv.cache_sorted.sublist (List.erase_sublist _ _))
      · exact fun x => ((nc.mem_erase_iff).mp x).1 rfl
      · intro g hg
        exact (inv.before g (List.mem_append_right _ (List.mem_of_mem_erase hg))).2
    · exact hbefore
    · change 2 ≤ r2.k_; omega
  · -- an access that leaves the frame in the history list
    obtain ⟨hlk, hl⟩ := hold hnz
    have hfc : f ∉ t.r.cache_list_ := by
      intro x
      obtain ⟨e, he, hge⟩ := inv.cache f x
      rw [hlk] at he; cases he; omega
    constructor
    · exact c2
    · intro g hg
      change g ∈ r2.history_list_ at hg
      rw [eh] at hg
      by_cases e : g = f
      · subst e
        refine ⟨_, hf, ?_⟩
        change (entryAt ev0 t.r.entrys_ g).hit_count_ + 1 < r2.k_
        omega
      · exact hist_old g hg e
    · intro g hg
      change g ∈ r2.cache_list_ at hg
      rw [ec] at hg
      exact cache_old g hg (fun x => hfc (x ▸ hg))
    · change r2.history_list_.Pairwise _
      unfold Timed.access
      simp only [hnz, if_false]
      rw [eh]
      exact inv.hist_sorted
    · change r2.cache_list_.Pairwise _
      rw [ec]
      exact pairwise_update_of_not_mem inv.cache_sorted hfc
    · exact hbefore
    · change 2 ≤ r2.k_; omega

theorem timedInv_setEvictable (ev0 : Bool) {t : Timed} (inv : TimedInv t) (f : Int) (b : Bool) :
    TimedInv { t with r := SetEvictable ev0 t.r f b } := by
  obtain ⟨c2, _, hf, hother, _, _⟩ := setEvictable_spec ev0 inv.cons f b
  have look : ∀ g, listed t.r g → ∀ e, lookup t.r.entrys_ g = some e →
      ∃ e2, lookup (SetEvictable ev0 t.r f b).entrys_ g = some e2 ∧
        e2.hit_count_ = e.hit_count_ := by
    intro g _ e he
    by_cases x : g = f
    · subst x
      rw [hf, entryAt_of_some he]
      exact ⟨_, rfl, rfl⟩
    · rw [hother g x]; exact ⟨e, he, rfl⟩
  constructor
  · exact c2
  · intro g hg
    obtain ⟨e, he, hlt⟩ := inv.hist g hg
    obtain ⟨e2, he2, heq⟩ := look g (List.mem_append_left _ hg) e he
    exact ⟨e2, he2, by rw [heq]; exact hlt⟩
  · intro g hg
    obtain ⟨e, he, hle⟩ := inv.cache g hg
    obtain ⟨e2, he2, heq⟩ := look g (List.mem_append_right _ hg) e he
    exact ⟨e2, he2, by rw [heq]; exact hle⟩
  · exact inv.hist_sorted
  · exact inv.cache_sorted
  · exact inv.before
  · exact inv.k_ge

/-- Dropping a frame from the lists and the map keeps the invariant. -/
theorem timedInv_drop {t : Timed} (inv : TimedInv t) {r2 : LRUKReplacer} (f : Int)
    (c2 : Consistent r2)
    (hs : r2.history_list_.Sublist t.r.history_list_)
    (cs : r2.cache_list_.Sublist t.r.cache_list_)
    (hl : ∀ g, listed r2 g ↔ (listed t.r g ∧ g ≠ f))
    (hother : ∀ g, g ≠ f → lookup r2.entrys_ g = lookup t.r.entrys_ g)
    (hk : r2.k_ = t.r.k_) :
    TimedInv { t with r := r2 } := by
  constructor
  · exact c2
  · intro g hg
    have hg2 : g ∈ r2.history_list_ := hg
    have hne := ((hl g).mp (List.mem_append_left _ hg2)).2
    show ∃ e, lookup r2.entrys_ g = some e ∧ e.hit_count_ < r2.k_
    rw [hother g hne, hk]
    exact inv.hist g (hs.subset hg2)
  · intro g hg
    have hg2 : g ∈ r2.cache_list_ := hg
    have hne := ((hl g).mp (List.mem_append_right _ hg2)).2
    show ∃ e, lookup r2.entrys_ g = some e ∧ r2.k_ ≤ e.hit_count_
    rw [hother g hne, hk]
    exact inv.cache g (cs.subset hg2)
  · exact inv.hist_sorted.sublist hs
  · exact inv.cache_sorted.sublist cs
  · intro g hg
    exact inv.before g ((hl g).mp hg).1
  · show 2 ≤ r2.k_
    rw [hk]; exact inv.k_ge

theorem remove_sublist {r r2 : LRUKReplacer} {f : Int} (h : Remove r f = .ok r2) :
    r2.history_list_.Sublist r.history_list_ ∧ r2.cache_list_.Sublist r.cache_list_ := by
  unfold Remove at h
  cases hl : lookup r.entrys_ f with
  | none => rw [hl] at h; cases h; exact ⟨List.Sublist.refl _, List.Sublist.refl _⟩
  | some e =>
    rw [hl] at h
    simp only at h
    split at h
    · cases h
    · split at h
      · split at h
        · cases h; exact ⟨List.erase_sublist _ _, List.Sublist.refl _⟩
        · cases h
      · split at h
        · cases h; exact ⟨List.Sublist.refl _, List.erase_sublist _ _⟩
        · cases h

theorem evict_sublist (ev0 : Bool) {r : LRUKReplacer} (hc : Consistent r) :
    (Evict ev0 r).2.history_list_.Sublist r.history_list_ ∧
      (Evict ev0 r).2.cache_list_.Sublist r.cache_list_ := by
  have key := evict_eq ev0 hc
  cases h1 : r.history_list_.reverse.find? (evictableAt ev0 r) with
  | some v =>
    rw [h1] at key
    rw [key]
    exact ⟨List.erase_sublist v r.history_list_, List.Sublist.refl r.cache_list_⟩
  | none =>
    rw [h1] at key
    simp only at key
    cases h2 : r.cache_list_.reverse.find? (evictableAt ev0 r) with
    | some v =>
      rw [h2] at key
      rw [key]
      exact ⟨List.Sublist.refl r.history_list_, List.erase_sublist v r.cache_list_⟩
    | none =>
      rw [h2] at key
      rw [key]
      exact ⟨List.Sublist.refl _, List.Sublist.refl _⟩

theorem timedInv_remove {t : Timed} (inv : TimedInv t) {f : Int} {r2 : LRUKReplacer}
    (h : Remove t.r f = .ok r2) : TimedInv { t with r := r2 } := by
  obtain ⟨c2, _, hother, hl, _, hk⟩ := remove_ok inv.cons h
  obtain ⟨hs, cs⟩ := remove_sublist h
  exact timedInv_drop inv f c2 hs cs hl hother hk

theorem timedInv_evict (ev0 : Bool) {t : Timed} (inv : TimedInv t) :
    TimedInv { t with r := (Evict ev0 t.r).2 } := by
  obtain ⟨hs, cs⟩ := evict_sublist ev0 inv.cons
  cases hv : (Evict ev0 t.r).1 with
  | none =>
    have h : Evict ev0 t.r = (none, (Evict ev0 t.r).2) := by rw [← hv]
    rw [(evict_none inv.cons h).1]
    exact inv
  | some v =>
    have h : Evict ev0 t.r = (some v, (Evict ev0 t.r).2) := by rw [← hv]
    obtain ⟨_, _, c2, hl, _, hother, _, hk, _⟩ := evict_some inv.cons h
    exact timedInv_drop inv v c2 hs cs hl hother hk

theorem TimedReachable.timedInv {ev0 : Bool} {num_frames k : Nat} (hk : 2 ≤ k) {t : Timed}
    (hr : TimedReachable ev0 num_frames k t) : TimedInv t := by
  induction hr with
  | init => exact timedInv_init num_frames k hk
  | recordAccess f r2 _ h ih => exact timedInv_access ih h
  | setEvictable f b _ ih => exact timedInv_setEvictable ev0 ih f b
  | remove f r2 _ h ih => exact timedInv_remove ih h
  | evict _ ih => exact timedInv_evict ev0 ih

end LRUKReplacer
end bustub

namespace bustub
open LRUKReplacer

/-- The order of eviction among the frames that were accessed, in every replacer state
reachable with `K >= 2`: if some evictable frame has at least one and fewer than `K` recorded
accesses, `Evict` returns, among those, the one that entered the history list earliest;
otherwise, if some evictable frame has at least `K` accesses, `Evict` returns, among those,
the one whose most recent access is oldest; otherwise `Evict` returns none. -/
theorem evict_victim (ev0 : Bool) (num_frames k : Nat) (hk : 2 ≤ k) (t : Timed)
    (hr : TimedReachable ev0 num_frames k t) :
    ((∃ f, youngCandidate t.r f) → ∃ v, (Evict ev0 t.r).1 = some v ∧ youngCandidate t.r v ∧
        ∀ f, youngCandidate t.r f → t.entered v ≤ t.entered f) ∧
    ((¬ ∃ f, youngCandidate t.r f) → (∃ f, oldCandidate t.r f) →
        ∃ v, (Evict ev0 t.r).1 = some v ∧ oldCandidate t.r v ∧
          ∀ f, oldCandidate t.r f → t.last v ≤ t.last f) ∧
    ((¬ ∃ f, youngCandidate t.r f) → (¬ ∃ f, oldCandidate t.r f) →
        (Evict ev0 t.r).1 = none) :=
  evict_choice ev0 (hr.timedInv hk)

end bustub

namespace bustub
namespace LRUKReplacer

theorem timed_run_reachable {ev0 : Bool} {num_frames k : Nat} :
    ∀ (calls : List ReplacerCall) (t t2 : Timed), TimedReachable ev0 num_frames k t →
      Timed.run ev0 t calls = .ok t2 → TimedReachable ev0 num_frames k t2
  | [], t, t2, hr, h => by
    simp only [Timed.run, Except.ok.injEq] at h
    rw [← h]; exact hr
  | c :: rest, t, t2, hr, h => by
    simp only [Timed.run] at h
    cases hc : t.call ev0 c with
    | error e => rw [hc] at h; cases h
    | ok t1 =>
      rw [hc] at h
      simp only at h
      apply timed_run_reachable rest t1 t2 _ h
      cases c with
      | recordAccess f =>
        simp only [Timed.call] at hc
        cases hra : RecordAccess ev0 t.r f with
        | error e => rw [hra] at hc; cases hc
        | ok r2 =>
          rw [hra] at hc
          simp only [Except.ok.injEq] at hc
          rw [← hc]
          exact TimedReachable.recordAccess f r2 hr hra
      | setEvictable f b =>
        simp only [Timed.call, Except.ok.injEq] at hc
        rw [← hc]
        exact TimedReachable.setEvictable f b hr
      | remove f =>
        simp only [Timed.call] at hc
        cases hrm : Remove t.r f with
        | error e => rw [hrm] at hc; cases hc
        | ok r2 =>
          rw [hrm] at hc
          simp only [Except.ok.injEq] at hc
          rw [← hc]
          exact TimedReachable.remove f r2 hr hrm
      | evict =>
        simp only [Timed.call, Except.ok.injEq] at hc
        rw [← hc]
        exact TimedReachable.evict hr

theorem timed_after_reachable (ev0 : Bool) (num_frames k : Nat) (calls : List ReplacerCall) :
    TimedReachable ev0 num_frames k (Timed.after ev0 (Timed.init num_frames k) calls) := by
  unfold Timed.after
  cases h : Timed.run ev0 (Timed.init num_frames k) calls with
  | error e => exact TimedReachable.init
  | ok t2 => exact timed_run_reachable calls _ t2 TimedReachable.init h

end LRUKReplacer
end bustub

namespace bustub
open LRUKReplacer

theorem evict_victim_witness :
    (((∃ f, youngCandidate (Timed.after false (Timed.init 7 2) scenarioS3).r f) →
      ∃ v, (Evict false (Timed.after false (Timed.init 7 2) scenarioS3).r).1 = some v ∧
        youngCandidate (Timed.after false (Timed.init 7 2) scenarioS3).r v ∧
        ∀ f, youngCandidate (Timed.after false (Timed.init 7 2) scenarioS3).r f →
          (Timed.after false (Timed.init 7 2) scenarioS3).entered v
            ≤ (Timed.after false (Timed.init 7 2) scenarioS3).entered f) ∧
    ((¬ ∃ f, youngCandidate (Timed.after false (Timed.init 7 2) scenarioS3).r f) →
      (∃ f, oldCandidate (Timed.after false (Timed.init 7 2) scenarioS3).r f) →
      ∃ v, (Evict false (Timed.after false (Timed.init 7 2) scenarioS3).r).1 = some v ∧
        oldCandidate (Timed.after false (Timed.init 7 2) scenarioS3).r v ∧
        ∀ f, oldCandidate (Timed.after false (Timed.init 7 2) scenarioS3).r f →
          (Timed.after false (Timed.init 7 2) scenarioS3).last v
            ≤ (Timed.after false (Timed.init 7 2) scenarioS3).last f) ∧
    ((¬ ∃ f, youngCandidate (Timed.after false (Timed.init 7 2) scenarioS3).r f) →
      (¬ ∃ f, oldCandidate (Timed.after false (Timed.init 7 2) scenarioS3).r f) →
      (Evict false (Timed.after false (Timed.init 7 2) scenarioS3).r).1 = none)) ∧
    (Evict false (Timed.after false (Timed.init 7 2) scenarioS3).r).1 = some 3 ∧
    (Evict false (Timed.after false (Timed.init 7 2)
      (scenarioS3 ++ [.evict, .recordAccess 4, .setEvictable 4 true])).r).1 = some 4 ∧
    (Evict false (Timed.after false (Timed.init 7 2)
      (scenarioS3 ++ [.evict, .recordAccess 4, .setEvictable 4 true, .evict])).r).1 = some 1 ∧
    (Evict false (Timed.after false (Timed.init 7 2)
      (scenarioS3 ++ [.evict, .recordAccess 4, .setEvictable 4 true, .evict, .evict])).r).1
        = some 2 ∧
    (Evict true (Timed.after true (Timed.init 7 2) scenarioS3).r).1 = some 3 :=
  ⟨evict_victim false 7 2 (by decide) _ (timed_after_reachable false 7 2 scenarioS3),
    by decide, by decide, by decide, by decide, by decide⟩

/-- C8 (the code at the failing input): with `K = 2`, `SetEvictable(5, true)` on a frame that
was never accessed leaves an entry for frame 5 with no recorded access and the evictable flag
set, in neither list.  On a fresh replacer `Evict` then returns none although an evictable
frame with fewer than `K` accesses exists; and after two accesses to frame 1, made evictable,
`Evict` returns frame 1, which has `K` accesses, and leaves frame 5 in place.  Both hold
whichever value the evictable flag of a default-constructed entry has. -/
theorem evict_passes_over_unaccessed_frame :
    ((lookup (Timed.after false (Timed.init 7 2) [.setEvictable 5 true]).r.entrys_ 5
          = some ⟨0, true⟩ ∧
        (Evict false (Timed.after false (Timed.init 7 2) [.setEvictable 5 true]).r).1 = none) ∧
      (lookup (Timed.after false (Timed.init 7 2)
          [.setEvictable 5 true, .recordAccess 1, .recordAccess 1, .setEvictable 1 true]).r.entrys_ 5
          = some ⟨0, true⟩ ∧
        lookup (Timed.after false (Timed.init 7 2)
          [.setEvictable 5 true, .recordAccess 1, .recordAccess 1, .setEvictable 1 true]).r.entrys_ 1
          = some ⟨2, true⟩ ∧
        (Evict false (Timed.after false (Timed.init 7 2)
          [.setEvictable 5 true, .recordAccess 1, .recordAccess 1, .setEvictable 1 true]).r).1
          = some 1 ∧
        lookup (Evict false (Timed.after false (Timed.init 7 2)
          [.setEvictable 5 true, .recordAccess 1, .recordAccess 1, .setEvictable 1 true]).r).2.entrys_ 5
          = some ⟨0, true⟩)) ∧
    ((lookup (Timed.after true (Timed.init 7 2) [.setEvictable 5 true]).r.entrys_ 5
          = some ⟨0, true⟩ ∧
        (Evict true (Timed.after true (Timed.init 7 2) [.setEvictable 5 true]).r).1 = none) ∧
      (lookup (Timed.after true (Timed.init 7 2)
          [.setEvictable 5 true, .recordAccess 1, .recordAccess 1, .setEvictable 1 true]).r.entrys_ 5
          = some ⟨0, true⟩ ∧
        lookup (Timed.after true (Timed.init 7 2)
          [.setEvictable 5 true, .recordAccess 1, .recordAccess 1, .setEvictable 1 true]).r.entrys_ 1
          = some ⟨2, true⟩ ∧
        (Evict true (Timed.after true (Timed.init 7 2)
          [.setEvictable 5 true, .recordAccess 1, .recordAccess 1, .setEvictable 1 true]).r).1
          = some 1 ∧
        lookup (Evict true (Timed.after true (Timed.init 7 2)
          [.setEvictable 5 true, .recordAccess 1, .recordAccess 1, .setEvictable 1 true]).r).2.entrys_ 5
          = some ⟨0, true⟩)) := by
  exact ⟨⟨⟨by decide, by decide⟩, by decide, by decide, by decide, by decide⟩,
    ⟨⟨by decide, by decide⟩, by decide, by decide, by decide, by decide⟩⟩

end bustub

namespace bustub
namespace BufferPoolManagerInstance
open LRUKReplacer

theorem SameMeta.refl (s : BufferPoolManagerInstance) : SameMeta s s :=
  ⟨rfl, rfl, rfl, rfl, fun _ => rfl, fun _ => rfl⟩

theorem SameMeta.trans {a b c : BufferPoolManagerInstance} (h1 : SameMeta a b)
    (h2 : SameMeta b c) : SameMeta a c :=
  ⟨h2.pool.trans h1.pool, h2.table.trans h1.table, h2.rep.trans h1.rep, h2.free.trans h1.free,
    fun f => (h2.pin f).trans (h1.pin f), fun f => (h2.pid f).trans (h1.pid f)⟩

theorem Inv.of_same {s s2 : BufferPoolManagerInstance} {limbo : Option Int} (inv : Inv s limbo)
    (h : SameMeta s s2) : Inv s2 limbo := by
  have hr : ∀ f, inRange s2 f ↔ inRange s f := by
    intro f; unfold inRange; rw [h.pool]
  constructor
  · rw [h.pool]; exact inv.pool_lt
  · rw [h.table]; exact inv.table_wf
  · rw [h.rep]; exact inv.rep_cons
  · rw [h.rep, h.pool]; exact inv.rep_size
  · rw [h.free]; exact inv.free_nodup
  · intro f hf
    rw [h.free] at hf
    rw [hr, h.rep, h.pin]
    exact inv.free_ok f hf
  · intro f h1 h2 h3
    rw [hr] at h1
    rw [h.free] at h2
    rw [h.rep, h.pin]
    exact inv.held f h1 h2 h3
  · intro f e h1
    rw [h.rep] at h1
    rw [hr]
    exact inv.tracked_ok f e h1
  · intro f; rw [h.pin]; exact inv.pin_nonneg f
  · intro p f h1
    rw [h.table] at h1
    rw [hr, h.free, h.pid]
    exact inv.dir_ok p f h1
  · intro f h1
    rw [hr, h.free]
    exact inv.limbo_ok f h1

theorem same_writePage (s : BufferPoolManagerInstance) (p : Int) (d : List Nat) :
    SameMeta s (s.WritePage p d) := ⟨rfl, rfl, rfl, rfl, fun _ => rfl, fun _ => rfl⟩

theorem setPage_pages (s : BufferPoolManagerInstance) (f g : Int) (pg : Page) :
    ((s.setPage f pg).pages_ g) = if g = f then pg else s.pages_ g := by
  unfold setPage
  simp only [Function.update_apply]

/-- Overwriting a page with one that has the same page id and pin count. -/
theorem same_setPage (s : BufferPoolManagerInstance) (f : Int) (pg : Page)
    (h1 : pg.pin_count_ = (s.pages_ f).pin_count_) (h2 : pg.page_id_ = (s.pages_ f).page_id_) :
    SameMeta s (s.setPage f pg) := by
  refine ⟨rfl, rfl, rfl, rfl, ?_, ?_⟩
  · intro g
    rw [setPage_pages]
    split
    · rename_i e; rw [e]; exact h1
    · rfl
  · intro g
    rw [setPage_pages]
    split
    · rename_i e; rw [e]; exact h2
    · rfl

theorem mem_free_init (pool_size : Nat) (f : Int) :
    f ∈ (List.range pool_size).map Int.ofNat ↔ 0 ≤ f ∧ f < pool_size := by
  simp only [List.mem_map, List.mem_range]
  constructor
  · rintro ⟨i, hi, rfl⟩
    constructor
    · exact Int.ofNat_nonneg i
    · exact Int.ofNat_lt.mpr hi
  · rintro ⟨h1, h2⟩
    refine ⟨f.toNat, ?_, Int.toNat_of_nonneg h1⟩
    have : ((f.toNat : Nat) : Int) < (pool_size : Int) := by
      rw [Int.toNat_of_nonneg h1]; exact h2
    exact_mod_cast this

theorem inv_new (pool_size : Nat) (disk : Int → List Nat) (replacer_k bucket_size : Nat)
    (hp : pool_size < 2147483648) (hb : 1 ≤ bucket_size) :
    Inv (new pool_size disk replacer_k bucket_size) none := by
  constructor
  · exact hp
  · exact ExtendibleHashTable.wf_new pageHash bucket_size hb
  · exact consistent_new pool_size replacer_k
  · rfl
  · exact List.Nodup.map (f := Int.ofNat) (fun a b h => Int.ofNat.inj h)
      (List.nodup_range pool_size)
  · intro f hf
    exact ⟨(mem_free_init pool_size f).mp hf, rfl, rfl⟩
  · intro f hr hf _
    exact absurd ((mem_free_init pool_size f).mpr hr) hf
  · intro f e h
    simp [new, LRUKReplacer.new, lookup] at h
  · intro f; simp [new, Page.init]
  · intro p f h
    exfalso
    have : ExtendibleHashTable.Find pageHash
        (ExtendibleHashTable.new bucket_size : ExtendibleHashTable Int Int) p = none := by
      unfold ExtendibleHashTable.Find ExtendibleHashTable.bucketAt ExtendibleHashTable.IndexOf
      simp [ExtendibleHashTable.new, ExtendibleHashTable.handleAt, ExtendibleHashTable.bucketOf,
        Bucket.Find, Bucket.mk0, Bucket.findIn]
    change ExtendibleHashTable.Find pageHash (ExtendibleHashTable.new bucket_size) p = some f at h
    rw [this] at h; cases h
  · intro f h; cases h

theorem gaf_cases (ev0 : Bool) (s : BufferPoolManagerInstance) :
    (∃ fid rest, s.free_list_ = fid :: rest ∧
        GetAvailableFrame ev0 s = (some fid, { s with free_list_ := rest })) ∨
    (s.free_list_ = [] ∧ ∃ fid r, Evict ev0 s.replacer_ = (some fid, r) ∧
        GetAvailableFrame ev0 s = (some fid, afterEvict s fid r)) ∨
    (s.free_list_ = [] ∧ ∃ r, Evict ev0 s.replacer_ = (none, r) ∧
        GetAvailableFrame ev0 s = (none, { s with replacer_ := r })) := by
  unfold GetAvailableFrame
  split
  · rename_i fid rest h
    exact Or.inl ⟨fid, rest, h, rfl⟩
  · rename_i h
    right
    split
    · rename_i fid r he
      exact Or.inl ⟨h, fid, r, he, rfl⟩
    · rename_i r he
      exact Or.inr ⟨h, r, he, rfl⟩

theorem same_writeBack (s : BufferPoolManagerInstance) (fid : Int) :
    SameMeta s (writeBack s fid) := by
  unfold writeBack
  split
  · exact (same_writePage s _ _).trans (same_setPage _ fid _ rfl rfl)
  · exact SameMeta.refl s

/-- Taking a frame from the free list. -/
theorem inv_take_free {s : BufferPoolManagerInstance} (inv : Inv s none) {fid : Int}
    {rest : List Int} (h : s.free_list_ = fid :: rest) :
    Inv { s with free_list_ := rest } (some fid) := by
  have hmem : fid ∈ s.free_list_ := by rw [h]; exact List.mem_cons_self _ _
  have hnd := inv.free_nodup
  rw [h] at hnd
  have hnot : fid ∉ rest := (List.nodup_cons.mp hnd).1
  have hsub : ∀ g, g ∈ rest → g ∈ s.free_list_ := by
    intro g hg; rw [h]; exact List.mem_cons_of_mem _ hg
  have hne : ∀ g, g ∉ s.free_list_ → some fid ≠ some g := by
    intro g hg e
    simp only [Option.some.injEq] at e
    exact hg (e ▸ hmem)
  constructor
  · exact inv.pool_lt
  · exact inv.table_wf
  · exact inv.rep_cons
  · exact inv.rep_size
  · exact (List.nodup_cons.mp hnd).2
  · intro f hf
    exact inv.free_ok f (hsub f hf)
  · intro f hr hf hl
    apply inv.held f hr _ (by simp)
    intro x
    rw [h] at x
    rcases List.mem_cons.mp x with e | e
    · exact hl (by rw [e])
    · exact hf e
  · intro f e he
    obtain ⟨a, b, _⟩ := inv.tracked_ok f e he
    refine ⟨a, b, ?_⟩
    intro x
    simp only [Option.some.injEq] at x
    have := (inv.free_ok fid hmem).2.1
    rw [x, he] at this
    cases this
  · exact inv.pin_nonneg
  · intro p f hf
    obtain ⟨a, b, _, d⟩ := inv.dir_ok p f hf
    exact ⟨a, fun x => b (hsub f x), hne f b, d⟩
  · intro f hf
    simp only [Option.some.injEq] at hf
    subst hf
    exact ⟨(inv.free_ok _ hmem).1, hnot⟩

/-- Taking a frame from the replacer. -/
theorem inv_take_evict {ev0 : Bool} {s : BufferPoolManagerInstance} (inv : Inv s none)
    (hfree : s.free_list_ = []) {fid : Int} {r : LRUKReplacer}
    (h : Evict ev0 s.replacer_ = (some fid, r)) :
    Inv (afterEvict s fid r) (some fid) := by
  obtain ⟨hl, ⟨e0, he0, hev0⟩, c2, hlist, hnone, hother, hsz, _, _⟩ := evict_some inv.rep_cons h
  have hs := same_writeBack { s with replacer_ := r } fid
  have hrange := (inv.tracked_ok fid e0 he0).1
  have hF : ∀ p, p ≠ ((writeBack { s with replacer_ := r } fid).pages_ fid).page_id_ →
      ExtendibleHashTable.Find pageHash (afterEvict s fid r).page_table_ p
        = ExtendibleHashTable.Find pageHash s.page_table_ p := by
    intro p hp
    unfold afterEvict
    simp only
    rw [hs.table]
    exact (ExtendibleHashTable.remove_spec inv.table_wf _).2.2.2.1 p hp
  have hFq : ExtendibleHashTable.Find pageHash (afterEvict s fid r).page_table_
      ((writeBack { s with replacer_ := r } fid).pages_ fid).page_id_ = none := by
    unfold afterEvict
    simp only
    rw [hs.table]
    exact (ExtendibleHashTable.remove_spec inv.table_wf _).2.2.1
  have hpid : ∀ g, ((afterEvict s fid r).pages_ g).page_id_ = (s.pages_ g).page_id_ :=
    fun g => hs.pid g
  have hpin : ∀ g, ((afterEvict s fid r).pages_ g).pin_count_ = (s.pages_ g).pin_count_ :=
    fun g => hs.pin g
  have hrep : (afterEvict s fid r).replacer_ = r := hs.rep
  have hfl : (afterEvict s fid r).free_list_ = [] := hs.free.trans hfree
  have hpool : (afterEvict s fid r).pool_size_ = s.pool_size_ := hs.pool
  have hr : ∀ f, inRange (afterEvict s fid r) f ↔ inRange s f := by
    intro f; unfold inRange; rw [hpool]
  constructor
  · rw [hpool]; exact inv.pool_lt
  · unfold afterEvict
    simp only
    rw [hs.table]
    exact (ExtendibleHashTable.remove_spec inv.table_wf _).1
  · rw [hrep]; exact c2
  · rw [hrep, hpool, hsz]; exact inv.rep_size
  · rw [hfl]; exact List.nodup_nil
  · intro f hf; rw [hfl] at hf; cases hf
  · intro f h1 _ h3
    rw [hr] at h1
    have hne : f ≠ fid := fun x => h3 (by rw [x])
    rw [hrep, hother f hne, hpin]
    exact inv.held f h1 (by rw [hfree]; simp) (by simp)
  · intro f e he
    rw [hrep] at he
    have hne : f ≠ fid := by
      intro x; rw [x, hnone] at he; cases he
    rw [hother f hne] at he
    obtain ⟨a, b, _⟩ := inv.tracked_ok f e he
    rw [hr]
    exact ⟨a, b, fun x => hne (Option.some.inj x).symm⟩
  · intro f; rw [hpin]; exact inv.pin_nonneg f
  · intro p f hf
    have hp : p ≠ ((writeBack { s with replacer_ := r } fid).pages_ fid).page_id_ := by
      intro x; rw [x, hFq] at hf; cases hf
    rw [hF p hp] at hf
    obtain ⟨a, _, _, d⟩ := inv.dir_ok p f hf
    rw [hr, hfl, hpid]
    refine ⟨a, by simp, ?_, d⟩
    intro x
    have x2 : fid = f := Option.some.inj x
    apply hp
    rw [hs.pid fid, x2]
    exact d.symm
  · intro f hf
    have x2 : fid = f := Option.some.inj hf
    rw [hr, hfl, ← x2]
    exact ⟨hrange, by simp⟩

theorem toInt32_of_lt {n : Nat} (h : n < 2147483648) : toInt32 n = (n : Int) := by
  unfold toInt32
  have : n % 4294967296 = n := Nat.mod_eq_of_lt (by omega)
  rw [this, if_pos h]

/-- Replacing the page of the frame in limbo. -/
theorem inv_setPage_limbo {s : BufferPoolManagerInstance} {f : Int} (inv : Inv s (some f))
    (pg : Page) (hpg : 0 ≤ pg.pin_count_) : Inv (s.setPage f pg) (some f) := by
  have hp : ∀ g, g ≠ f → (s.setPage f pg).pages_ g = s.pages_ g := by
    intro g hg; rw [setPage_pages, if_neg hg]
  have hfree : ∀ g ∈ s.free_list_, g ≠ f := by
    intro g hg e
    exact (inv.limbo_ok f rfl).2 (e ▸ hg)
  constructor
  · exact inv.pool_lt
  · exact inv.table_wf
  · exact inv.rep_cons
  · exact inv.rep_size
  · exact inv.free_nodup
  · intro g hg
    have := inv.free_ok g hg
    have e : (s.setPage f pg).pages_ g = s.pages_ g := hp g (hfree g hg)
    rw [e]
    exact this
  · intro g h1 h2 h3
    have hne : g ≠ f := fun x => h3 (by rw [x])
    have e : (s.setPage f pg).pages_ g = s.pages_ g := hp g hne
    rw [e]
    exact inv.held g h1 h2 h3
  · exact inv.tracked_ok
  · intro g
    rw [setPage_pages]
    split
    · exact hpg
    · exact inv.pin_nonneg g
  · intro p g hg
    obtain ⟨a, b, c, d⟩ := inv.dir_ok p g hg
    have hne : g ≠ f := fun x => c (by rw [x])
    have e : (s.setPage f pg).pages_ g = s.pages_ g := hp g hne
    rw [e]
    exact ⟨a, b, c, d⟩
  · exact inv.limbo_ok

/-- Function `install` without a result of the `Insert` into the page table. -/
theorem install_none (ev0 : Bool) (s : BufferPoolManagerInstance) (p f : Int)
    (after : BufferPoolManagerInstance → BufferPoolManagerInstance)
    (h : ExtendibleHashTable.Insert pageHash s.page_table_ p f = none) :
    install ev0 s p f after = .error .table_depth := by
  unfold install
  rw [h]

/-- A returning `install`: it returns whenever the frame is the one in limbo and the `Insert`
into the page table returns, and leaves the invariant, the new directory entry and the entry
of the frame in the replacer. -/
theorem install_ok (ev0 : Bool) {s : BufferPoolManagerInstance} {f : Int} (p : Int)
    (inv : Inv s (some f)) (hpin : (s.pages_ f).pin_count_ = 1)
    (hpid : (s.pages_ f).page_id_ = p)
    (after : BufferPoolManagerInstance → BufferPoolManagerInstance)
    (hafter : ∀ x, SameMeta x (after x)) {t : ExtendibleHashTable Int Int}
    (ht : ExtendibleHashTable.Insert pageHash s.page_table_ p f = some t) :
    ∃ r, RecordAccess ev0 s.replacer_ f = .ok r ∧
      install ev0 s p f after = .ok
        { after { s with page_table_ := t } with replacer_ := r.SetEvictable ev0 f false } ∧
      Inv { after { s with page_table_ := t } with replacer_ := r.SetEvictable ev0 f false }
        none ∧
      (after { s with page_table_ := t }).page_table_ = t ∧
      (after { s with page_table_ := t }).free_list_ = s.free_list_ ∧
      (after { s with page_table_ := t }).pool_size_ = s.pool_size_ := by
  obtain ⟨wf2, hfind, hfother⟩ := ExtendibleHashTable.insert_spec inv.table_wf p f ht
  have hsame := hafter { s with page_table_ := t }
  have hrange := (inv.limbo_ok f rfl).1
  have hnotfree := (inv.limbo_ok f rfl).2
  have hnone : lookup s.replacer_.entrys_ f = none := by
    cases hl : lookup s.replacer_.entrys_ f with
    | none => rfl
    | some e => exact absurd rfl (inv.tracked_ok f e hl).2.2
  have hle : f ≤ toInt32 s.replacer_.replacer_size_ := by
    rw [inv.rep_size, toInt32_of_lt inv.pool_lt]
    exact le_of_lt hrange.2
  obtain ⟨r, hr⟩ := recordAccess_fresh ev0 s.replacer_ f hle hnone
  obtain ⟨c1, _, hf1, hother1, hsz1, _, _⟩ := recordAccess_ok inv.rep_cons hr
  obtain ⟨c2, _, hf2, hother2, hsz2, _⟩ := setEvictable_spec ev0 c1 f false
  have hentry : entryAt ev0 s.replacer_.entrys_ f = ⟨0, ev0⟩ := by
    unfold entryAt; rw [hnone]; rfl
  refine ⟨r, hr, ?_, ?_, hsame.table, hsame.free, hsame.pool⟩
  · unfold install
    rw [ht]
    simp only
    rw [hsame.rep, hr]
  · have hpin2 : ∀ g, ((after { s with page_table_ := t }).pages_ g).pin_count_
        = (s.pages_ g).pin_count_ := hsame.pin
    have hpid2 : ∀ g, ((after { s with page_table_ := t }).pages_ g).page_id_
        = (s.pages_ g).page_id_ := hsame.pid
    have hpool : (after { s with page_table_ := t }).pool_size_ = s.pool_size_ := hsame.pool
    have hfl : (after { s with page_table_ := t }).free_list_ = s.free_list_ := hsame.free
    have htab : (after { s with page_table_ := t }).page_table_ = t := hsame.table
    have hlk : ∀ g, g ≠ f → lookup (r.SetEvictable ev0 f false).entrys_ g
        = lookup s.replacer_.entrys_ g := by
      intro g hg; rw [hother2 g hg, hother1 g hg]
    have hlf : lookup (r.SetEvictable ev0 f false).entrys_ f = some ⟨1, false⟩ := by
      rw [hf2, entryAt_of_some hf1, hentry]
    constructor
    · show (after { s with page_table_ := t }).pool_size_ < _
      rw [hpool]; exact inv.pool_lt
    · show ExtendibleHashTable.WF pageHash (after { s with page_table_ := t }).page_table_
      rw [htab]; exact wf2
    · exact c2
    · show (r.SetEvictable ev0 f false).replacer_size_ = (after { s with page_table_ := t }).pool_size_
      rw [hsz2, hsz1, hpool]; exact inv.rep_size
    · show (after { s with page_table_ := t }).free_list_.Nodup
      rw [hfl]; exact inv.free_nodup
    · intro g hg
      change g ∈ (after { s with page_table_ := t }).free_list_ at hg
      rw [hfl] at hg
      have hne : g ≠ f := fun x => hnotfree (x ▸ hg)
      obtain ⟨a, b, c⟩ := inv.free_ok g hg
      refine ⟨?_, ?_, ?_⟩
      · show 0 ≤ g ∧ g < ((after { s with page_table_ := t }).pool_size_ : Int)
        rw [hpool]; exact a
      · show lookup (r.SetEvictable ev0 f false).entrys_ g = none
        rw [hlk g hne]; exact b
      · show ((after { s with page_table_ := t }).pages_ g).pin_count_ = 0
        rw [hpin2]; exact c
    · intro g h1 h2 _
      change 0 ≤ g ∧ g < ((after { s with page_table_ := t }).pool_size_ : Int) at h1
      change g ∉ (after { s with page_table_ := t }).free_list_ at h2
      rw [hpool] at h1
      rw [hfl] at h2
      show ∃ e, lookup (r.SetEvictable ev0 f false).entrys_ g = some e ∧
        (e.evictable = true ↔ ((after { s with page_table_ := t }).pages_ g).pin_count_ = 0)
      rw [hpin2]
      by_cases hg : g = f
      · subst hg
        refine ⟨_, hlf, ?_⟩
        rw [hpin]; simp
      · rw [hlk g hg]
        exact inv.held g h1 h2 (fun x => hg (Option.some.inj x).symm)
    · intro g e he
      change lookup (r.SetEvictable ev0 f false).entrys_ g = some e at he
      show (0 ≤ g ∧ g < ((after { s with page_table_ := t }).pool_size_ : Int)) ∧ _
      rw [hpool]
      by_cases hg : g = f
      · subst hg
        rw [hlf] at he
        cases he
        exact ⟨hrange, le_refl 1, by simp⟩
      · rw [hlk g hg] at he
        obtain ⟨a, b, _⟩ := inv.tracked_ok g e he
        exact ⟨a, b, by simp⟩
    · intro g
      show 0 ≤ ((after { s with page_table_ := t }).pages_ g).pin_count_
      rw [hpin2]; exact inv.pin_nonneg g
    · intro q g hq
      change ExtendibleHashTable.Find pageHash (after { s with page_table_ := t }).page_table_ q
        = some g at hq
      rw [htab] at hq
      show (0 ≤ g ∧ g < ((after { s with page_table_ := t }).pool_size_ : Int)) ∧
        g ∉ (after { s with page_table_ := t }).free_list_ ∧ none ≠ some g ∧
        ((after { s with page_table_ := t }).pages_ g).page_id_ = q
      rw [hpool, hfl, hpid2]
      by_cases hqp : q = p
      · subst hqp
        rw [hfind] at hq
        cases hq
        exact ⟨hrange, hnotfree, by simp, hpid⟩
      · rw [hfother q hqp] at hq
        obtain ⟨a, b, _, d⟩ := inv.dir_ok q g hq
        exact ⟨a, b, by simp, d⟩
    · intro g hg; cases hg

theorem writeBack_pages_data (s : BufferPoolManagerInstance) (fid g : Int) :
    ((writeBack s fid).pages_ g).data_ = (s.pages_ g).data_ := by
  unfold writeBack
  split
  · rw [setPage_pages]
    split
    · rename_i e; rw [e]
    · rfl
  · rfl

theorem writeBack_next (s : BufferPoolManagerInstance) (fid : Int) :
    (writeBack s fid).next_page_id_ = s.next_page_id_ := by
  unfold writeBack; split <;> rfl

theorem gaf_some {ev0 : Bool} {s s1 : BufferPoolManagerInstance} (inv : Inv s none) {f : Int}
    (h : GetAvailableFrame ev0 s = (some f, s1)) : GafOut s f s1 := by
  rcases gaf_cases ev0 s with ⟨fid, rest, hfl, hg⟩ | ⟨hfl, fid, r, he, hg⟩ | ⟨_, r, _, hg⟩
  · rw [hg] at h
    simp only [Prod.mk.injEq, Option.some.injEq] at h
    obtain ⟨h1, h2⟩ := h
    subst h1; subst h2
    have hmem : fid ∈ s.free_list_ := by rw [hfl]; exact List.mem_cons_self _ _
    exact ⟨inv_take_free inv hfl, rfl, rfl, fun _ => rfl, fun _ => rfl, fun _ => rfl,
      (inv.free_ok fid hmem).2.2, fun _ _ x => x, fun _ _ => rfl⟩
  · rw [hg] at h
    simp only [Prod.mk.injEq, Option.some.injEq] at h
    obtain ⟨h1, h2⟩ := h
    subst h1; subst h2
    have hs := same_writeBack { s with replacer_ := r } fid
    obtain ⟨hl, ⟨e0, he0, hev0⟩, _⟩ := evict_some inv.rep_cons he
    have hrange := (inv.tracked_ok fid e0 he0).1
    obtain ⟨e1, he1, hiff⟩ := inv.held fid hrange (by rw [hfl]; simp) (by simp)
    rw [he0] at he1
    cases he1
    have hrem := ExtendibleHashTable.remove_spec inv.table_wf
      ((writeBack { s with replacer_ := r } fid).pages_ fid).page_id_
    have hpidf : ((writeBack { s with replacer_ := r } fid).pages_ fid).page_id_
        = (s.pages_ fid).page_id_ := hs.pid fid
    refine ⟨inv_take_evict inv hfl he, hs.pool, writeBack_next _ _, hs.pin, hs.pid,
      fun g => writeBack_pages_data _ fid g, hiff.mp hev0, ?_, ?_⟩
    · intro q g hq
      unfold afterEvict at hq
      simp only at hq
      rw [hs.table] at hq
      by_cases e : q = ((writeBack { s with replacer_ := r } fid).pages_ fid).page_id_
      · rw [e, hrem.2.2.1] at hq; cases hq
      · rw [hrem.2.2.2.1 q e] at hq; exact hq
    · intro q hq
      unfold afterEvict
      simp only
      rw [hs.table]
      rw [← hpidf] at hq
      exact hrem.2.2.2.1 q hq
  · rw [hg] at h
    simp at h

theorem gaf_none {ev0 : Bool} {s s1 : BufferPoolManagerInstance} (inv : Inv s none)
    (h : GetAvailableFrame ev0 s = (none, s1)) :
    s1 = s ∧ s.free_list_ = [] ∧
      ∀ g e, listed s.replacer_ g → lookup s.replacer_.entrys_ g = some e →
        e.evictable = false := by
  rcases gaf_cases ev0 s with ⟨fid, rest, hfl, hg⟩ | ⟨hfl, fid, r, he, hg⟩ | ⟨hfl, r, he, hg⟩
  · rw [hg] at h; simp at h
  · rw [hg] at h; simp at h
  · rw [hg] at h
    simp only [Prod.mk.injEq, true_and] at h
    obtain ⟨hr, hall⟩ := evict_none inv.rep_cons he
    rw [hr] at h
    exact ⟨h.symm, hfl, hall⟩

/-- Function `GetAvailableFrame` fails exactly when every frame is pinned. -/
theorem gaf_none_iff (ev0 : Bool) {s : BufferPoolManagerInstance} (inv : Inv s none) :
    (GetAvailableFrame ev0 s).1 = none ↔ allPinned s := by
  constructor
  · intro h
    have h2 : GetAvailableFrame ev0 s = (none, (GetAvailableFrame ev0 s).2) := by rw [← h]
    obtain ⟨_, hfl, hall⟩ := gaf_none inv h2
    intro f hf
    obtain ⟨e, he, hiff⟩ := inv.held f hf (by rw [hfl]; simp) (by simp)
    have hl := inv.rep_cons.listed_of_hit f e he (inv.tracked_ok f e he).2.1
    have hev := hall f e hl he
    have hne : (s.pages_ f).pin_count_ ≠ 0 := by
      intro x
      have := hiff.mpr x
      rw [hev] at this; cases this
    have := inv.pin_nonneg f
    omega
  · intro hall
    cases hc : (GetAvailableFrame ev0 s).1 with
    | none => rfl
    | some f =>
      exfalso
      have h2 : GetAvailableFrame ev0 s = (some f, (GetAvailableFrame ev0 s).2) := by rw [← hc]
      have out := gaf_some inv h2
      have hr : inRange s f := by
        have := (out.inv.limbo_ok f rfl).1
        unfold inRange at this ⊢
        rw [out.pool] at this
        exact this
      have := hall f hr
      rw [out.unpinned] at this
      exact absurd this (lt_irrefl 0)

theorem same_next (s : BufferPoolManagerInstance) (n : Int) :
    SameMeta s { s with next_page_id_ := n } :=
  ⟨rfl, rfl, rfl, rfl, fun _ => rfl, fun _ => rfl⟩

theorem install_entries (ev0 : Bool) {s : BufferPoolManagerInstance} {f : Int}
    (inv : Inv s (some f)) {r : LRUKReplacer} (hr : RecordAccess ev0 s.replacer_ f = .ok r) :
    lookup (r.SetEvictable ev0 f false).entrys_ f = some ⟨1, false⟩ ∧
      ∀ g, g ≠ f → lookup (r.SetEvictable ev0 f false).entrys_ g
        = lookup s.replacer_.entrys_ g := by
  have hnone : lookup s.replacer_.entrys_ f = none := by
    cases hl : lookup s.replacer_.entrys_ f with
    | none => rfl
    | some e => exact absurd rfl (inv.tracked_ok f e hl).2.2
  obtain ⟨c1, _, hf1, hother1, _⟩ := recordAccess_ok inv.rep_cons hr
  obtain ⟨_, _, hf2, hother2, _⟩ := setEvictable_spec ev0 c1 f false
  have hentry : entryAt ev0 s.replacer_.entrys_ f = ⟨0, ev0⟩ := by
    unfold entryAt; rw [hnone]; rfl
  constructor
  · rw [hf2, entryAt_of_some hf1, hentry]
  · intro g hg; rw [hother2 g hg, hother1 g hg]

theorem pages_setPage_same (s : BufferPoolManagerInstance) (f : Int) (pg : Page) :
    (s.setPage f pg).pages_ f = pg := by rw [setPage_pages, if_pos rfl]

theorem pages_setPage_ne (s : BufferPoolManagerInstance) {f g : Int} (pg : Page) (h : g ≠ f) :
    (s.setPage f pg).pages_ g = s.pages_ g := by rw [setPage_pages, if_neg h]

/-- Function `NewPgImp` after `GetAvailableFrame` handed out a frame. -/
theorem newPg_install (ev0 : Bool) {s s1 : BufferPoolManagerInstance} {f : Int}
    (out : GafOut s f s1) {t : ExtendibleHashTable Int Int}
    (ht : ExtendibleHashTable.Insert pageHash s1.page_table_ s1.next_page_id_ f = some t) :
    ∃ s2, install ev0
        (({ s1 with next_page_id_ := s1.next_page_id_ + 1 }).setPage f
          ({ s1.pages_ f with page_id_ := s1.next_page_id_, pin_count_ := 1 }).ResetMemory)
        s1.next_page_id_ f id = .ok s2 ∧
      Installed s1 f s.next_page_id_ (List.replicate PAGE_SIZE 0) s2 ∧
      s2.next_page_id_ = s.next_page_id_ + 1 := by
  have inv3 : Inv (({ s1 with next_page_id_ := s1.next_page_id_ + 1 }).setPage f
      ({ s1.pages_ f with page_id_ := s1.next_page_id_, pin_count_ := 1 }).ResetMemory)
      (some f) :=
    inv_setPage_limbo (out.inv.of_same (same_next s1 _)) _ (by simp [Page.ResetMemory])
  obtain ⟨r, hr, hi, inv4, htab, _, _⟩ := install_ok ev0 s1.next_page_id_ inv3
    (by rw [pages_setPage_same]; rfl) (by rw [pages_setPage_same]; rfl)
    id (fun x => SameMeta.refl x) ht
  have hspec := ExtendibleHashTable.insert_spec inv3.table_wf _ _ ht
  obtain ⟨e1, e2⟩ := install_entries ev0 inv3 hr
  have hpg : ∀ g, ({ id { (({ s1 with next_page_id_ := s1.next_page_id_ + 1 }).setPage f
      ({ s1.pages_ f with page_id_ := s1.next_page_id_, pin_count_ := 1 }).ResetMemory) with
        page_table_ := t } with replacer_ := r.SetEvictable ev0 f false }
          : BufferPoolManagerInstance).pages_ g
      = (({ s1 with next_page_id_ := s1.next_page_id_ + 1 }).setPage f
      ({ s1.pages_ f with page_id_ := s1.next_page_id_, pin_count_ := 1 }).ResetMemory).pages_ g :=
    fun _ => rfl
  refine ⟨_, hi, ?_, ?_⟩
  · refine ⟨inv4, rfl, rfl, rfl, rfl, ?_, ?_, ?_, ?_, ?_, ?_, ?_, e1, e2⟩
    · rw [hpg, pages_setPage_same]; rfl
    · rw [hpg, pages_setPage_same]; exact out.next
    · rw [hpg, pages_setPage_same]; rfl
    · rw [hpg, pages_setPage_same]; rfl
    · intro g hg
      rw [hpg, pages_setPage_ne _ _ hg]
    · rw [← out.next]; exact hspec.2.1
    · intro q hq
      rw [← out.next] at hq
      exact hspec.2.2 q hq
  · show s1.next_page_id_ + 1 = _
    rw [out.next]

/-- The miss path of `FetchPgImp` after `GetAvailableFrame` handed out a frame. -/
theorem fetch_install (ev0 : Bool) {s s1 : BufferPoolManagerInstance} {f : Int} (p : Int)
    (out : GafOut s f s1) {t : ExtendibleHashTable Int Int}
    (ht : ExtendibleHashTable.Insert pageHash s1.page_table_ p f = some t) :
    ∃ s2, install ev0
        (s1.setPage f ({ s1.pages_ f with page_id_ := p, pin_count_ := 1 }).ResetMemory)
        p f (fun x => x.setPage f { x.pages_ f with data_ := x.disk p }) = .ok s2 ∧
      Installed s1 f p (s1.disk p) s2 ∧ s2.next_page_id_ = s.next_page_id_ := by
  have inv3 : Inv (s1.setPage f
      ({ s1.pages_ f with page_id_ := p, pin_count_ := 1 }).ResetMemory) (some f) :=
    inv_setPage_limbo out.inv _ (by simp [Page.ResetMemory])
  obtain ⟨r, hr, hi, inv4, htab, _, _⟩ := install_ok ev0 p inv3
    (by rw [pages_setPage_same]; rfl) (by rw [pages_setPage_same]; rfl)
    (fun x => x.setPage f { x.pages_ f with data_ := x.disk p })
    (fun x => same_setPage x f _ rfl rfl) ht
  have hspec := ExtendibleHashTable.insert_spec inv3.table_wf _ _ ht
  obtain ⟨e1, e2⟩ := install_entries ev0 inv3 hr
  have hpg : ∀ g, ({ (fun x : BufferPoolManagerInstance =>
        x.setPage f { x.pages_ f with data_ := x.disk p })
      { (s1.setPage f ({ s1.pages_ f with page_id_ := p, pin_count_ := 1 }).ResetMemory) with
        page_table_ := t } with replacer_ := r.SetEvictable ev0 f false }
          : BufferPoolManagerInstance).pages_ g
      = ((s1.setPage f ({ s1.pages_ f with page_id_ := p, pin_count_ := 1 }).ResetMemory).setPage f
          { (s1.setPage f ({ s1.pages_ f with page_id_ := p, pin_count_ := 1 }).ResetMemory).pages_ f
            with data_ := s1.disk p }).pages_ g :=
    fun _ => rfl
  refine ⟨_, hi, ?_, out.next⟩
  refine ⟨inv4, rfl, rfl, rfl, rfl, ?_, ?_, ?_, ?_, ?_, ?_, ?_, e1, e2⟩
  · rw [hpg, pages_setPage_same, pages_setPage_same]; rfl
  · rw [hpg, pages_setPage_same, pages_setPage_same]; rfl
  · rw [hpg, pages_setPage_same]
  · rw [hpg, pages_setPage_same, pages_setPage_same]; rfl
  · intro g hg
    rw [hpg, pages_setPage_ne _ _ hg, pages_setPage_ne _ _ hg]
  · exact hspec.2.1
  · exact hspec.2.2

/-- Function `NewPgImp`: it returns `none` with the pool unchanged when every frame is pinned;
otherwise it takes the frame `GetAvailableFrame` hands out and returns the page id
`next_page_id_` in it, unless the `Insert` into the page table has no result. -/
theorem newPg_spec (ev0 : Bool) {s : BufferPoolManagerInstance} (inv : Inv s none) :
    (allPinned s ∧ NewPgImp ev0 s = .ok (none, s)) ∨
    (¬ allPinned s ∧ ∃ f s1 s2, GetAvailableFrame ev0 s = (some f, s1) ∧ GafOut s f s1 ∧
      NewPgImp ev0 s = .ok (some (s.next_page_id_, f), s2) ∧
      Installed s1 f s.next_page_id_ (List.replicate PAGE_SIZE 0) s2 ∧
      s2.next_page_id_ = s.next_page_id_ + 1) ∨
    (¬ allPinned s ∧ ∃ f s1, GetAvailableFrame ev0 s = (some f, s1) ∧ GafOut s f s1 ∧
      ExtendibleHashTable.Insert pageHash s1.page_table_ s.next_page_id_ f = none ∧
      NewPgImp ev0 s = .error .table_depth) := by
  have hiff := gaf_none_iff ev0 inv
  rcases hg : GetAvailableFrame ev0 s with ⟨o, s1⟩
  cases o with
  | none =>
    left
    have hall : allPinned s := hiff.mp (by rw [hg])
    obtain ⟨h1, _, _⟩ := gaf_none inv hg
    refine ⟨hall, ?_⟩
    unfold NewPgImp
    rw [hg, h1]
  | some f =>
    right
    have hnall : ¬ allPinned s := by
      intro x
      have := hiff.mpr x
      rw [hg] at this; cases this
    have out := gaf_some inv hg
    cases ht : ExtendibleHashTable.Insert pageHash s1.page_table_ s1.next_page_id_ f with
    | some t =>
      left
      obtain ⟨s2, hi, hins, hnext⟩ := newPg_install ev0 out ht
      refine ⟨hnall, f, s1, s2, rfl, out, ?_, hins, hnext⟩
      unfold NewPgImp
      rw [hg]
      simp only
      rw [hi, out.next]
    | none =>
      right
      refine ⟨hnall, f, s1, rfl, out, by rw [← out.next]; exact ht, ?_⟩
      have h3 : install ev0
          (({ s1 with next_page_id_ := s1.next_page_id_ + 1 }).setPage f
            ({ s1.pages_ f with page_id_ := s1.next_page_id_, pin_count_ := 1 }).ResetMemory)
          s1.next_page_id_ f id = .error .table_depth :=
        install_none ev0
          (({ s1 with next_page_id_ := s1.next_page_id_ + 1 }).setPage f
            ({ s1.pages_ f with page_id_ := s1.next_page_id_, pin_count_ := 1 }).ResetMemory)
          _ _ _ ht
      unfold NewPgImp
      rw [hg]
      simp only
      rw [h3]

/-- A change of the pin count of a held frame `f` together with its entry in the replacer. -/
theorem inv_touch {s : BufferPoolManagerInstance} (s2 : BufferPoolManagerInstance)
    (inv : Inv s none) (f : Int)
    (hrange : inRange s f) (hfree : f ∉ s.free_list_)
    (hpool : s2.pool_size_ = s.pool_size_) (htab : s2.page_table_ = s.page_table_)
    (hfl : s2.free_list_ = s.free_list_)
    (hpages : ∀ g, g ≠ f → s2.pages_ g = s.pages_ g)
    (hpid : (s2.pages_ f).page_id_ = (s.pages_ f).page_id_)
    (hpin : 0 ≤ (s2.pages_ f).pin_count_)
    (hcons : Consistent s2.replacer_)
    (hsize : s2.replacer_.replacer_size_ = s.replacer_.replacer_size_)
    (hother : ∀ g, g ≠ f → lookup s2.replacer_.entrys_ g = lookup s.replacer_.entrys_ g)
    (hentry : ∃ e, lookup s2.replacer_.entrys_ f = some e ∧ 1 ≤ e.hit_count_ ∧
      (e.evictable = true ↔ (s2.pages_ f).pin_count_ = 0)) :
    Inv s2 none := by
  have hr : ∀ g, inRange s2 g ↔ inRange s g := by
    intro g; unfold inRange; rw [hpool]
  constructor
  · rw [hpool]; exact inv.pool_lt
  · rw [htab]; exact inv.table_wf
  · exact hcons
  · rw [hsize, hpool]; exact inv.rep_size
  · rw [hfl]; exact inv.free_nodup
  · intro g hg
    rw [hfl] at hg
    have hne : g ≠ f := fun x => hfree (x ▸ hg)
    rw [hr, hother g hne, hpages g hne]
    exact inv.free_ok g hg
  · intro g h1 h2 _
    rw [hr] at h1
    rw [hfl] at h2
    by_cases hg : g = f
    · subst hg
      obtain ⟨e, he, _, hiff⟩ := hentry
      exact ⟨e, he, hiff⟩
    · rw [hother g hg, hpages g hg]
      exact inv.held g h1 h2 (by simp)
  · intro g e he
    rw [hr]
    by_cases hg : g = f
    · subst hg
      obtain ⟨e2, he2, hh, _⟩ := hentry
      rw [he] at he2
      cases he2
      exact ⟨hrange, hh, by simp⟩
    · rw [hother g hg] at he
      exact inv.tracked_ok g e he
  · intro g
    by_cases hg : g = f
    · subst hg; exact hpin
    · rw [hpages g hg]; exact inv.pin_nonneg g
  · intro p g hg
    rw [htab] at hg
    obtain ⟨a, b, c, d⟩ := inv.dir_ok p g hg
    rw [hr, hfl]
    refine ⟨a, b, c, ?_⟩
    by_cases x : g = f
    · subst x; rw [hpid]; exact d
    · rw [hpages g x]; exact d
  · intro g hg; cases hg

theorem fetch_hit (ev0 : Bool) {s : BufferPoolManagerInstance} (inv : Inv s none) {p f : Int}
    (hf : ExtendibleHashTable.Find pageHash s.page_table_ p = some f) {r : LRUKReplacer}
    (hr : RecordAccess ev0 s.replacer_ f = .ok r) :
    FetchPgImp ev0 s p = .ok (some f, afterHit ev0 s f r) ∧ Inv (afterHit ev0 s f r) none := by
  constructor
  · unfold FetchPgImp
    rw [hf]
    simp only
    have : (s.setPage f { s.pages_ f with pin_count_ := (s.pages_ f).pin_count_ + 1 }).replacer_
        = s.replacer_ := rfl
    rw [this, hr]
    rfl
  · obtain ⟨a, b, _, _⟩ := inv.dir_ok p f hf
    obtain ⟨c1, _, hf1, hother1, hsz1, _, _⟩ := recordAccess_ok inv.rep_cons hr
    obtain ⟨c2, _, hf2, hother2, hsz2, _⟩ := setEvictable_spec ev0 c1 f false
    have hpf : (afterHit ev0 s f r).pages_ f
        = { s.pages_ f with pin_count_ := (s.pages_ f).pin_count_ + 1 } :=
      pages_setPage_same s f _
    have hnn := inv.pin_nonneg f
    apply inv_touch (afterHit ev0 s f r) inv f a b rfl rfl rfl
    · intro g hg; exact pages_setPage_ne s _ hg
    · rw [hpf]
    · rw [hpf]; show 0 ≤ (s.pages_ f).pin_count_ + 1; omega
    · exact c2
    · exact hsz2.trans hsz1
    · intro g hg
      exact (hother2 g hg).trans (hother1 g hg)
    · refine ⟨_, hf2, ?_, ?_⟩
      · rw [entryAt_of_some hf1]
        show 1 ≤ (entryAt ev0 s.replacer_.entrys_ f).hit_count_ + 1
        omega
      · rw [hpf]
        show false = true ↔ (s.pages_ f).pin_count_ + 1 = 0
        constructor
        · intro x; cases x
        · intro x; omega

theorem fetch_hit_error (ev0 : Bool) {s : BufferPoolManagerInstance} {p f : Int}
    (hf : ExtendibleHashTable.Find pageHash s.page_table_ p = some f) {e : ReplacerError}
    (hr : RecordAccess ev0 s.replacer_ f = .error e) :
    FetchPgImp ev0 s p = .error (.replacer e) := by
  unfold FetchPgImp
  rw [hf]
  simp only
  have : (s.setPage f { s.pages_ f with pin_count_ := (s.pages_ f).pin_count_ + 1 }).replacer_
      = s.replacer_ := rfl
  rw [this, hr]

/-- A miss of `FetchPgImp`: it returns `none` with the pool unchanged when every frame is
pinned; otherwise it takes the frame `GetAvailableFrame` hands out and returns it, holding
the bytes the disk stores under the page id, unless the `Insert` into the page table has no
result. -/
theorem fetch_miss (ev0 : Bool) {s : BufferPoolManagerInstance} (inv : Inv s none) {p : Int}
    (hf : ExtendibleHashTable.Find pageHash s.page_table_ p = none) :
    (allPinned s ∧ FetchPgImp ev0 s p = .ok (none, s)) ∨
    (¬ allPinned s ∧ ∃ f s1 s2, GetAvailableFrame ev0 s = (some f, s1) ∧ GafOut s f s1 ∧
      FetchPgImp ev0 s p = .ok (some f, s2) ∧ Installed s1 f p (s1.disk p) s2 ∧
      s2.next_page_id_ = s.next_page_id_) ∨
    (¬ allPinned s ∧ ∃ f s1, GetAvailableFrame ev0 s = (some f, s1) ∧ GafOut s f s1 ∧
      ExtendibleHashTable.Insert pageHash s1.page_table_ p f = none ∧
      FetchPgImp ev0 s p = .error .table_depth) := by
  have hiff := gaf_none_iff ev0 inv
  rcases hg : GetAvailableFrame ev0 s with ⟨o, s1⟩
  cases o with
  | none =>
    left
    have hall : allPinned s := hiff.mp (by rw [hg])
    obtain ⟨h1, _, _⟩ := gaf_none inv hg
    refine ⟨hall, ?_⟩
    unfold FetchPgImp
    rw [hf]
    simp only
    rw [hg, h1]
  | some f =>
    right
    have hnall : ¬ allPinned s := by
      intro x
      have := hiff.mpr x
      rw [hg] at this; cases this
    have out := gaf_some inv hg
    cases ht : ExtendibleHashTable.Insert pageHash s1.page_table_ p f with
    | some t =>
      left
      obtain ⟨s2, hi, hins, hnext⟩ := fetch_install ev0 p out ht
      refine ⟨hnall, f, s1, s2, rfl, out, ?_, hins, hnext⟩
      unfold FetchPgImp
      rw [hf]
      simp only
      rw [hg]
      simp only
      rw [hi]
    | none =>
      right
      refine ⟨hnall, f, s1, rfl, out, ht, ?_⟩
      have h3 : install ev0
          (s1.setPage f ({ s1.pages_ f with page_id_ := p, pin_count_ := 1 }).ResetMemory)
          p f (fun x => x.setPage f { x.pages_ f with data_ := x.disk p })
            = .error .table_depth :=
        by
          apply install_none
          exact ht
      unfold FetchPgImp
      rw [hf]
      simp only
      rw [hg]
      simp only
      rw [h3]

theorem unpin_success (ev0 : Bool) (s : BufferPoolManagerInstance) {p f : Int}
    (hf : ExtendibleHashTable.Find pageHash s.page_table_ p = some f)
    (hpin : 0 < (s.pages_ f).pin_count_) (d : Bool) :
    UnpinPgImp ev0 s p d = (true, afterUnpin ev0 s f d) := by
  unfold UnpinPgImp
  rw [hf]
  simp only
  rw [if_neg (by omega)]
  unfold afterUnpin setPage
  simp only [Function.update_same, Function.update_idem]
  by_cases h0 : (s.pages_ f).pin_count_ - 1 = 0
  · simp only [h0, if_true]
    cases hd : (s.pages_ f).is_dirty_ <;> simp [Function.update_idem]
  · simp only [h0, if_false]
    cases hd : (s.pages_ f).is_dirty_ <;> simp [Function.update_idem]

theorem unpin_failure (ev0 : Bool) (s : BufferPoolManagerInstance) (p : Int) (d : Bool)
    (h : ∀ f, ExtendibleHashTable.Find pageHash s.page_table_ p = some f →
      (s.pages_ f).pin_count_ ≤ 0) :
    UnpinPgImp ev0 s p d = (false, s) := by
  unfold UnpinPgImp
  cases hf : ExtendibleHashTable.Find pageHash s.page_table_ p with
  | none => rfl
  | some f => simp only; rw [if_pos (h f hf)]

theorem afterUnpin_entry (ev0 : Bool) {s : BufferPoolManagerInstance} (inv : Inv s none)
    {p f : Int} (hf : ExtendibleHashTable.Find pageHash s.page_table_ p = some f)
    (hpin : 0 < (s.pages_ f).pin_count_) (d : Bool) :
    ∃ e, lookup (afterUnpin ev0 s f d).replacer_.entrys_ f = some e ∧ 1 ≤ e.hit_count_ ∧
      (e.evictable = true ↔ (s.pages_ f).pin_count_ - 1 = 0) := by
  obtain ⟨a, b, _, _⟩ := inv.dir_ok p f hf
  obtain ⟨e, he, hiff⟩ := inv.held f a b (by simp)
  have hh := (inv.tracked_ok f e he).2.1
  unfold afterUnpin
  simp only
  by_cases h0 : (s.pages_ f).pin_count_ - 1 = 0
  · rw [if_pos h0]
    obtain ⟨_, _, hf2, _⟩ := setEvictable_spec ev0 inv.rep_cons f true
    refine ⟨_, hf2, ?_, ?_⟩
    · rw [entryAt_of_some he]; exact hh
    · simp [h0]
  · rw [if_neg h0]
    refine ⟨e, he, hh, ?_⟩
    constructor
    · intro x
      have := hiff.mp x
      omega
    · intro x; exact absurd x h0

theorem afterUnpin_inv (ev0 : Bool) {s : BufferPoolManagerInstance} (inv : Inv s none)
    {p f : Int} (hf : ExtendibleHashTable.Find pageHash s.page_table_ p = some f)
    (hpin : 0 < (s.pages_ f).pin_count_) (d : Bool) :
    Inv (afterUnpin ev0 s f d) none := by
  obtain ⟨a, b, _, _⟩ := inv.dir_ok p f hf
  obtain ⟨e, he, h1, h2⟩ := afterUnpin_entry ev0 inv hf hpin d
  have hpf : (afterUnpin ev0 s f d).pages_ f
      = { s.pages_ f with pin_count_ := (s.pages_ f).pin_count_ - 1,
                          is_dirty_ := (s.pages_ f).is_dirty_ || d } := by
    unfold afterUnpin; simp only [Function.update_same]
  apply inv_touch (afterUnpin ev0 s f d) inv f a b rfl rfl rfl
  · intro g hg
    unfold afterUnpin; simp only [Function.update_noteq hg]
  · rw [hpf]
  · rw [hpf]; show 0 ≤ (s.pages_ f).pin_count_ - 1; omega
  · unfold afterUnpin
    simp only
    split
    · exact (setEvictable_spec ev0 inv.rep_cons f true).1
    · exact inv.rep_cons
  · unfold afterUnpin
    simp only
    split
    · exact (setEvictable_spec ev0 inv.rep_cons f true).2.2.2.2.1
    · rfl
  · intro g hg
    unfold afterUnpin
    simp only
    split
    · exact (setEvictable_spec ev0 inv.rep_cons f true).2.2.2.1 g hg
    · rfl
  · refine ⟨e, he, h1, ?_⟩
    rw [hpf]
    exact h2

theorem unpin_inv (ev0 : Bool) {s : BufferPoolManagerInstance} (inv : Inv s none) (p : Int)
    (d : Bool) : Inv (UnpinPgImp ev0 s p d).2 none := by
  cases hf : ExtendibleHashTable.Find pageHash s.page_table_ p with
  | none =>
    rw [unpin_failure ev0 s p d (fun f x => by rw [hf] at x; cases x)]
    exact inv
  | some f =>
    by_cases hpin : 0 < (s.pages_ f).pin_count_
    · rw [unpin_success ev0 s hf hpin d]
      exact afterUnpin_inv ev0 inv hf hpin d
    · rw [unpin_failure ev0 s p d (fun g x => by
        rw [hf] at x; cases x; omega)]
      exact inv

theorem same_flushPg (s : BufferPoolManagerInstance) (p : Int) :
    SameMeta s (FlushPgImp s p).2 := by
  unfold FlushPgImp
  cases ExtendibleHashTable.Find pageHash s.page_table_ p with
  | none => exact SameMeta.refl s
  | some f => exact (same_writePage s _ _).trans (same_setPage _ f _ rfl rfl)

theorem same_flushFrame (s : BufferPoolManagerInstance) (i : Nat) :
    SameMeta s (flushFrame s i) := by
  unfold flushFrame
  split
  · exact (same_writePage s _ _).trans (same_setPage _ _ _ rfl rfl)
  · exact SameMeta.refl s

theorem same_foldl_flush : ∀ (l : List Nat) (s : BufferPoolManagerInstance),
    SameMeta s (l.foldl flushFrame s)
  | [], s => SameMeta.refl s
  | i :: rest, s => (same_flushFrame s i).trans (same_foldl_flush rest (flushFrame s i))

theorem same_flushAll (s : BufferPoolManagerInstance) : SameMeta s (FlushAllPgsImp s) :=
  same_foldl_flush _ s

theorem same_deleteWrite (s : BufferPoolManagerInstance) (p f : Int) :
    SameMeta s (deleteWrite s p f) := by
  unfold deleteWrite
  split
  · exact (same_writePage s _ _).trans (same_setPage _ f _ rfl rfl)
  · exact SameMeta.refl s

theorem delete_cases (s : BufferPoolManagerInstance) (p : Int) :
    (ExtendibleHashTable.Find pageHash s.page_table_ p = none ∧
        DeletePgImp s p = .ok (true, s)) ∨
    (∃ f, ExtendibleHashTable.Find pageHash s.page_table_ p = some f ∧
        0 < (s.pages_ f).pin_count_ ∧ DeletePgImp s p = .ok (false, s)) ∨
    (∃ f, ExtendibleHashTable.Find pageHash s.page_table_ p = some f ∧
        (s.pages_ f).pin_count_ ≤ 0 ∧
        ((∃ r, Remove s.replacer_ f = .ok r ∧
            DeletePgImp s p = .ok (true, afterDelete s p f r)) ∨
         (∃ e, Remove s.replacer_ f = .error e ∧ DeletePgImp s p = .error (.replacer e)))) := by
  cases hf : ExtendibleHashTable.Find pageHash s.page_table_ p with
  | none =>
    left
    refine ⟨rfl, ?_⟩
    unfold DeletePgImp; rw [hf]
  | some f =>
    right
    by_cases hpin : 0 < (s.pages_ f).pin_count_
    · left
      refine ⟨f, rfl, hpin, ?_⟩
      unfold DeletePgImp; rw [hf]; simp only
      rw [if_pos hpin]
    · right
      refine ⟨f, rfl, by omega, ?_⟩
      have key : DeletePgImp s p =
          match Remove s.replacer_ f with
          | .error e => .error (.replacer e)
          | .ok r => .ok (true, afterDelete s p f r) := by
        unfold DeletePgImp; rw [hf]; simp only
        rw [if_neg hpin]
        have e1 : (((if (s.pages_ 0).is_dirty_ = true then
              (s.WritePage p (s.pages_ f).data_).setPage f
                { (s.WritePage p (s.pages_ f).data_).pages_ f with is_dirty_ := false }
            else s)) : BufferPoolManagerInstance) = deleteWrite s p f := rfl
        simp only [e1]
        have e2 : (deleteWrite s p f).replacer_ = s.replacer_ := (same_deleteWrite s p f).rep
        show (match Remove (deleteWrite s p f).replacer_ f with
          | .error e => _ | .ok r => _) = _
        rw [e2]
        cases Remove s.replacer_ f with
        | error e => rfl
        | ok r =>
          simp only [afterDelete, setPage, Function.update_same, Function.update_idem]
      cases hr : Remove s.replacer_ f with
      | error e => right; exact ⟨e, rfl, by rw [key, hr]⟩
      | ok r => left; exact ⟨r, rfl, by rw [key, hr]⟩

theorem afterDelete_inv {s : BufferPoolManagerInstance} (inv : Inv s none) {p f : Int}
    (hf : ExtendibleHashTable.Find pageHash s.page_table_ p = some f)
    (hpin : (s.pages_ f).pin_count_ ≤ 0) {r : LRUKReplacer}
    (hr : Remove s.replacer_ f = .ok r) : Inv (afterDelete s p f r) none := by
  have hs := same_deleteWrite s p f
  obtain ⟨a, b, _, d⟩ := inv.dir_ok p f hf
  obtain ⟨c2, hnone, hother, _, hsz, _⟩ := remove_ok inv.rep_cons hr
  obtain ⟨wf2, _, hfp, hfo, _⟩ := ExtendibleHashTable.remove_spec inv.table_wf p
  have hpin0 : (s.pages_ f).pin_count_ = 0 := by
    have := inv.pin_nonneg f; omega
  have hpg : ∀ g, ((afterDelete s p f r).pages_ g).pin_count_ = (s.pages_ g).pin_count_ := by
    intro g
    unfold afterDelete
    simp only
    by_cases hg : g = f
    · subst hg; rw [Function.update_same]; exact hs.pin g
    · rw [Function.update_noteq hg]; exact hs.pin g
  have hpid : ∀ g, g ≠ f → ((afterDelete s p f r).pages_ g).page_id_ = (s.pages_ g).page_id_ := by
    intro g hg
    unfold afterDelete
    simp only
    rw [Function.update_noteq hg]; exact hs.pid g
  have hfl : (afterDelete s p f r).free_list_ = s.free_list_ ++ [f] := by
    unfold afterDelete; simp only; rw [hs.free]
  have htab : (afterDelete s p f r).page_table_ = (s.page_table_.Remove pageHash p).2 := by
    unfold afterDelete; simp only; rw [hs.table]
  have hpool : (afterDelete s p f r).pool_size_ = s.pool_size_ := hs.pool
  have hrng : ∀ g, inRange (afterDelete s p f r) g ↔ inRange s g := by
    intro g; unfold inRange; rw [hpool]
  constructor
  · rw [hpool]; exact inv.pool_lt
  · rw [htab]; exact wf2
  · exact c2
  · show r.replacer_size_ = (afterDelete s p f r).pool_size_
    rw [hsz, hpool]; exact inv.rep_size
  · rw [hfl]
    apply List.Nodup.append inv.free_nodup (by simp)
    intro x hx hy
    have : x = f := by simpa using hy
    subst this
    exact b hx
  · intro g hg
    rw [hfl] at hg
    rw [hrng, hpg]
    show _ ∧ lookup r.entrys_ g = none ∧ _
    rcases List.mem_append.mp hg with h1 | h1
    · have hne : g ≠ f := fun x => b (x ▸ h1)
      rw [hother g hne]
      exact inv.free_ok g h1
    · have : g = f := by simpa using h1
      subst this
      exact ⟨a, hnone, hpin0⟩
  · intro g h1 h2 _
    rw [hrng] at h1
    rw [hfl] at h2
    have hne : g ≠ f := fun x => h2 (by rw [x]; simp)
    have hnf : g ∉ s.free_list_ := fun x => h2 (List.mem_append_left _ x)
    rw [hpg]
    show ∃ e, lookup r.entrys_ g = some e ∧ _
    rw [hother g hne]
    exact inv.held g h1 hnf (by simp)
  · intro g e he
    change lookup r.entrys_ g = some e at he
    rw [hrng]
    have hne : g ≠ f := by
      intro x; rw [x, hnone] at he; cases he
    rw [hother g hne] at he
    exact inv.tracked_ok g e he
  · intro g; rw [hpg]; exact inv.pin_nonneg g
  · intro q g hq
    rw [htab] at hq
    have hqp : q ≠ p := by
      intro x; rw [x, hfp] at hq; cases hq
    rw [hfo q hqp] at hq
    obtain ⟨a2, b2, c3, d2⟩ := inv.dir_ok q g hq
    have hne : g ≠ f := by
      intro x
      rw [x] at d2
      exact hqp (d2.symm.trans d)
    rw [hrng, hfl, hpid g hne]
    refine ⟨a2, ?_, c3, d2⟩
    intro x
    rcases List.mem_append.mp x with h1 | h1
    · exact b2 h1
    · exact hne (by simpa using h1)
  · intro g hg; cases hg

theorem delete_inv {s s2 : BufferPoolManagerInstance} (inv : Inv s none) {p : Int} {b : Bool}
    (h : DeletePgImp s p = .ok (b, s2)) : Inv s2 none := by
  rcases delete_cases s p with ⟨_, hd⟩ | ⟨f, _, _, hd⟩ | ⟨f, hf, hpin, ⟨r, hr, hd⟩ | ⟨e, _, hd⟩⟩
  · rw [hd] at h; cases h; exact inv
  · rw [hd] at h; cases h; exact inv
  · rw [hd] at h; cases h
    exact afterDelete_inv inv hf hpin hr
  · rw [hd] at h; cases h

theorem call_inv {ev0 : Bool} {s s2 : BufferPoolManagerInstance} (inv : Inv s none)
    {c : PoolCall} {r : PoolResult} (h : call ev0 s c = .ok (r, s2)) : Inv s2 none := by
  cases c with
  | newPage =>
    simp only [call] at h
    rcases newPg_spec ev0 inv with ⟨_, hn⟩ | ⟨_, f, s1, s3, _, _, hn, hins, _⟩ |
      ⟨_, _, _, _, _, _, hn⟩
    · rw [hn] at h; cases h; exact inv
    · rw [hn] at h; cases h; exact hins.inv
    · rw [hn] at h; cases h
  | fetchPage p =>
    simp only [call] at h
    cases hf : ExtendibleHashTable.Find pageHash s.page_table_ p with
    | some f =>
      cases hr : RecordAccess ev0 s.replacer_ f with
      | error e => rw [fetch_hit_error ev0 hf hr] at h; cases h
      | ok r2 =>
        obtain ⟨h1, h2⟩ := fetch_hit ev0 inv hf hr
        rw [h1] at h; cases h; exact h2
    | none =>
      rcases fetch_miss ev0 inv hf with ⟨_, hn⟩ | ⟨_, f, s1, s3, _, _, hn, hins, _⟩ |
        ⟨_, _, _, _, _, _, hn⟩
      · rw [hn] at h; cases h; exact inv
      · rw [hn] at h; cases h; exact hins.inv
      · rw [hn] at h; cases h
  | unpinPage p d =>
    simp only [call, Except.ok.injEq, Prod.mk.injEq] at h
    rw [← h.2]; exact unpin_inv ev0 inv p d
  | flushPage p =>
    simp only [call, Except.ok.injEq, Prod.mk.injEq] at h
    rw [← h.2]; exact inv.of_same (same_flushPg s p)
  | flushAll =>
    simp only [call, Except.ok.injEq, Prod.mk.injEq] at h
    rw [← h.2]; exact inv.of_same (same_flushAll s)
  | deletePage p =>
    simp only [call] at h
    cases hd : DeletePgImp s p with
    | error e => rw [hd] at h; cases h
    | ok x =>
      obtain ⟨b, s3⟩ := x
      rw [hd] at h; cases h
      exact delete_inv inv hd
  | writeData f bytes =>
    simp only [call] at h
    split at h
    · cases h; exact inv.of_same (same_setPage s f _ rfl rfl)
    · cases h; exact inv

theorem Reachable.poolInv {ev0 : Bool} {pool_size : Nat} {disk : Int → List Nat}
    {replacer_k bucket_size : Nat} (hp : pool_size < 2147483648) (hb : 1 ≤ bucket_size)
    {s : BufferPoolManagerInstance}
    (hr : Reachable ev0 (new pool_size disk replacer_k bucket_size) s) : Inv s none := by
  induction hr with
  | init => exact inv_new pool_size disk replacer_k bucket_size hp hb
  | step c r _ h ih => exact call_inv ih h

theorem pool_run_reachable {ev0 : Bool} {s0 : BufferPoolManagerInstance} :
    ∀ (calls : List PoolCall) (s s2 : BufferPoolManagerInstance) (rs : List PoolResult),
      Reachable ev0 s0 s → run ev0 s calls = .ok (rs, s2) → Reachable ev0 s0 s2
  | [], s, s2, rs, hr, h => by
    simp only [run, Except.ok.injEq, Prod.mk.injEq] at h
    rw [← h.2]; exact hr
  | c :: rest, s, s2, rs, hr, h => by
    simp only [run] at h
    cases hc : call ev0 s c with
    | error e => rw [hc] at h; cases h
    | ok x =>
      obtain ⟨r, s1⟩ := x
      rw [hc] at h
      simp only at h
      cases hrun : run ev0 s1 rest with
      | error e => rw [hrun] at h; cases h
      | ok y =>
        obtain ⟨rs1, s3⟩ := y
        rw [hrun] at h
        simp only [Except.ok.injEq, Prod.mk.injEq] at h
        rw [← h.2]
        exact pool_run_reachable rest s1 s3 rs1 (Reachable.step c r hr hc) hrun

theorem pool_after_reachable (ev0 : Bool) (s0 : BufferPoolManagerInstance) (calls : List PoolCall) :
    Reachable ev0 s0 (after ev0 s0 calls) := by
  unfold after
  cases h : run ev0 s0 calls with
  | error e => exact Reachable.init
  | ok x =>
    obtain ⟨rs, s2⟩ := x
    exact pool_run_reachable calls s0 s2 rs Reachable.init h

end BufferPoolManagerInstance
end bustub

namespace bustub
open LRUKReplacer BufferPoolManagerInstance

/-- C4: in every reachable pool, if `p` is resident in frame `f` with `pin_count > 0` then
`UnpinPage(p, d)` returns true, lowers the pin count of `f` by one, sets its dirty flag to
(old dirty or `d`), leaves the frame's entry in the replacer evictable exactly when the new
pin count is 0, and changes nothing else; if `p` is not resident or its pin count is not
positive it returns false and leaves the pool as it was. -/
theorem unpin_contract (ev0 : Bool) (pool_size : Nat) (disk : Int → List Nat)
    (replacer_k bucket_size : Nat) (hp : pool_size < 2147483648) (hb : 1 ≤ bucket_size)
    (s : BufferPoolManagerInstance)
    (hr : Reachable ev0 (new pool_size disk replacer_k bucket_size) s) (p : Int) (d : Bool) :
    (∀ f, ExtendibleHashTable.Find pageHash s.page_table_ p = some f →
      0 < (s.pages_ f).pin_count_ →
        (UnpinPgImp ev0 s p d).1 = true ∧
        ((UnpinPgImp ev0 s p d).2.pages_ f).pin_count_ = (s.pages_ f).pin_count_ - 1 ∧
        ((UnpinPgImp ev0 s p d).2.pages_ f).is_dirty_ = ((s.pages_ f).is_dirty_ || d) ∧
        ((UnpinPgImp ev0 s p d).2.pages_ f).page_id_ = p ∧
        ((UnpinPgImp ev0 s p d).2.pages_ f).data_ = (s.pages_ f).data_ ∧
        (∃ e, lookup (UnpinPgImp ev0 s p d).2.replacer_.entrys_ f = some e ∧
          (e.evictable = true ↔ (s.pages_ f).pin_count_ - 1 = 0)) ∧
        (∀ g, g ≠ f → (UnpinPgImp ev0 s p d).2.pages_ g = s.pages_ g) ∧
        (∀ g, g ≠ f → lookup (UnpinPgImp ev0 s p d).2.replacer_.entrys_ g
          = lookup s.replacer_.entrys_ g) ∧
        (UnpinPgImp ev0 s p d).2.page_table_ = s.page_table_ ∧
        (UnpinPgImp ev0 s p d).2.free_list_ = s.free_list_ ∧
        (UnpinPgImp ev0 s p d).2.next_page_id_ = s.next_page_id_ ∧
        (UnpinPgImp ev0 s p d).2.disk = s.disk ∧
        (UnpinPgImp ev0 s p d).2.disk_log = s.disk_log) ∧
    ((∀ f, ExtendibleHashTable.Find pageHash s.page_table_ p = some f →
        (s.pages_ f).pin_count_ ≤ 0) → UnpinPgImp ev0 s p d = (false, s)) := by
  have inv := hr.poolInv hp hb
  refine ⟨?_, unpin_failure ev0 s p d⟩
  intro f hf hpin
  obtain ⟨_, _, _, hpid⟩ := inv.dir_ok p f hf
  obtain ⟨e, he, _, hiff⟩ := afterUnpin_entry ev0 inv hf hpin d
  rw [unpin_success ev0 s hf hpin d]
  have hpf : (afterUnpin ev0 s f d).pages_ f
      = { s.pages_ f with pin_count_ := (s.pages_ f).pin_count_ - 1,
                          is_dirty_ := (s.pages_ f).is_dirty_ || d } := by
    unfold afterUnpin; simp only [Function.update_same]
  refine ⟨rfl, by rw [hpf], by rw [hpf], by rw [hpf]; exact hpid, by rw [hpf],
    ⟨e, he, hiff⟩, ?_, ?_, rfl, rfl, rfl, rfl, rfl⟩
  · intro g hg
    unfold afterUnpin; simp only [Function.update_noteq hg]
  · intro g hg
    unfold afterUnpin
    simp only
    split
    · exact (setEvictable_spec ev0 inv.rep_cons f true).2.2.2.1 g hg
    · rfl

theorem unpin_contract_witness :
    (UnpinPgImp false (after false (new 3 (fun _ => []) 2 4) [.newPage]) 0 true).1 = true ∧
      ((UnpinPgImp false (after false (new 3 (fun _ => []) 2 4) [.newPage]) 0 true).2.pages_
          0).pin_count_
        = ((after false (new 3 (fun _ => []) 2 4) [.newPage]).pages_ 0).pin_count_ - 1 ∧
      ((UnpinPgImp false (after false (new 3 (fun _ => []) 2 4) [.newPage]) 0 true).2.pages_
          0).is_dirty_
        = (((after false (new 3 (fun _ => []) 2 4) [.newPage]).pages_ 0).is_dirty_ || true) :=
  have h := (unpin_contract false 3 (fun _ => []) 2 4 (by decide) (by decide) _
    (pool_after_reachable false _ [.newPage]) 0 true).1 0 (by decide) (by decide)
  ⟨h.1, h.2.1, h.2.2.1⟩

/-- C5 (the code at the failing input): page 1 sits dirty and unpinned in frame 1 while frame 0
is clean; `DeletePage(1)` returns true without any disk write and leaves frame 1 flagged dirty.
In the mirror state, where frame 1 is clean and frame 0 dirty, `DeletePage(1)` writes the
bytes of the clean frame 1. -/
theorem deletePage_reads_dirty_flag_of_frame_zero :
    (ExtendibleHashTable.Find pageHash
        (after false (new 2 (fun _ => []) 2 4) dirtyFrameOne).page_table_ 1 = some 1 ∧
      ((after false (new 2 (fun _ => []) 2 4) dirtyFrameOne).pages_ 1).pin_count_ = 0 ∧
      ((after false (new 2 (fun _ => []) 2 4) dirtyFrameOne).pages_ 1).is_dirty_ = true ∧
      ((after false (new 2 (fun _ => []) 2 4) dirtyFrameOne).pages_ 0).is_dirty_ = false ∧
      results false (new 2 (fun _ => []) 2 4) (dirtyFrameOne ++ [.deletePage 1])
        = some [.page (some (0, 0)), .page (some (1, 1)), .done, .flag true, .flag true] ∧
      (after false (new 2 (fun _ => []) 2 4) (dirtyFrameOne ++ [.deletePage 1])).disk_log = [] ∧
      ((after false (new 2 (fun _ => []) 2 4) (dirtyFrameOne ++ [.deletePage 1])).pages_
        1).is_dirty_ = true ∧
      (after false (new 2 (fun _ => []) 2 4) (dirtyFrameOne ++ [.deletePage 1])).free_list_
        = [1]) ∧
    (((after false (new 2 (fun _ => []) 2 4) dirtyFrameZero).pages_ 1).is_dirty_ = false ∧
      ((after false (new 2 (fun _ => []) 2 4) dirtyFrameZero).pages_ 0).is_dirty_ = true ∧
      ((after false (new 2 (fun _ => []) 2 4) (dirtyFrameZero ++ [.deletePage 1])).disk_log.map
        Prod.fst) = [1]) := by
  refine ⟨⟨by decide, by decide, by decide, by decide, by decide, by decide, by decide,
    by decide⟩, by decide, by decide, by decide⟩

/-- C9 (the code at the failing inputs): when a default-constructed entry is not evictable,
the first `RecordAccess(1)` on a fresh replacer leaves `Size() = 1` with no evictable frame;
when it is evictable, `SetEvictable(1, false)` on a fresh replacer leaves
`Size() = 2^64 - 1` with no evictable frame, and `SetEvictable(1, true)` leaves `Size() = 0`
with one evictable entry. -/
theorem size_differs_from_evictable_count :
    (RecordAccess false (LRUKReplacer.new 7 2) 1
        = .ok ⟨7, 2, 1, [(1, ⟨1, false⟩)], [1], []⟩ ∧
      Size ⟨7, 2, 1, [(1, ⟨1, false⟩)], [1], []⟩ = 1 ∧
      evictableCount ⟨7, 2, 1, [(1, ⟨1, false⟩)], [1], []⟩ = 0) ∧
    (Size (SetEvictable true (LRUKReplacer.new 7 2) 1 false) = 18446744073709551615 ∧
      evictableCount (SetEvictable true (LRUKReplacer.new 7 2) 1 false) = 0) ∧
    (Size (SetEvictable true (LRUKReplacer.new 7 2) 1 true) = 0 ∧
      evictableCount (SetEvictable true (LRUKReplacer.new 7 2) 1 true) = 1) := by
  refine ⟨⟨rfl, rfl, rfl⟩, ⟨rfl, rfl⟩, ⟨rfl, rfl⟩⟩

/-- C10 (the code at the failing inputs): on a replacer for 7 frames (ids 0 to 6)
`RecordAccess(7)` and `RecordAccess(-1)` return and start tracking the frame; the check
rejects `RecordAccess(8)`. -/
theorem recordAccess_accepts_out_of_range :
    RecordAccess false (LRUKReplacer.new 7 2) 7 = .ok ⟨7, 2, 1, [(7, ⟨1, false⟩)], [7], []⟩ ∧
    RecordAccess false (LRUKReplacer.new 7 2) (-1)
      = .ok ⟨7, 2, 1, [(-1, ⟨1, false⟩)], [-1], []⟩ ∧
    RecordAccess false (LRUKReplacer.new 7 2) 8 = .error .invalid_argument := by
  refine ⟨rfl, rfl, rfl⟩

/-- Function `RecordAccess` throws `std::invalid_argument` exactly when
`frame_id > static_cast<int>(replacer_size_)`. -/
theorem recordAccess_invalid_iff (ev0 : Bool) (r : LRUKReplacer) (f : Int) :
    RecordAccess ev0 r f = .error .invalid_argument ↔ f > toInt32 r.replacer_size_ := by
  unfold RecordAccess
  constructor
  · intro h
    by_contra hn
    rw [if_neg hn] at h
    simp only at h
    split at h
    · cases h
    · split at h
      · split at h <;> cases h
      · split at h
        · split at h <;> cases h
        · cases h
  · intro h
    rw [if_pos h]

end bustub

namespace bustub
namespace BufferPoolManagerInstance
open LRUKReplacer

end BufferPoolManagerInstance
end bustub

namespace bustub
open LRUKReplacer BufferPoolManagerInstance

end bustub

namespace bustub
namespace BufferPoolManagerInstance
open LRUKReplacer BufferPoolManagerInstance

/-- The pool a tally ends in is the pool the calls end in. -/
theorem pinTally_after {ev0 : Bool} (p : Int) :
    ∀ (calls : List PoolCall) (s : BufferPoolManagerInstance) (n m : Int)
      (s2 : BufferPoolManagerInstance), pinTally ev0 p s calls n = .ok (m, s2) →
      ∃ rs, run ev0 s calls = .ok (rs, s2)
  | [], s, n, m, s2, h => by
    simp only [pinTally, Except.ok.injEq, Prod.mk.injEq] at h
    exact ⟨[], by rw [← h.2]; rfl⟩
  | c :: rest, s, n, m, s2, h => by
    simp only [pinTally] at h
    cases hc : call ev0 s c with
    | error e => rw [hc] at h; cases h
    | ok x =>
      obtain ⟨r, s1⟩ := x
      rw [hc] at h
      obtain ⟨rs, hrs⟩ := pinTally_after p rest s1 _ m s2 h
      exact ⟨r :: rs, by simp only [run, hc, hrs]⟩

end BufferPoolManagerInstance
end bustub

namespace bustub
open LRUKReplacer

/-- C11 (the code at the failing input): with `K = 1` the accesses 1, 2 put both frames into
the history list; the second access to frame 1 has `new_count = 2 > k_` and runs
`cache_list_.erase(entrys_[1].pos_)` although frame 1 is a node of `history_list_` and the
cache list is empty, so the call has no defined result.  The same happens on the second of
two accesses 1, 1.  Both hold whichever value the evictable flag of a default-constructed
entry has. -/
theorem recordAccess_twice_with_k_one :
    (RecordAccess false (LRUKReplacer.new 7 1) 1
        = .ok ⟨7, 1, 1, [(1, ⟨1, false⟩)], [1], []⟩ ∧
      RecordAccess false ⟨7, 1, 1, [(1, ⟨1, false⟩)], [1], []⟩ 2
        = .ok ⟨7, 1, 2, [(2, ⟨1, false⟩), (1, ⟨1, false⟩)], [2, 1], []⟩ ∧
      RecordAccess false ⟨7, 1, 2, [(2, ⟨1, false⟩), (1, ⟨1, false⟩)], [2, 1], []⟩ 1
        = .error .undefined_erase ∧
      RecordAccess false ⟨7, 1, 1, [(1, ⟨1, false⟩)], [1], []⟩ 1 = .error .undefined_erase) ∧
    (RecordAccess true (LRUKReplacer.new 7 1) 1
        = .ok ⟨7, 1, 1, [(1, ⟨1, true⟩)], [1], []⟩ ∧
      RecordAccess true ⟨7, 1, 1, [(1, ⟨1, true⟩)], [1], []⟩ 2
        = .ok ⟨7, 1, 2, [(2, ⟨1, true⟩), (1, ⟨1, true⟩)], [2, 1], []⟩ ∧
      RecordAccess true ⟨7, 1, 2, [(2, ⟨1, true⟩), (1, ⟨1, true⟩)], [2, 1], []⟩ 1
        = .error .undefined_erase ∧
      RecordAccess true ⟨7, 1, 1, [(1, ⟨1, true⟩)], [1], []⟩ 1 = .error .undefined_erase) := by
  refine ⟨⟨rfl, rfl, rfl, rfl⟩, ⟨rfl, rfl, rfl, rfl⟩⟩

end bustub

namespace bustub
namespace ExtendibleHashTable
variable {K V : Type}

theorem handleAt_mem (t : ExtendibleHashTable K V) (i : Nat) (hi : i < t.dir_.length) :
    t.handleAt i ∈ t.dir_ := by
  unfold handleAt
  rw [List.getD_eq_getElem _ _ hi]
  exact List.getElem_mem _

theorem mem_dir_iff (t : ExtendibleHashTable K V) (x : Nat) :
    x ∈ t.dir_ ↔ ∃ i, i < t.dir_.length ∧ t.handleAt i = x := by
  constructor
  · intro h
    obtain ⟨i, hi, e⟩ := List.mem_iff_getElem.mp h
    refine ⟨i, hi, ?_⟩
    unfold handleAt
    rw [List.getD_eq_getElem _ _ hi]; exact e
  · rintro ⟨i, hi, e⟩
    rw [← e]; exact handleAt_mem t i hi

theorem bitAt_low (i D : Nat) (h : i < 2 ^ D) : bitAt (i : Int) D = false := by
  unfold bitAt
  have : (i : Int) / 2 ^ D = 0 := by
    apply Int.ediv_eq_zero_of_lt (by positivity)
    exact_mod_cast h
  rw [this]; rfl

theorem bitAt_high (i D : Nat) (h : i < 2 ^ D) : bitAt ((i + 2 ^ D : Nat) : Int) D = true := by
  unfold bitAt
  have h1 : (i + 2 ^ D) / 2 ^ D = 1 := by
    rw [Nat.add_div_right _ (by positivity), Nat.div_eq_of_lt h]
  have : ((i + 2 ^ D : Nat) : Int) / 2 ^ D = 1 := by
    have := congrArg (fun n : Nat => (n : Int)) h1
    simp only [Int.natCast_ediv] at this
    push_cast at this ⊢
    exact this
  rw [this]; rfl

/-- The slots that share the bucket of slot `idx` include one whose index has bit `depth_`
clear and one whose index has it set, as soon as the directory is deeper than the bucket. -/
theorem shared_slots {hash : K → Int} {t : ExtendibleHashTable K V} (wf : WF hash t)
    (idx : Nat) (hidx : idx < t.dir_.length) :
    t.handleAt (idx % 2 ^ (t.bucketAt idx).depth_) = t.handleAt idx ∧
    t.handleAt ((idx % 2 ^ (t.bucketAt idx).depth_ + 2 ^ (t.bucketAt idx).depth_)
      % 2 ^ t.global_depth_) = t.handleAt idx := by
  have hDG := wf.depth_le idx hidx
  have hp : 2 ^ (t.bucketAt idx).depth_ ≤ 2 ^ t.global_depth_ :=
    Nat.pow_le_pow_right (by decide) hDG
  have h0 : idx % 2 ^ (t.bucketAt idx).depth_ < t.dir_.length := by
    rw [wf.dir_len]
    exact lt_of_lt_of_le (Nat.mod_lt _ (by positivity)) hp
  have h1 : (idx % 2 ^ (t.bucketAt idx).depth_ + 2 ^ (t.bucketAt idx).depth_)
      % 2 ^ t.global_depth_ < t.dir_.length := mod_lt_len wf _
  constructor
  · refine ((wf.share idx _ hidx h0).mpr ?_).symm
    rw [nat_mod_cast, Int.emod_emod_of_dvd _ (dvd_refl _)]
  · refine ((wf.share idx _ hidx h1).mpr ?_).symm
    rw [natmod_cast_emod _ hDG]
    push_cast
    rw [Int.add_emod_self, Int.emod_emod_of_dvd _ (dvd_refl _)]

/-- The handles of the directory after one round on the bucket of slot `idx`: those of the
directory before, except the handle of the split bucket, and the two fresh handles. -/
theorem split_mem_dir {hash : K → Int} {t : ExtendibleHashTable K V} (wf : WF hash t)
    (idx : Nat) (hidx : idx < t.dir_.length) (x : Nat) :
    x ∈ (splitBucket hash t (t.handleAt idx)).dir_ ↔
      (x ∈ t.dir_ ∧ x ≠ t.handleAt idx) ∨ x = t.store.length ∨ x = t.store.length + 1 := by
  have hlen2 := split_dir_length hash t (t.handleAt idx) wf.dir_len
  have hDG := wf.depth_le idx hidx
  have hDG2 := split_depth_lt wf idx hidx
  have hGG2 := split_depth_ge t (t.handleAt idx)
  have hD : (t.bucketOf (t.handleAt idx)).depth_ = (t.bucketAt idx).depth_ := rfl
  have hlow : idx % 2 ^ (t.bucketAt idx).depth_ < 2 ^ (t.bucketAt idx).depth_ :=
    Nat.mod_lt _ (by positivity)
  obtain ⟨s0, s1⟩ := shared_slots wf idx hidx
  rw [mem_dir_iff]
  constructor
  · rintro ⟨i, hi, e⟩
    rw [hlen2] at hi
    rw [split_handleAt hash t _ wf.dir_len i hi] at e
    split at e
    · split at e
      · exact Or.inr (Or.inr e.symm)
      · exact Or.inr (Or.inl e.symm)
    · rename_i hne
      refine Or.inl ⟨?_, ?_⟩
      · rw [← e]; exact handleAt_mem t _ (mod_lt_len wf i)
      · rw [← e]; exact hne
  · rintro (⟨hx, hne⟩ | hx | hx)
    · obtain ⟨j, hj, e⟩ := (mem_dir_iff t x).mp hx
      have hj2 : j < 2 ^ t.global_depth_ := by rw [← wf.dir_len]; exact hj
      have hj3 : j < 2 ^ depthAfter t (t.handleAt idx) :=
        lt_of_lt_of_le hj2 (Nat.pow_le_pow_right (by decide) hGG2)
      refine ⟨j, by rw [hlen2]; exact hj3, ?_⟩
      rw [split_handleAt hash t _ wf.dir_len j hj3, Nat.mod_eq_of_lt hj2, e, if_neg hne]
    · have h3 : idx % 2 ^ (t.bucketAt idx).depth_ < 2 ^ t.global_depth_ :=
        lt_of_lt_of_le hlow (Nat.pow_le_pow_right (by decide) hDG)
      have h4 : idx % 2 ^ (t.bucketAt idx).depth_ < 2 ^ depthAfter t (t.handleAt idx) :=
        lt_of_lt_of_le h3 (Nat.pow_le_pow_right (by decide) hGG2)
      refine ⟨idx % 2 ^ (t.bucketAt idx).depth_, by rw [hlen2]; exact h4, ?_⟩
      rw [split_handleAt hash t _ wf.dir_len _ h4, Nat.mod_eq_of_lt h3, if_pos s0, hD,
        bitAt_low _ _ hlow, hx]
      rfl
    · have h4 : idx % 2 ^ (t.bucketAt idx).depth_ + 2 ^ (t.bucketAt idx).depth_
          < 2 ^ depthAfter t (t.handleAt idx) := by
        have : 2 ^ ((t.bucketAt idx).depth_ + 1) ≤ 2 ^ depthAfter t (t.handleAt idx) :=
          Nat.pow_le_pow_right (by decide) hDG2
        rw [pow_succ] at this
        omega
      refine ⟨_, by rw [hlen2]; exact h4, ?_⟩
      rw [split_handleAt hash t _ wf.dir_len _ h4, if_pos s1, hD, bitAt_high _ _ hlow, hx]
      rfl

/-- One round of the loop of `Insert` adds one to the number of distinct buckets. -/
theorem split_distinct {hash : K → Int} {t : ExtendibleHashTable K V} (wf : WF hash t)
    (idx : Nat) (hidx : idx < t.dir_.length) :
    distinctBuckets (splitBucket hash t (t.handleAt idx)) = distinctBuckets t + 1 := by
  unfold distinctBuckets
  rw [← List.card_toFinset, ← List.card_toFinset]
  have hset : (splitBucket hash t (t.handleAt idx)).dir_.toFinset
      = insert t.store.length (insert (t.store.length + 1)
          (t.dir_.toFinset.erase (t.handleAt idx))) := by
    ext x
    simp only [List.mem_toFinset, Finset.mem_insert, Finset.mem_erase]
    rw [split_mem_dir wf idx hidx x]
    tauto
  have hfresh : ∀ y, t.store.length ≤ y → y ∉ t.dir_ := by
    intro y hy hmem
    obtain ⟨j, hj, e⟩ := (mem_dir_iff t y).mp hmem
    have := wf.handle_lt j hj
    omega
  have hin : t.handleAt idx ∈ t.dir_.toFinset :=
    List.mem_toFinset.mpr (handleAt_mem t idx hidx)
  rw [hset, Finset.card_insert_of_not_mem, Finset.card_insert_of_not_mem,
    Finset.card_erase_of_mem hin]
  · have := Finset.card_pos.mpr ⟨_, hin⟩
    omega
  · simp only [Finset.mem_erase, List.mem_toFinset, not_and]
    intro _ hm
    exact hfresh _ (by omega) hm
  · simp only [Finset.mem_insert, Finset.mem_erase, List.mem_toFinset, not_or, not_and]
    refine ⟨by omega, fun _ hm => hfresh _ (le_refl _) hm⟩

theorem insertLoop_count {hash : K → Int} (key : K) (value : V) :
    ∀ (fuel : Nat) (t t2 : ExtendibleHashTable K V), WF hash t → CountOK t →
      insertLoop hash fuel t key value = some t2 → CountOK t2
  | 0, _, _, _, _, h => by simp [insertLoop] at h
  | fuel + 1, t, t2, wf, hc, h => by
    rw [insertLoop_step wf] at h
    have hidx := indexOf_lt wf key
    by_cases hf : (t.bucketAt (IndexOf hash t key)).IsFull = true
    · rw [if_pos hf] at h
      by_cases hd : depthAfter t (t.handleAt (IndexOf hash t key)) ≤ 30
      · rw [if_pos hd] at h
        refine insertLoop_count key value fuel _ t2 (wf_splitBucket wf _ hidx hd) ?_ h
        unfold CountOK
        rw [split_distinct wf _ hidx]
        have : (splitBucket hash t (t.handleAt (IndexOf hash t key))).num_buckets_
            = t.num_buckets_ + 1 := rfl
        rw [this, hc]
        push_cast; rfl
      · rw [if_neg hd] at h
        cases h
    · rw [if_neg hf] at h
      cases h
      exact hc

theorem insert_count [DecidableEq K] {hash : K → Int} {t t2 : ExtendibleHashTable K V}
    (wf : WF hash t) (hc : CountOK t) (key : K) (value : V)
    (h : Insert hash t key value = some t2) : CountOK t2 := by
  unfold Insert InsertFuel at h
  rw [if_pos ((shiftDefined_iff _).mpr wf.depth_max)] at h
  simp only at h
  cases ho : Bucket.overwrite key value (t.bucketOf (t.handleAt (IndexOf hash t key))).list_ with
  | none =>
    rw [ho] at h
    exact insertLoop_count key value _ t t2 wf hc h
  | some l =>
    rw [ho] at h
    cases h
    exact hc

theorem Reachable.count [DecidableEq K] [DecidableEq V] {hash : K → Int} {bucket_size : Nat}
    (hb : 1 ≤ bucket_size) {t : ExtendibleHashTable K V} (hr : Reachable hash bucket_size t) :
    CountOK t := by
  induction hr with
  | init => unfold CountOK distinctBuckets; rfl
  | insert key value hprev h ih => exact insert_count (hprev.wf hb) ih key value h
  | remove key _ ih => exact ih

end ExtendibleHashTable
end bustub

namespace bustub
open ExtendibleHashTable

/-- C20: in every table reachable from a freshly constructed one by `Insert` and `Remove`
calls, `GetNumBuckets()` is the number of distinct buckets the directory refers to, it is at
most `2^G` for the global depth `G`, and the directory has exactly `2^G` slots. -/
theorem numBuckets_counts_distinct {K V : Type} [DecidableEq K] [DecidableEq V]
    (hash : K → Int) (bucket_size : Nat) (hb : 1 ≤ bucket_size)
    (t : ExtendibleHashTable K V) (hr : Reachable hash bucket_size t) :
    GetNumBuckets t = (distinctBuckets t : Int) ∧
    GetNumBuckets t ≤ 2 ^ GetGlobalDepth t ∧
    t.dir_.length = 2 ^ GetGlobalDepth t := by
  have hc : t.num_buckets_ = (distinctBuckets t : Int) := hr.count hb
  have hlen : t.dir_.length = 2 ^ t.global_depth_ := (hr.wf hb).dir_len
  refine ⟨hc, ?_, hlen⟩
  unfold GetNumBuckets GetGlobalDepth
  rw [hc]
  have h1 : distinctBuckets t ≤ t.dir_.length := (List.dedup_sublist t.dir_).length_le
  rw [hlen] at h1
  exact_mod_cast h1

theorem numBuckets_counts_distinct_witness :
    (GetNumBuckets splitTable = (distinctBuckets splitTable : Int) ∧
      GetNumBuckets splitTable ≤ 2 ^ GetGlobalDepth splitTable ∧
      splitTable.dir_.length = 2 ^ GetGlobalDepth splitTable) ∧
    GetGlobalDepth splitTable = 1 ∧ GetNumBuckets splitTable = 2 ∧
    Find (fun k : Int => k) splitTable 4 = some 40 ∧
    Find (fun k : Int => k) splitTable 2 = some 20 ∧
    Find (fun k : Int => k) splitTable 1 = some 10 :=
  ⟨numBuckets_counts_distinct (fun k : Int => k) 2 (by decide) splitTable
    (Reachable.insert (t := fullTable) 1 10
      (Reachable.insert (t := ⟨0, 2, 1, [0], [⟨2, 0, [(4, 40)]⟩]⟩) 2 20
        (Reachable.insert (t := new 2) 4 40 Reachable.init rfl) rfl) rfl),
    by decide, by decide, by decide, by decide, by decide⟩

end bustub

namespace bustub
open BufferPoolManagerInstance

/-- C12 (the code at the failing input): on a leaf page right after `Init`, `KeyIndex`
returns -1 and the first `Insert(10, ·)` fails its `assert(idx >= 0)`; on a page that holds
the key 10, `Insert(20, ·)` returns 2 and leaves the keys 20, 10. -/
theorem leaf_insert_fails_on_empty_page :
    emptyLeaf.size_ = 0 ∧
    BPlusTreeLeafPage.KeyIndex intComparator emptyLeaf 10 = .ok (-1) ∧
    BPlusTreeLeafPage.Insert intComparator emptyLeaf 10 100 = .error .assertion_failed ∧
    BPlusTreeLeafPage.Insert intComparator oneKeyLeaf 20 200
      = .ok (2, { oneKeyLeaf with
                  size_ := 2, array_ := [(20, 200), (10, 100), (0, 0), (0, 0), (0, 0)] }) := by
  refine ⟨rfl, rfl, rfl, rfl⟩

/-- C13 (the code at the failing inputs): `KeyIndex` returns -1 on an empty page; on the page
that holds only the key 10 it returns 0 for the key 20, and on the page with the five keys
10, 20, 25, 30, 40 it returns 4 for the key 41, where every stored key is smaller and the
size is 1 and 5. -/
theorem keyIndex_stops_before_size :
    BPlusTreeLeafPage.KeyIndex intComparator emptyLeaf 10 = .ok (-1) ∧
    (oneKeyLeaf.size_ = 1 ∧ BPlusTreeLeafPage.KeyIndex intComparator oneKeyLeaf 20 = .ok 0) ∧
    (overfullLeaf.size_ = 5 ∧ BPlusTreeLeafPage.KeyIndex intComparator overfullLeaf 41 = .ok 4) ∧
    BPlusTreeLeafPage.KeyIndex intComparator overfullLeaf 26 = .ok 3 := by
  refine ⟨rfl, ⟨rfl, rfl⟩, ⟨rfl, rfl⟩, rfl⟩

/-- C14 (the code at the failing input): on an empty leaf page `LookUp` gets -1 from
`KeyIndex`, passes the test `idx < GetSize()` and reads `array_[-1]`.  On the page that holds
the key 10 it finds 10 and reports 20 absent. -/
theorem leaf_lookup_reads_before_array :
    BPlusTreeLeafPage.LookUp intComparator emptyLeaf 10 = .error (.out_of_bounds (-1)) ∧
    BPlusTreeLeafPage.LookUp intComparator oneKeyLeaf 10 = .ok (some 100) ∧
    BPlusTreeLeafPage.LookUp intComparator oneKeyLeaf 20 = .ok none := by
  refine ⟨rfl, rfl, rfl⟩

/-- C15 (the code at the failing input): `MoveHalfTo` on the leaf with the entries 10, 20, 25,
30, 40 leaves the donor with size 2 (10, 20), links donor, recipient and the old successor,
and gives the recipient size 3 with three copies of the entry 25. -/
theorem leaf_moveHalfTo_copies_one_entry :
    BPlusTreeLeafPage.MoveHalfTo overfullLeaf recipientLeaf
      = .ok ({ overfullLeaf with size_ := 2, next_page_id_ := 8 },
             { recipientLeaf with
               size_ := 3, next_page_id_ := 9,
               array_ := [(25, 250), (25, 250), (25, 250), (0, 0), (0, 0)] }) := by
  rfl

/-- C17 (the code at the failing input): `MoveHalfTo` on the internal page with the children
100 to 104, on a fresh pool of three frames: the donor keeps size 2, the recipient gets
size 3 with three copies of the entry of child 102, and only page 102 is fetched, given the
recipient's page id 7 as parent and unpinned dirty; the pages 103 and 104 are not touched.
This holds whichever value the evictable flag of a default-constructed replacer entry
has. -/
theorem internal_moveHalfTo_copies_one_entry :
    ((BPlusTreeInternalPage.MoveHalfTo false parentIntoCells overfullInternal
        recipientInternal (new 3 (fun _ => [0]) 2 4)).toOption.map
      (fun x => (x.1, x.2.1,
        [100, 101, 102, 103, 104].map (ExtendibleHashTable.Find pageHash x.2.2.page_table_),
        (x.2.2.pages_ 0).page_id_, (x.2.2.pages_ 0).data_, (x.2.2.pages_ 0).pin_count_,
        (x.2.2.pages_ 0).is_dirty_, x.2.2.free_list_))
      = some ({ overfullInternal with size_ := 2 },
          { recipientInternal with
            size_ := 3, array_ := [(20, 102), (20, 102), (20, 102), (0, 0), (0, 0)] },
          [none, none, some 0, none, none], 102, [7], 0, true, [1, 2])) ∧
    ((BPlusTreeInternalPage.MoveHalfTo true parentIntoCells overfullInternal
        recipientInternal (new 3 (fun _ => [0]) 2 4)).toOption.map
      (fun x => (x.1, x.2.1,
        [100, 101, 102, 103, 104].map (ExtendibleHashTable.Find pageHash x.2.2.page_table_),
        (x.2.2.pages_ 0).page_id_, (x.2.2.pages_ 0).data_, (x.2.2.pages_ 0).pin_count_,
        (x.2.2.pages_ 0).is_dirty_, x.2.2.free_list_))
      = some ({ overfullInternal with size_ := 2 },
          { recipientInternal with
            size_ := 3, array_ := [(20, 102), (20, 102), (20, 102), (0, 0), (0, 0)] },
          [none, none, some 0, none, none], 102, [7], 0, true, [1, 2])) := by
  exact ⟨rfl, rfl⟩

/-- C18 (the code at the failing input): page 0 is a leaf with one entry and no successor,
unpinned, and is then pinned once for an iterator at index 0.  `operator++` moves past the
last entry, sets `leaf_` to `nullptr` and leaves the pin count at 1; the destructor then
unpins nothing.  In a chain of two such leaves the first one is unpinned when the iterator
moves on and the last one keeps its pin.  This holds whichever value the evictable flag of a
default-constructed replacer entry has. -/
theorem iterator_keeps_pin_on_last_leaf :
    (((after false (new 2 (fun _ => []) 2 4) (oneLeafPinned.take 3)).pages_ 0).pin_count_ = 0 ∧
      ((after false (new 2 (fun _ => []) 2 4) oneLeafPinned).pages_ 0).pin_count_ = 1 ∧
      (IndexIterator.next false leafOfCells ⟨0, some 0⟩
          (after false (new 2 (fun _ => []) 2 4) oneLeafPinned)).toOption.map
        (fun x => (x.1, (x.2.pages_ 0).pin_count_,
          ((IndexIterator.destroy false leafOfCells x.1 x.2).pages_ 0).pin_count_))
        = some (⟨1, none⟩, 1, 1) ∧
      ((IndexIterator.next false leafOfCells ⟨0, some 0⟩
          (after false (new 2 (fun _ => []) 2 4) twoLeavesPinned)).toOption.bind
        (fun x => (IndexIterator.next false leafOfCells x.1 x.2).toOption)).map
        (fun x => (x.1, (x.2.pages_ 0).pin_count_, (x.2.pages_ 1).pin_count_,
          ((IndexIterator.destroy false leafOfCells x.1 x.2).pages_ 1).pin_count_))
        = some (⟨1, none⟩, 0, 1, 1)) ∧
    (((after true (new 2 (fun _ => []) 2 4) (oneLeafPinned.take 3)).pages_ 0).pin_count_ = 0 ∧
      ((after true (new 2 (fun _ => []) 2 4) oneLeafPinned).pages_ 0).pin_count_ = 1 ∧
      (IndexIterator.next true leafOfCells ⟨0, some 0⟩
          (after true (new 2 (fun _ => []) 2 4) oneLeafPinned)).toOption.map
        (fun x => (x.1, (x.2.pages_ 0).pin_count_,
          ((IndexIterator.destroy true leafOfCells x.1 x.2).pages_ 0).pin_count_))
        = some (⟨1, none⟩, 1, 1) ∧
      ((IndexIterator.next true leafOfCells ⟨0, some 0⟩
          (after true (new 2 (fun _ => []) 2 4) twoLeavesPinned)).toOption.bind
        (fun x => (IndexIterator.next true leafOfCells x.1 x.2).toOption)).map
        (fun x => (x.1, (x.2.pages_ 0).pin_count_, (x.2.pages_ 1).pin_count_,
          ((IndexIterator.destroy true leafOfCells x.1 x.2).pages_ 1).pin_count_))
        = some (⟨1, none⟩, 0, 1, 1)) := by
  exact ⟨⟨by decide, by decide, by decide, by decide⟩,
    ⟨by decide, by decide, by decide, by decide⟩⟩

end bustub

namespace bustub

theorem readSlot_ok {α : Type} (array : List α) (i : Int) (h0 : 0 ≤ i)
    (h1 : i < array.length) :
    ∃ x, readSlot array i = .ok x ∧ array[i.toNat]? = some x := by
  have hlt : i.toNat < array.length := by omega
  refine ⟨array[i.toNat], ?_, List.getElem?_eq_getElem hlt⟩
  unfold readSlot
  rw [if_pos h0, List.get?_eq_getElem?, List.getElem?_eq_getElem hlt]

end bustub

namespace bustub
namespace BPlusTreeInternalPage
variable {K V : Type}

theorem lookupLoop_zero (comparator : K → K → Int) (array : List (K × V)) (key : K)
    (st ed : Int) :
    lookupLoop comparator array key 0 st ed
      = if st ≤ ed then .error .unfinished else .ok st := rfl

theorem lookupLoop_succ (comparator : K → K → Int) (array : List (K × V)) (key : K)
    (fuel : Nat) (st ed : Int) :
    lookupLoop comparator array key (fuel + 1) st ed
      = if st ≤ ed then
          match readSlot array (Int.tdiv (ed - st) 2 + st) with
          | .error e => .error e
          | .ok item =>
            if comparator item.1 key ≤ 0 then
              lookupLoop comparator array key fuel (Int.tdiv (ed - st) 2 + st + 1) ed
            else lookupLoop comparator array key fuel st (Int.tdiv (ed - st) 2 + st - 1)
        else .ok st := rfl

/-- Increasing separators, slot by slot. -/
theorem separators_lt [LinearOrder K] {p : BPlusTreeInternalPage K V}
    (hsorted : (separators p).Pairwise (· < ·)) (i j : Nat) (a b : K × V)
    (hi : 1 ≤ i) (hij : i < j) (hj : (j : Int) < p.size_)
    (ha : p.array_[i]? = some a) (hb : p.array_[j]? = some b) : a.1 < b.1 := by
  have hjn : j < p.size_.toNat := by omega
  have e1 : (separators p)[i - 1]? = some a.1 := by
    unfold separators
    rw [List.getElem?_map, List.getElem?_drop, List.getElem?_take,
      show 1 + (i - 1) = i by omega, if_pos (by omega), ha]
    rfl
  have e2 : (separators p)[j - 1]? = some b.1 := by
    unfold separators
    rw [List.getElem?_map, List.getElem?_drop, List.getElem?_take,
      show 1 + (j - 1) = j by omega, if_pos hjn, hb]
    rfl
  obtain ⟨h1, e1⟩ := List.getElem?_eq_some.mp e1
  obtain ⟨h2, e2⟩ := List.getElem?_eq_some.mp e2
  have := (List.pairwise_iff_getElem.mp hsorted) (i - 1) (j - 1) h1 h2 (by omega)
  rw [e1, e2] at this
  exact this

/-- The loop of `Lookup` ends, and it ends with the first slot whose key is above the
target (with `size` when there is none). -/
theorem lookupLoop_spec [LinearOrder K] {comparator : K → K → Int}
    (hcmp : ∀ a b, comparator a b ≤ 0 ↔ a ≤ b) (array : List (K × V)) (size : Int)
    (hcap : size ≤ array.length)
    (hs : ∀ (i j : Nat) (a b : K × V), 1 ≤ i → i < j → (j : Int) < size →
      array[i]? = some a → array[j]? = some b → a.1 < b.1)
    (target : K) :
    ∀ (fuel : Nat) (st ed : Int), 1 ≤ st → ed < size → st ≤ ed + 1 → ed + 1 - st ≤ fuel →
      (∀ (j : Nat) (item : K × V), 1 ≤ j → (j : Int) < st → array[j]? = some item →
        item.1 ≤ target) →
      (∀ (j : Nat) (item : K × V), ed < (j : Int) → (j : Int) < size →
        array[j]? = some item → target < item.1) →
      ∃ r, lookupLoop comparator array target fuel st ed = .ok r ∧ 1 ≤ r ∧ r ≤ size ∧
        (∀ (j : Nat) (item : K × V), 1 ≤ j → (j : Int) < r → array[j]? = some item →
          item.1 ≤ target) ∧
        (∀ (j : Nat) (item : K × V), r ≤ (j : Int) → (j : Int) < size →
          array[j]? = some item → target < item.1)
  | 0, st, ed, h1, h2, h3, h4, hle, hgt => by
    have : ¬ st ≤ ed := by
      have : ed + 1 - st ≤ 0 := by exact_mod_cast h4
      omega
    rw [lookupLoop_zero, if_neg this]
    exact ⟨st, rfl, h1, by omega, hle, fun j item a b c => hgt j item (by omega) b c⟩
  | fuel + 1, st, ed, h1, h2, h3, h4, hle, hgt => by
    rw [lookupLoop_succ]
    by_cases hlt : st ≤ ed
    · rw [if_pos hlt]
      have hm : Int.tdiv (ed - st) 2 + st = (ed - st) / 2 + st := by
        rw [Int.tdiv_eq_ediv (by omega) (by decide)]
      rw [hm]
      have hm1 : st ≤ (ed - st) / 2 + st := by omega
      have hm2 : (ed - st) / 2 + st ≤ ed := by omega
      obtain ⟨item, hread, hget⟩ := readSlot_ok array ((ed - st) / 2 + st) (by omega) (by omega)
      rw [hread]
      simp only
      have hmid : (((ed - st) / 2 + st).toNat : Int) = (ed - st) / 2 + st :=
        Int.toNat_of_nonneg (by omega)
      have h4i : ed + 1 - st ≤ (fuel : Int) + 1 := by exact_mod_cast h4
      by_cases hc : comparator item.1 target ≤ 0
      · rw [if_pos hc]
        apply lookupLoop_spec hcmp array size hcap hs target fuel _ ed (by omega) h2 (by omega)
          (by omega) _ hgt
        intro j other hj1 hj2 hj3
        by_cases hjm : j = ((ed - st) / 2 + st).toNat
        · rw [hjm, hget] at hj3
          cases hj3
          exact (hcmp _ _).mp hc
        · have hjlt : j < ((ed - st) / 2 + st).toNat := by omega
          have := hs j _ other item hj1 hjlt (by omega) hj3 hget
          exact le_of_lt (lt_of_lt_of_le this ((hcmp _ _).mp hc))
      · rw [if_neg hc]
        have hgtm : target < item.1 := by
          rw [hcmp] at hc
          exact lt_of_not_le hc
        apply lookupLoop_spec hcmp array size hcap hs target fuel st _ h1 (by omega) (by omega)
          (by omega) hle
        intro j other hj1 hj2 hj3
        by_cases hjm : j = ((ed - st) / 2 + st).toNat
        · rw [hjm, hget] at hj3
          cases hj3
          exact hgtm
        · have hjgt : ((ed - st) / 2 + st).toNat < j := by omega
          have hmge : 1 ≤ ((ed - st) / 2 + st).toNat := by omega
          have := hs _ j item other hmge hjgt hj2 hget hj3
          exact lt_trans hgtm this
    · rw [if_neg hlt]
      exact ⟨st, rfl, h1, by omega, hle, fun j item a b c => hgt j item (by omega) b c⟩

end BPlusTreeInternalPage
end bustub

namespace bustub

theorem intComparator_le (a b : Int) : intComparator a b ≤ 0 ↔ a ≤ b := by
  unfold intComparator
  split
  · constructor
    · intro _; omega
    · intro _; decide
  · split
    · constructor
      · intro _; omega
      · intro _; decide
    · constructor
      · intro h; exact absurd h (by decide)
      · intro _; omega

/-- C16: on an internal page with `size > 1` whose array holds at least `size` slots and
whose keys at the slots 1 to `size - 1` are strictly increasing, for a comparator that is at
most 0 exactly on pairs in order: `Lookup` returns, and it returns the value of a slot `i`
such that `i = 0` or the key of slot `i` is at most the target, while the key of every later
slot is above the target; so `i` is the greatest slot from 1 on whose key is at most the
target, and slot 0 when there is none. -/
theorem internal_lookup_greatest_separator {K V : Type} [LinearOrder K]
    (comparator : K → K → Int) (hcmp : ∀ a b, comparator a b ≤ 0 ↔ a ≤ b)
    (p : BPlusTreeInternalPage K V) (hsize : 1 < p.size_)
    (hcap : p.size_ ≤ (p.array_.length : Int))
    (hsorted : (BPlusTreeInternalPage.separators p).Pairwise (· < ·)) (target : K) :
    ∃ (i : Nat) (item : K × V), (i : Int) < p.size_ ∧ p.array_[i]? = some item ∧
      BPlusTreeInternalPage.Lookup comparator p target = .ok item.2 ∧
      (1 ≤ i → item.1 ≤ target) ∧
      ∀ (j : Nat) (other : K × V), i < j → (j : Int) < p.size_ →
        p.array_[j]? = some other → target < other.1 := by
  obtain ⟨r, hr, h1, h2, hle, hgt⟩ :=
    BPlusTreeInternalPage.lookupLoop_spec hcmp p.array_ p.size_ hcap
      (fun i j a b => BPlusTreeInternalPage.separators_lt hsorted i j a b) target
      p.size_.toNat 1 (p.size_ - 1) (le_refl _) (by omega) (by omega)
      (by rw [Int.toNat_of_nonneg (by omega)]; omega)
      (fun j item a b _ => by omega) (fun j item a b _ => by omega)
  obtain ⟨item, hread, hget⟩ := readSlot_ok p.array_ (r - 1) (by omega) (by omega)
  refine ⟨(r - 1).toNat, item, by omega, hget, ?_, ?_, ?_⟩
  · unfold BPlusTreeInternalPage.Lookup
    rw [if_pos hsize, hr]
    simp only
    rw [hread]
    rfl
  · intro hi
    exact hle _ item hi (by omega) hget
  · intro j other hj1 hj2 hj3
    exact hgt j other (by omega) hj2 hj3

theorem internal_lookup_greatest_separator_witness :
    (∃ (i : Nat) (item : Int × Int), (i : Int) < overfullInternal.size_ ∧
      overfullInternal.array_[i]? = some item ∧
      BPlusTreeInternalPage.Lookup intComparator overfullInternal 20 = .ok item.2 ∧
      (1 ≤ i → item.1 ≤ 20) ∧
      ∀ (j : Nat) (other : Int × Int), i < j → (j : Int) < overfullInternal.size_ →
        overfullInternal.array_[j]? = some other → 20 < other.1) ∧
    BPlusTreeInternalPage.Lookup intComparator overfullInternal 20 = .ok 102 ∧
    BPlusTreeInternalPage.Lookup intComparator overfullInternal 25 = .ok 102 ∧
    BPlusTreeInternalPage.Lookup intComparator overfullInternal 5 = .ok 100 ∧
    BPlusTreeInternalPage.Lookup intComparator overfullInternal 45 = .ok 104 :=
  ⟨internal_lookup_greatest_separator intComparator intComparator_le overfullInternal
    (by decide) (by decide) (by decide) 20, rfl, rfl, rfl, rfl⟩

end bustub

namespace bustub
open ExtendibleHashTable

/-- C22: in every table reachable from a freshly constructed one by `Insert` and `Remove`
calls (the doublings and splits of `Insert` included), for every directory index `i`: the
local depth `L` of the bucket `dir[i]` is at most the global depth, and every key stored in
that bucket has `hash(key) mod 2^L = i mod 2^L`. -/
theorem bucket_keys_match_slot {K V : Type} [DecidableEq K] [DecidableEq V] (hash : K → Int)
    (bucket_size : Nat) (hb : 1 ≤ bucket_size) (t : ExtendibleHashTable K V)
    (hr : Reachable hash bucket_size t) (i : Nat) (hi : i < t.dir_.length) :
    GetLocalDepth t i ≤ GetGlobalDepth t ∧
    ∀ item ∈ (t.bucketAt i).list_,
      hash item.1 % 2 ^ GetLocalDepth t i = (i : Int) % 2 ^ GetLocalDepth t i :=
  ⟨(hr.wf hb).depth_le i hi, (hr.wf hb).hash_ok i hi⟩

theorem bucket_keys_match_slot_witness :
    GetLocalDepth splitTable 1 ≤ GetGlobalDepth splitTable ∧
    ∀ item ∈ (splitTable.bucketAt 1).list_,
      (fun k : Int => k) item.1 % 2 ^ GetLocalDepth splitTable 1
        = ((1 : Nat) : Int) % 2 ^ GetLocalDepth splitTable 1 :=
  bucket_keys_match_slot (fun k : Int => k) 2 (by decide) splitTable
    (Reachable.insert (t := fullTable) 1 10
      (Reachable.insert (t := ⟨0, 2, 1, [0], [⟨2, 0, [(4, 40)]⟩]⟩) 2 20
        (Reachable.insert (t := new 2) 4 40 Reachable.init rfl) rfl) rfl) 1 (by decide)

/-- C24: in every reachable table, for keys `k' ≠ k` and every value `v`: `Find(k')` yields
the same result before and after `Insert(k, v)`, whatever number of doublings and splits the
insert makes, and before and after `Remove(k)`; `Insert` returns when `k` is present or fewer
than `bucket_size` of the keys stored in the bucket of `k` agree with `k` on the low 30 bits
of the hash, so that no directory deeper than 30 is needed; and in the table an insert
leaves, every pair stored in the bucket of a directory slot is the pair `Find` yields for its
key and no bucket holds a key twice, so no pair is lost or duplicated. -/
theorem other_keys_undisturbed {K V : Type} [DecidableEq K] [DecidableEq V] (hash : K → Int)
    (bucket_size : Nat) (hb : 1 ≤ bucket_size) (t : ExtendibleHashTable K V)
    (hr : Reachable hash bucket_size t) (k k2 : K) (hne : k2 ≠ k) (v : V) :
    (∀ t2, ExtendibleHashTable.Insert hash t k v = some t2 →
      Find hash t2 k2 = Find hash t k2 ∧
      ∀ i, i < t2.dir_.length →
        ((t2.bucketAt i).list_.map Prod.fst).Nodup ∧
        ∀ item ∈ (t2.bucketAt i).list_, Find hash t2 item.1 = some item.2) ∧
    (((Find hash t k).isSome = true ∨
        (twins hash k (t.bucketAt (IndexOf hash t k)).list_).length < t.bucket_size_) →
      ∃ t2, ExtendibleHashTable.Insert hash t k v = some t2) ∧
    Find hash (Remove hash t k).2 k2 = Find hash t k2 := by
  have wf := hr.wf hb
  refine ⟨?_, fun hc => insert_returns wf k v hc, (remove_spec wf k).2.2.2.1 k2 hne⟩
  intro t2 h
  obtain ⟨wf2, _, hother⟩ := insert_spec wf k v h
  exact ⟨hother k2 hne, fun i hi => ⟨wf2.nodup i hi, stored_is_found wf2 i hi⟩⟩

theorem other_keys_undisturbed_witness :
    ((∀ t2, ExtendibleHashTable.Insert (fun k : Int => k) fullTable 1 10 = some t2 →
      Find (fun k : Int => k) t2 4 = Find (fun k : Int => k) fullTable 4 ∧
      ∀ i, i < t2.dir_.length →
        ((t2.bucketAt i).list_.map Prod.fst).Nodup ∧
        ∀ item ∈ (t2.bucketAt i).list_, Find (fun k : Int => k) t2 item.1 = some item.2) ∧
    (((Find (fun k : Int => k) fullTable 1).isSome = true ∨
        (twins (fun k : Int => k) 1
          (fullTable.bucketAt (IndexOf (fun k : Int => k) fullTable 1)).list_).length
          < fullTable.bucket_size_) →
      ∃ t2, ExtendibleHashTable.Insert (fun k : Int => k) fullTable 1 10 = some t2) ∧
    Find (fun k : Int => k) (Remove (fun k : Int => k) fullTable 1).2 4
      = Find (fun k : Int => k) fullTable 4) ∧
    ExtendibleHashTable.Insert (fun k : Int => k) fullTable 1 10 = some splitTable ∧
    Find (fun k : Int => k) fullTable 4 = some 40 ∧
    Find (fun k : Int => k) splitTable 4 = some 40 :=
  ⟨other_keys_undisturbed (fun k : Int => k) 2 (by decide) fullTable
    (Reachable.insert (t := ⟨0, 2, 1, [0], [⟨2, 0, [(4, 40)]⟩]⟩) 2 20
      (Reachable.insert (t := new 2) 4 40 Reachable.init rfl) rfl) 1 4 (by decide) 10,
    rfl, rfl, rfl⟩

end bustub

namespace bustub
namespace LRUKReplacer

/-- In a reachable replacer with `K >= 2`, `RecordAccess` returns for every frame id that
passes its range check. -/
theorem recordAccess_returns {ev0 : Bool} {t : Timed} (inv : TimedInv t) (f : Int)
    (hf : f ≤ toInt32 t.r.replacer_size_) : ∃ r2, RecordAccess ev0 t.r f = .ok r2 := by
  have hk := inv.k_ge
  cases hl : lookup t.r.entrys_ f with
  | none => exact recordAccess_fresh ev0 t.r f hf hl
  | some e =>
    have he : entryAt ev0 t.r.entrys_ f = e := entryAt_of_some hl
    unfold RecordAccess
    rw [if_neg (by omega)]
    simp only [he]
    by_cases h1 : e.hit_count_ + 1 = 1
    · rw [if_pos h1]; exact ⟨_, rfl⟩
    · rw [if_neg h1]
      have hpos : 1 ≤ e.hit_count_ := by omega
      have hlisted := inv.cons.listed_of_hit f e hl hpos
      by_cases h2 : e.hit_count_ + 1 = t.r.k_
      · rw [if_pos h2]
        have hmem : f ∈ t.r.history_list_ := by
          rcases (listed_iff t.r f).mp hlisted with hm | hm
          · exact hm
          · obtain ⟨e2, he2, hge⟩ := inv.cache f hm
            rw [hl] at he2; cases he2
            omega
        rw [if_pos hmem]; exact ⟨_, rfl⟩
      · rw [if_neg h2]
        by_cases h3 : e.hit_count_ + 1 > t.r.k_
        · rw [if_pos h3]
          have hmem : f ∈ t.r.cache_list_ := by
            rcases (listed_iff t.r f).mp hlisted with hm | hm
            · obtain ⟨e2, he2, hlt⟩ := inv.hist f hm
              rw [hl] at he2; cases he2
              omega
            · exact hm
          rw [if_pos hmem]; exact ⟨_, rfl⟩
        · rw [if_neg h3]; exact ⟨_, rfl⟩

/-- What a returning `RecordAccess` does to the size and to the history list on a first
access. -/
theorem recordAccess_size_eq {ev0 : Bool} {r r2 : LRUKReplacer} {f : Int}
    (h : RecordAccess ev0 r f = .ok r2) :
    ((entryAt ev0 r.entrys_ f).hit_count_ = 0 →
      Size r2 = sizeInc (Size r) ∧ r2.history_list_ = f :: r.history_list_) ∧
    (1 ≤ (entryAt ev0 r.entrys_ f).hit_count_ → Size r2 = Size r) := by
  unfold RecordAccess at h
  by_cases h0 : f > toInt32 r.replacer_size_
  · rw [if_pos h0] at h; cases h
  rw [if_neg h0] at h
  simp only at h
  by_cases h1 : (entryAt ev0 r.entrys_ f).hit_count_ + 1 = 1
  · rw [if_pos h1] at h
    cases h
    exact ⟨fun _ => ⟨rfl, rfl⟩, fun hp => by omega⟩
  · rw [if_neg h1] at h
    refine ⟨fun hz => by omega, fun _ => ?_⟩
    split at h
    · split at h
      · cases h; rfl
      · cases h
    · split at h
      · split at h
        · cases h; rfl
        · cases h
      · cases h; rfl

end LRUKReplacer
end bustub

namespace bustub
open LRUKReplacer

/-- C23 (counterexample): the first `RecordAccess(1)` on a fresh replacer returns and takes
`Size()` from 0 to 1; the second access leaves it at 1.  This holds whichever value the
evictable flag of a default-constructed entry has. -/
theorem first_access_changes_size :
    (Size (LRUKReplacer.new 7 2) = 0 ∧
      (RecordAccess false (LRUKReplacer.new 7 2) 1).toOption.map Size = some 1 ∧
      ((RecordAccess false (LRUKReplacer.new 7 2) 1).toOption.bind
        (fun r => (RecordAccess false r 1).toOption)).map Size = some 1) ∧
    (Size (LRUKReplacer.new 7 2) = 0 ∧
      (RecordAccess true (LRUKReplacer.new 7 2) 1).toOption.map Size = some 1 ∧
      ((RecordAccess true (LRUKReplacer.new 7 2) 1).toOption.bind
        (fun r => (RecordAccess true r 1).toOption)).map Size = some 1) := by
  exact ⟨⟨rfl, rfl, rfl⟩, ⟨rfl, rfl, rfl⟩⟩

/-- C23 (amended): in every replacer state reachable with `K >= 2` and for every frame id
that passes the range check of `RecordAccess` (as every id of `[0, replacer_size)` does),
`RecordAccess` returns; on the first access of a frame it adds one to `Size()` (a `size_t`
increment) and places the frame at the head of the history list, and on every later access
of the frame it leaves `Size()` as it was. -/
theorem recordAccess_size (ev0 : Bool) (num_frames k : Nat) (hk : 2 ≤ k) (t : Timed)
    (hr : TimedReachable ev0 num_frames k t) (f : Int)
    (hf : f ≤ toInt32 t.r.replacer_size_) :
    ∃ r2, RecordAccess ev0 t.r f = .ok r2 ∧
      ((entryAt ev0 t.r.entrys_ f).hit_count_ = 0 →
        Size r2 = sizeInc (Size t.r) ∧ r2.history_list_ = f :: t.r.history_list_) ∧
      (1 ≤ (entryAt ev0 t.r.entrys_ f).hit_count_ → Size r2 = Size t.r) := by
  obtain ⟨r2, h⟩ := @recordAccess_returns ev0 t (hr.timedInv hk) f hf
  exact ⟨r2, h, recordAccess_size_eq h⟩

theorem recordAccess_size_witness :
    (∃ r2, RecordAccess false (Timed.after false (Timed.init 7 2) scenarioS3).r 4 = .ok r2 ∧
      ((entryAt false (Timed.after false (Timed.init 7 2) scenarioS3).r.entrys_ 4).hit_count_
          = 0 →
        Size r2 = sizeInc (Size (Timed.after false (Timed.init 7 2) scenarioS3).r) ∧
        r2.history_list_
          = 4 :: (Timed.after false (Timed.init 7 2) scenarioS3).r.history_list_) ∧
      (1 ≤ (entryAt false (Timed.after false (Timed.init 7 2) scenarioS3).r.entrys_
          4).hit_count_ →
        Size r2 = Size (Timed.after false (Timed.init 7 2) scenarioS3).r)) ∧
    (entryAt false (Timed.after false (Timed.init 7 2) scenarioS3).r.entrys_ 4).hit_count_ = 0 ∧
    (entryAt false (Timed.after false (Timed.init 7 2) scenarioS3).r.entrys_ 1).hit_count_ = 2 :=
  ⟨recordAccess_size false 7 2 (by decide) _ (timed_after_reachable false 7 2 scenarioS3) 4
    (by decide), by decide, by decide⟩

end bustub

namespace bustub
open LRUKReplacer BufferPoolManagerInstance

end bustub
